import Mathlib

/-!
# Verification of the m3 protobuf streaming codec

A shallow embedding of `src/dbnode/encoding/proto/encoder.go` and
`src/dbnode/encoding/proto/iterator.go` (the `proto` package of the m3
repository).  The bit-level output/input streams (`OStream` / `IStream`),
the `m3tsz.WriteXOR` float compressor, the `customFields` / `tszFields`
helper and the protobuf dynamic-message library are external to the
provided sources; they are modelled from the specification where noted.

Machine integers are modelled as `Nat` with explicit `2 ^ 64` bounds.
Streams are modelled at the bit level (`List Bool`, most significant bit
first), matching the writer/reader contract that the reader observes
exactly the bit sequence that was written.
-/

namespace M3Proto

/-- A bit stream, most significant bit first, as produced by the `OStream`
bit writer and consumed by the `IStream` bit reader. -/
abbrev Bits := List Bool

/-- The low `n` bits of `v`, most significant bit first.  Models
`OStream.WriteBits(v, n)`. -/
def natToBits : Nat → Nat → Bits
  | 0, _ => []
  | n + 1, v => (decide (v / 2 ^ n % 2 = 1)) :: natToBits n v

/-- Models `IStream.ReadBit`: `none` is the `io.EOF` end-of-stream error. -/
def readBit : Bits → Option (Bool × Bits)
  | [] => none
  | b :: bs => some (b, bs)

/-- Accumulator form of `IStream.ReadBits`. -/
def readBitsAcc : Nat → Nat → Bits → Option (Nat × Bits)
  | acc, 0, bs => some (acc, bs)
  | _, _ + 1, [] => none
  | acc, n + 1, b :: bs => readBitsAcc (2 * acc + (if b then 1 else 0)) n bs

/-- Models `IStream.ReadBits(n)` (MSB-first accumulation). -/
def readBitsL (n : Nat) (bs : Bits) : Option (Nat × Bits) :=
  readBitsAcc 0 n bs

/-- Models `OStream.WriteBytes`: each byte is appended MSB-first. -/
def bytesToBits : List Nat → Bits
  | [] => []
  | b :: bs => natToBits 8 b ++ bytesToBits bs

/-- Models `IStream.ReadByte` (8 bits, MSB-first). -/
def readByteBits (bs : Bits) : Option (Nat × Bits) :=
  readBitsL 8 bs

/-- Reading `n` bytes one at a time, as the iterator's marshalled-payload
loop does. -/
def readNBytes : Nat → Bits → Option (List Nat × Bits)
  | 0, bs => some ([], bs)
  | n + 1, bs =>
    (readByteBits bs).bind fun p =>
      (readNBytes n p.2).map fun q => (p.1 :: q.1, q.2)

/-- LEB128 groups of `x`, least significant group first, fuelled (10 groups
cover every `u64`; `binary.PutUvarint` produces exactly these bytes). -/
def uvarintBytesAux : Nat → Nat → List Nat
  | 0, _ => []
  | f + 1, x => if x < 128 then [x] else (x % 128 + 128) :: uvarintBytesAux f (x / 128)

/-- The bytes `binary.PutUvarint` writes for `x` (for `x < 2 ^ 70`). -/
def uvarintBytes (x : Nat) : List Nat :=
  uvarintBytesAux 10 x

/-- Models `encoder.encodeVarInt`: `binary.PutUvarint` into the 8-byte
scratch `varIntBuf` followed by `WriteBytes`.  `none` models the
out-of-bounds slice access (a Go runtime panic) when the LEB128 form of `x`
needs more than the 8 bytes the scratch holds. -/
def encodeVarIntBits (x : Nat) : Option Bits :=
  if (uvarintBytes x).length ≤ 8 then some (bytesToBits (uvarintBytes x)) else none

/-- Models `iterator.readVarInt`: read bytes from the bit stream until one
has a clear continuation bit, then decode.  Fuelled; the fuel passed at
every call site exceeds the number of bytes the stream can supply, so the
fuel never runs out before the stream does. -/
def readUvarintAux : Nat → Bits → Option (Nat × Bits)
  | 0, _ => none
  | f + 1, bs =>
    (readByteBits bs).bind fun p =>
      if p.1 < 128 then some (p.1, p.2)
      else (readUvarintAux f p.2).map fun q => (p.1 % 128 + 128 * q.1, q.2)

def readUvarintBits (bs : Bits) : Option (Nat × Bits) :=
  readUvarintAux (bs.length / 8 + 1) bs

/-- Byte-level LEB128 decoder, as `binary.Uvarint` decodes the collected
bytes inside `dynamic.Message.UnmarshalMerge`'s wire parsing. -/
def readUvarintBytes : Nat → List Nat → Option (Nat × List Nat)
  | 0, _ => none
  | _ + 1, [] => none
  | f + 1, b :: bs =>
    if b < 128 then some (b, bs)
    else (readUvarintBytes f bs).map fun q => (b % 128 + 128 * q.1, q.2)

/-- Fuelled bit length (position of the highest set bit plus one). -/
def bitLenAux : Nat → Nat → Nat
  | 0, _ => 0
  | f + 1, x => if x = 0 then 0 else bitLenAux f (x / 2) + 1

def bitLen (x : Nat) : Nat :=
  bitLenAux 64 x

/-- Models Go's `bits.LeadingZeros64` (for `x < 2 ^ 64`; 64 at zero). -/
def clz64 (x : Nat) : Nat :=
  64 - bitLen x

def ctzAux : Nat → Nat → Nat
  | 0, _ => 0
  | f + 1, x => if x % 2 = 1 then 0 else ctzAux f (x / 2) + 1

/-- Models Go's `bits.TrailingZeros64` (for `x < 2 ^ 64`; 64 at zero). -/
def ctz64 (x : Nat) : Nat :=
  ctzAux 64 x

/-- Modelled from the spec: `m3tsz.WriteXOR` (§4.3), which is not under
`src/`.  Opcode bit `0` for a zero XOR; `10` followed by the meaningful
bits reusing the previous XOR's leading/trailing window; `11` followed by
6 bits of leading-zero count, 6 bits of meaningful-bit count minus one,
and the meaningful bits. -/
def writeXOR (prevXOR curXOR : Nat) : Bits :=
  if curXOR = 0 then [false]
  else
    if clz64 curXOR < clz64 prevXOR ∨ ctz64 curXOR < ctz64 prevXOR then
      [true, true] ++ natToBits 6 (clz64 curXOR) ++
        natToBits 6 (64 - clz64 curXOR - ctz64 curXOR - 1) ++
        natToBits (64 - clz64 curXOR - ctz64 curXOR) (curXOR / 2 ^ ctz64 curXOR)
    else
      [true, false] ++
        natToBits (64 - clz64 prevXOR - ctz64 prevXOR) (curXOR / 2 ^ ctz64 prevXOR)

/-- `iterator.readXOR`: read a 1-bit then possibly a second opcode bit,
then the XOR payload; the contained opcode (`10`) reuses the geometry of
`prevXOR`.  (In Go a malformed header can make `numTrailingZeros`
negative, shifting to zero; `Nat` subtraction also truncates at zero, and
no writer-produced stream reaches that case.) -/
def readXORBits (prevXOR : Nat) (bs : Bits) : Option (Nat × Bits) :=
  (readBitsL 1 bs).bind fun p =>
    if p.1 = 0 then some (0, p.2)
    else
      (readBitsL 1 p.2).bind fun q =>
        if p.1 * 2 + q.1 = 2 then
          (readBitsL (64 - clz64 prevXOR - ctz64 prevXOR) q.2).map fun r =>
            (r.1 * 2 ^ ctz64 prevXOR, r.2)
        else
          (readBitsL 6 q.2).bind fun lz =>
            (readBitsL 6 lz.2).bind fun mm =>
              (readBitsL (mm.1 + 1) mm.2).map fun r =>
                (r.1 * 2 ^ (64 - lz.1 - (mm.1 + 1)), r.2)

/-- Scalar classification of a schema field.  `fDouble`/`fFloat` are the
custom (float-codec) types, everything else is shipped via the generic
protobuf payload path. -/
inductive FieldType where
  | fDouble
  | fFloat
  | fGeneric
  deriving DecidableEq, Repr

/-- A field value of a dynamic message.  Doubles and floats are carried as
their IEEE-754 bit patterns; other scalars as an opaque numeric code. -/
inductive Value where
  | vFloat64 (bits : Nat)
  | vFloat32 (bits : Nat)
  | vGeneric (n : Nat)
  deriving DecidableEq, Repr

/-- One field of the schema descriptor: a numeric tag and a scalar type. -/
structure FieldDef where
  tag : Nat
  ftype : FieldType
  deriving DecidableEq, Repr

/-- The schema descriptor: an ordered list of fields. -/
abbrev Schema := List FieldDef

/-- The proto3 default (zero) value of a field type, as
`field.GetDefaultValue()` returns it. -/
def zeroValue : FieldType → Value
  | .fDouble => .vFloat64 0
  | .fFloat => .vFloat32 0
  | .fGeneric => .vGeneric 0

/-- `schema.FindFieldByNumber`. -/
def findField (sch : Schema) (tag : Nat) : Option FieldDef :=
  sch.find? (fun f => f.tag == tag)

/-- `fieldsContains` of the encoder: membership of a tag in the schema. -/
def fieldsContains (sch : Schema) (tag : Nat) : Bool :=
  (findField sch tag).isSome

def defaultValue (sch : Schema) (tag : Nat) : Value :=
  match findField sch tag with
  | some f => zeroValue f.ftype
  | none => .vGeneric 0

/-- A dynamic protobuf message: the explicitly set fields (tag/value
pairs) plus whether the message carries wire-format unknown fields
(`GetUnknownFields`). -/
structure Msg where
  fields : List (Nat × Value)
  unknown : Bool
  deriving DecidableEq, Repr

def emptyMsg : Msg := ⟨[], false⟩

/-- `dynamic.Message.GetFieldByNumber`: the set value, or the field's
default when the field is unset. -/
def getField (sch : Schema) (m : Msg) (tag : Nat) : Value :=
  match m.fields.lookup tag with
  | some v => v
  | none => defaultValue sch tag

/-- `dynamic.Message.TryClearFieldByNumber`. -/
def clearField (m : Msg) (tag : Nat) : Msg :=
  ⟨m.fields.filter (fun p => p.1 != tag), m.unknown⟩

/-- `dynamic.Message.TrySetFieldByNumber`. -/
def setField (m : Msg) (tag : Nat) (v : Value) : Msg :=
  ⟨(tag, v) :: m.fields.filter (fun p => p.1 != tag), m.unknown⟩

def clearFieldList (m : Msg) (tags : List Nat) : Msg :=
  tags.foldl clearField m

/-- proto3 zero-value test: a scalar field whose value equals its type's
zero value is omitted from the marshalled wire form. -/
def isZeroValue : Value → Bool
  | .vFloat64 b => b == 0
  | .vFloat32 b => b == 0
  | .vGeneric n => n == 0

/-- Injective numeric code of a value, for the modelled wire format. -/
def valueCode : Value → Nat
  | .vFloat64 b => 3 * b
  | .vFloat32 b => 3 * b + 1
  | .vGeneric n => 3 * n + 2

def valueOfCode (c : Nat) : Value :=
  if c % 3 = 0 then .vFloat64 (c / 3)
  else if c % 3 = 1 then .vFloat32 (c / 3)
  else .vGeneric (c / 3)

/-- Wire bytes of a list of fields: tag varint then value varint, in list
order. -/
def marshalFieldList (l : List (Nat × Value)) : List Nat :=
  l.foldr (fun p acc => uvarintBytes p.1 ++ uvarintBytes (valueCode p.2) ++ acc) []

/-- Modelled from the spec: `dynamic.Message.Marshal` of the external
protobuf library (§4.4).  The set fields are serialised in order, except
that proto3 omits fields holding their type's zero value; the concrete
byte format is an injective tag/value encoding standing in for the real
protobuf wire format. -/
def marshalMsg (m : Msg) : List Nat :=
  marshalFieldList (m.fields.filter (fun p => !isZeroValue p.2))

/-- Parse the modelled wire format back into tag/value pairs (the parsing
half of `UnmarshalMerge`), fuelled by the buffer length. -/
def parsePairsAux : Nat → List Nat → Option (List (Nat × Value))
  | _, [] => some []
  | 0, _ :: _ => none
  | f + 1, b :: bs =>
    (readUvarintBytes ((b :: bs).length + 1) (b :: bs)).bind fun t =>
      (readUvarintBytes (t.2.length + 1) t.2).bind fun c =>
        (parsePairsAux f c.2).map fun l => (t.1, valueOfCode c.1) :: l

/-- Modelled from the spec: `dynamic.Message.UnmarshalMerge` (§4.5 step
5) — merge semantics: each field present in the buffer overwrites the
corresponding field of `m`; fields not present are left unchanged. -/
def unmarshalMerge (m : Msg) (bytes : List Nat) : Option Msg :=
  (parsePairsAux bytes.length bytes).map fun pairs =>
    pairs.foldl (fun acc p => setField acc p.1 p.2) m

/-- Per-custom-field codec state (`tszFieldState` of the encoder and
`customFieldState` of the iterator). -/
structure CustomState where
  fieldNum : Nat
  prevXOR : Nat
  prevFloatBits : Nat
  ftype : FieldType
  deriving DecidableEq, Repr

def insertFieldByTag (f : FieldDef) : List FieldDef → List FieldDef
  | [] => [f]
  | g :: gs => if f.tag ≤ g.tag then f :: g :: gs else g :: insertFieldByTag f gs

def sortFieldsByTag : List FieldDef → List FieldDef
  | [] => []
  | f :: fs => insertFieldByTag f (sortFieldsByTag fs)

def isCustomType (t : FieldType) : Bool :=
  t == .fDouble || t == .fFloat

/-- Modelled from the spec: `customFields` / `tszFields` (declared but not
under `src/`) — the custom fields are the `double` and `float` fields of
the schema, in ascending tag order at bind time (§3 and glossary), with
zeroed per-field state. -/
def customFields (sch : Schema) : List CustomState :=
  (sortFieldsByTag (sch.filter (fun f => isCustomType f.ftype))).map
    (fun f => ⟨f.tag, 0, 0, f.ftype⟩)

/-- Modelled from the spec: Go's exact widening conversion
`float64(float32 value)` at the bit level — sign copied, exponent
re-biased (+896), mantissa widened by 29 bits; float32 subnormals are
normalised; infinities and NaNs map onto their double encodings. -/
def f32ToF64Bits (b : Nat) : Nat :=
  let sign := b / 2 ^ 31 % 2
  let exp := b / 2 ^ 23 % 2 ^ 8
  let frac := b % 2 ^ 23
  if exp = 255 then
    sign * 2 ^ 63 + 2047 * 2 ^ 52 + frac * 2 ^ 29
  else if exp = 0 then
    if frac = 0 then sign * 2 ^ 63
    else
      sign * 2 ^ 63 + (bitLen frac - 1 + 874) * 2 ^ 52 +
        frac % 2 ^ (bitLen frac - 1) * 2 ^ (52 - (bitLen frac - 1))
  else
    sign * 2 ^ 63 + (exp + 896) * 2 ^ 52 + frac * 2 ^ 29

/-- Round `a / 2 ^ s` to nearest, ties to even. -/
def rneDiv (a s : Nat) : Nat :=
  let q := a / 2 ^ s
  let r := a % 2 ^ s
  if r * 2 > 2 ^ s ∨ (r * 2 = 2 ^ s ∧ q % 2 = 1) then q + 1 else q

/-- Modelled from the spec: Go's narrowing conversion `float32(float64
value)` at the bit level (round to nearest even, overflow to infinity,
subnormal underflow).  Only the dead `float32` branch of
`updateLastIteratedWithTSZValues` uses it; no theorem below reaches it. -/
def f64ToF32Bits (b : Nat) : Nat :=
  let sign := b / 2 ^ 63 % 2
  let exp := b / 2 ^ 52 % 2 ^ 11
  let frac := b % 2 ^ 52
  if exp = 2047 then
    if frac = 0 then sign * 2 ^ 31 + 255 * 2 ^ 23
    else sign * 2 ^ 31 + 255 * 2 ^ 23 + max 1 (frac / 2 ^ 29)
  else if 1151 ≤ exp then
    sign * 2 ^ 31 + 255 * 2 ^ 23
  else if 897 ≤ exp then
    sign * 2 ^ 31 + (exp - 897) * 2 ^ 23 + rneDiv (2 ^ 52 + frac) 29
  else
    let sig := if exp = 0 then frac else 2 ^ 52 + frac
    let sh := if exp = 0 then 1 else exp
    sign * 2 ^ 31 + rneDiv sig (926 - sh)

/-- Encoder error values (`errEncoder...` of `encoder.go`).
`varIntOverflow` stands for the runtime panic of `binary.PutUvarint` on
the 8-byte scratch (see `encodeVarIntBits`). -/
inductive EncErr where
  | closed
  | schemaRequired
  | unknownFields
  | unknownFieldType
  | varIntOverflow
  deriving DecidableEq, Repr

/-- Encoder state (`encoder` struct).  The output stream is carried as the
bit sequence written so far.  On an error return the Go encoder may have
already written part of a record and is left in an undefined state (§4.4
failure semantics); the model returns the pre-call state inside `.error`
contexts, which no claim below inspects. -/
structure EncState where
  schema : Option Schema
  lastEncoded : Option Msg
  tszFields : List CustomState
  hasWrittenFirstTSZ : Bool
  closed : Bool
  stream : Bits
  deriving DecidableEq, Repr

/-- `NewEncoder` with non-nil options. -/
def newEncoder : EncState :=
  { schema := none
    lastEncoded := none
    tszFields := []
    hasWrittenFirstTSZ := false
    closed := false
    stream := [] }

/-- `encoder.Reset`: rebind the buffer, install the schema, drop rolling
state, clear the first-value and closed flags.  (The ≤ 24 capacity-retain
rule for the state slice affects only allocation, not values.) -/
def encReset (st : EncState) (b : Bits) (sch : Schema) : EncState :=
  { st with
    schema := some sch
    lastEncoded := none
    tszFields := customFields sch
    hasWrittenFirstTSZ := false
    closed := false
    stream := b }

/-- `encoder.Bytes`. -/
def encBytes (st : EncState) : Except EncErr Bits :=
  if st.closed then .error .closed else .ok st.stream

/-- `encoder.Close`: hand the buffer over and mark the encoder closed. -/
def encClose (st : EncState) : Except EncErr (Bits × EncState) :=
  if st.closed then .error .closed
  else .ok (st.stream, { st with closed := true })

/-- The type switch of `encodeTSZValues`: a `float64` value is used as is,
a `float32` is widened, anything else is the unknown-field-type error. -/
def floatBitsOfValue : Value → Option Nat
  | .vFloat64 b => some b
  | .vFloat32 b => some (f32ToF64Bits b)
  | .vGeneric _ => none

/-- `encoder.encodeFirstTSZValue`: 64 raw bits; both state words take the
value's bit pattern. -/
def encodeFirstTSZValue (cs : CustomState) (fb : Nat) : CustomState × Bits :=
  ({ cs with prevFloatBits := fb, prevXOR := fb }, natToBits 64 fb)

/-- `encoder.encodeNextTSZValue`: XOR against the previous bits, write via
the XOR codec, shift the state. -/
def encodeNextTSZValue (cs : CustomState) (fb : Nat) : CustomState × Bits :=
  ({ cs with prevFloatBits := fb, prevXOR := cs.prevFloatBits ^^^ fb },
    writeXOR cs.prevXOR (cs.prevFloatBits ^^^ fb))

/-- The loop of `encoder.encodeTSZValues`: fetch each custom field's value,
encode it (first or next form), and clear the field from the message so the
marshalled payload omits it. -/
def encodeTSZLoop (sch : Schema) (first : Bool) :
    List CustomState → Msg → Except EncErr (List CustomState × Msg × Bits)
  | [], m => .ok ([], m, [])
  | cs :: rest, m =>
    match floatBitsOfValue (getField sch m cs.fieldNum) with
    | none => .error .unknownFieldType
    | some fb =>
      let r := if first then encodeFirstTSZValue cs fb else encodeNextTSZValue cs fb
      match encodeTSZLoop sch first rest (clearField m cs.fieldNum) with
      | .error e => .error e
      | .ok (csl, m', bits) => .ok (r.1 :: csl, m', r.2 ++ bits)

/-- Result of the per-field diff loop of `encodeProtoValues`. -/
structure DiffResult where
  lastEnc : Msg
  msg : Msg
  changed : List Nat
  changedToDefault : List Nat
  deriving DecidableEq, Repr

/-- The diff loop of `encodeProtoValues` (schema order): clear unchanged
fields from the outgoing message; record changed tags (and those changed
back to the default), updating `lastEncoded` per field.  `fieldsEqual` is
modelled (from §4.4) as semantic value equality, with absent fields already
materialised to their defaults by `getField`. -/
def diffFields (sch : Schema) : List FieldDef → Msg → Msg → DiffResult
  | [], le, m => ⟨le, m, [], []⟩
  | f :: fs, le, m =>
    if getField sch m f.tag = getField sch le f.tag then
      diffFields sch fs le (clearField m f.tag)
    else
      let r := diffFields sch fs (setField le f.tag (getField sch m f.tag)) m
      ⟨r.lastEnc, r.msg, f.tag :: r.changed,
        if zeroValue f.ftype = getField sch m f.tag then f.tag :: r.changedToDefault
        else r.changedToDefault⟩

/-- The off-schema clearing loop of `encodeProtoValues`: drop any set field
whose tag the schema does not contain. -/
def stripOffSchema (sch : Schema) (m : Msg) : Msg :=
  ⟨m.fields.filter (fun p => fieldsContains sch p.1), m.unknown⟩

def listMax (l : List Nat) : Nat :=
  l.foldl max 0

/-- The bitset body of `encoder.encodeBitset`: `max` bits, bit `i`
(0-indexed) set iff tag `i + 1` is in the list. -/
def bitsetBits (mx : Nat) (values : List Nat) : Bits :=
  (List.range mx).map (fun i => decide ((i + 1) ∈ values))

/-- `encoder.encodeBitset`: varint of the maximum tag, then that many
bits. -/
def encodeBitsetBits (values : List Nat) : Option Bits :=
  (encodeVarIntBits (listMax values)).map
    (fun vb => vb ++ bitsetBits (listMax values) values)

/-- `encoder.encodeProtoValues`: diff against `lastEncoded` (clearing
off-schema fields first), then either the skip bit `0`, or `1`, the
defaults control bit (with bitset), the varint-framed marshalled delta.
Returns the new `lastEncoded`, the mutated message and the bits written. -/
def encodeProtoValuesM (sch : Schema) (lastEncoded : Option Msg) (m : Msg) :
    Except EncErr (Option Msg × Msg × Bits) :=
  match lastEncoded with
  | some le =>
    let m1 := stripOffSchema sch m
    let r := diffFields sch sch le m1
    if r.changed = [] then
      .ok (some r.lastEnc, r.msg, [false])
    else
      let marshaled := marshalMsg r.msg
      let defaultsPart : Option Bits :=
        if r.changedToDefault.isEmpty then some [false]
        else (encodeBitsetBits r.changedToDefault).map (fun bb => true :: bb)
      match defaultsPart, encodeVarIntBits marshaled.length with
      | some dp, some lenBits =>
        .ok (some r.lastEnc, r.msg,
          true :: (dp ++ lenBits ++ bytesToBits marshaled))
      | _, _ => .error .varIntOverflow
  | none =>
    let marshaled := marshalMsg m
    match encodeVarIntBits marshaled.length with
    | none => .error .varIntOverflow
    | some lenBits =>
      .ok (some m, m, true :: false :: (lenBits ++ bytesToBits marshaled))

/-- `encoder.Encode`: closed/schema/unknown-field checks, the more-data
control bit `1`, custom values, then the generic proto values. -/
def encodeMsg (st : EncState) (m : Msg) : Except EncErr (EncState × Msg × Bits) :=
  if st.closed then .error .closed
  else
    match st.schema with
    | none => .error .schemaRequired
    | some sch =>
      if m.unknown then .error .unknownFields
      else
        match encodeTSZLoop sch (!st.hasWrittenFirstTSZ) st.tszFields m with
        | .error e => .error e
        | .ok (tsz', m1, tszBits) =>
          match encodeProtoValuesM sch st.lastEncoded m1 with
          | .error e => .error e
          | .ok (le', m2, protoBits) =>
            let bits := true :: (tszBits ++ protoBits)
            .ok ({ st with
                    lastEncoded := le'
                    tszFields := tsz'
                    hasWrittenFirstTSZ := true
                    stream := st.stream ++ bits }, m2, bits)

/-- Iterator error values (one tag per `fmt.Errorf` site of
`iterator.go`). -/
inductive ItErr where
  | protoChangesBit
  | defaultsBit
  | bitsetRead
  | varintRead
  | bytesRead
  | unmarshalFailed
  | customRead
  deriving DecidableEq, Repr

/-- Iterator state (`iterator` struct); the remaining input is carried as
a bit sequence. -/
structure ItState where
  schema : Schema
  custom : List CustomState
  lastIterated : Option Msg
  bitsetValues : List Nat
  consumedFirstMessage : Bool
  done : Bool
  err : Option ItErr
  stream : Bits
  deriving DecidableEq, Repr

/-- `NewIterator` with a non-nil reader and schema. -/
def newIterator (sch : Schema) (stream : Bits) : ItState :=
  { schema := sch
    custom := customFields sch
    lastIterated := none
    bitsetValues := []
    consumedFirstMessage := false
    done := false
    err := none
    stream := stream }

/-- `iterator.updateLastIteratedWithTSZValues`: write the reconstructed
value into the rolling message, as a double if the schema says double,
otherwise narrowed to float32 (the nil-receiver `GetType` of a missing
field also lands in the float32 branch). -/
def updateLastIterated (sch : Schema) (li : Option Msg) (cs : CustomState) : Msg :=
  let li0 := li.getD emptyMsg
  match findField sch cs.fieldNum with
  | some f =>
    if f.ftype = .fDouble then setField li0 cs.fieldNum (.vFloat64 cs.prevFloatBits)
    else setField li0 cs.fieldNum (.vFloat32 (f64ToF32Bits cs.prevFloatBits))
  | none => setField li0 cs.fieldNum (.vFloat32 (f64ToF32Bits cs.prevFloatBits))

/-- `iterator.readFirstCustomValues`: only fields of type double are read
(64 raw bits each); any other custom field is skipped. -/
def readFirstCustomLoop (sch : Schema) :
    List CustomState → Option Msg → Bits → Option (List CustomState × Option Msg × Bits)
  | [], li, bs => some ([], li, bs)
  | cs :: rest, li, bs =>
    if cs.ftype = .fDouble then
      (readBitsL 64 bs).bind fun p =>
        let cs' := { cs with prevFloatBits := p.1, prevXOR := p.1 }
        (readFirstCustomLoop sch rest (some (updateLastIterated sch li cs')) p.2).map
          fun q => (cs' :: q.1, q.2.1, q.2.2)
    else
      (readFirstCustomLoop sch rest li bs).map fun q => (cs :: q.1, q.2.1, q.2.2)

/-- `iterator.readNextCustomValues`: only fields of type double are read
(XOR opcode form); any other custom field is skipped. -/
def readNextCustomLoop (sch : Schema) :
    List CustomState → Option Msg → Bits → Option (List CustomState × Option Msg × Bits)
  | [], li, bs => some ([], li, bs)
  | cs :: rest, li, bs =>
    if cs.ftype = .fDouble then
      (readXORBits cs.prevXOR bs).bind fun p =>
        let cs' := { cs with prevFloatBits := cs.prevFloatBits ^^^ p.1, prevXOR := p.1 }
        (readNextCustomLoop sch rest (some (updateLastIterated sch li cs')) p.2).map
          fun q => (cs' :: q.1, q.2.1, q.2.2)
    else
      (readNextCustomLoop sch rest li bs).map fun q => (cs :: q.1, q.2.1, q.2.2)

/-- The collection loop of `iterator.readBitset`: read `k` bits, collect
`i + 1` for every set bit (tags are 1-indexed). -/
def readBitsetLoop : Nat → Nat → Bits → Option (List Nat × Bits)
  | 0, _, bs => some ([], bs)
  | k + 1, i, bs =>
    (readBit bs).bind fun p =>
      (readBitsetLoop k (i + 1) p.2).map fun q =>
        (if p.1 then (i + 1) :: q.1 else q.1, q.2)

/-- `iterator.readBitset`: varint bit count, then the bits. -/
def readBitsetBits (bs : Bits) : Option (List Nat × Bits) :=
  (readUvarintBits bs).bind fun p => readBitsetLoop p.1 0 p.2

/-- `iterator.readProtoValues`: the proto-changes control bit, the
defaults control bit, the optional bitset (replacing the scratch list),
the varint-framed payload merged into the rolling message, then the
bitset-flagged fields cleared. -/
def readProtoValuesIt (sch : Schema) (li : Option Msg) (bv : List Nat) (bs : Bits) :
    Except ItErr (Option Msg × List Nat × Bits) :=
  match readBit bs with
  | none => .error .protoChangesBit
  | some (b, r1) =>
    if b = false then .ok (li, bv, r1)
    else
      match readBit r1 with
      | none => .error .defaultsBit
      | some (db, r2) =>
        match (if db then readBitsetBits r2 else some (bv, r2)) with
        | none => .error .bitsetRead
        | some (bv', r3) =>
          match readUvarintBits r3 with
          | none => .error .varintRead
          | some (len, r4) =>
            match readNBytes len r4 with
            | none => .error .bytesRead
            | some (buf, r5) =>
              match unmarshalMerge (li.getD emptyMsg) buf with
              | none => .error .unmarshalFailed
              | some li1 =>
                .ok (some (if db then clearFieldList li1 bv' else li1), bv', r5)

/-- `iterator.hasNext` (`isClosed` is always false in the source). -/
def hasNextIt (st : ItState) : Bool :=
  st.err.isNone && !st.done

/-- `iterator.Next`.  End of stream or a clear more-data bit marks `done`;
every error is latched into `err`; on success `consumedFirstMessage` is set
and `hasNext` of the new state is returned. -/
def nextIt (st : ItState) : ItState × Bool :=
  if !hasNextIt st then (st, false)
  else
    match readBit st.stream with
    | none => ({ st with done := true }, false)
    | some (b, r1) =>
      if b = false then ({ st with done := true, stream := r1 }, false)
      else
        match (if !st.consumedFirstMessage then
                 readFirstCustomLoop st.schema st.custom st.lastIterated r1
               else
                 readNextCustomLoop st.schema st.custom st.lastIterated r1) with
        | none => ({ st with stream := r1, err := some .customRead }, false)
        | some (cf', li', r2) =>
          match readProtoValuesIt st.schema li' st.bitsetValues r2 with
          | .error e =>
            ({ st with custom := cf', lastIterated := li', stream := r2,
                       err := some e }, false)
          | .ok (li2, bv', r3) =>
            let st' := { st with custom := cf', lastIterated := li2,
                                 bitsetValues := bv', stream := r3,
                                 consumedFirstMessage := true }
            (st', hasNextIt st')

/-- `iterator.Current`. -/
def currentIt (st : ItState) : Option Msg :=
  st.lastIterated

/-- Encode a whole sequence from a given state, concatenating the record
bits. -/
def encodeAllFrom (st : EncState) : List Msg → Except EncErr (EncState × Bits)
  | [] => .ok (st, [])
  | m :: ms =>
    match encodeMsg st m with
    | .error e => .error e
    | .ok (st', _, bits) =>
      match encodeAllFrom st' ms with
      | .error e => .error e
      | .ok (st'', rest) => .ok (st'', bits ++ rest)

/-- Encode a sequence on a freshly reset encoder and return the stream. -/
def encodeAll (sch : Schema) (ms : List Msg) : Except EncErr Bits :=
  match encodeAllFrom (encReset newEncoder [] sch) ms with
  | .error e => .error e
  | .ok (_, bits) => .ok bits

/-- Drive `Next` repeatedly (fuelled), collecting `Current` after every
successful call. -/
def iterAll : Nat → ItState → List (Option Msg)
  | 0, _ => []
  | f + 1, st =>
    let r := nextIt st
    if r.2 then r.1.lastIterated :: iterAll f r.1 else []

/-- Well-formed schema: unique tags, all at least 1 and within protobuf's
field-number range. -/
def SchemaWF (sch : Schema) : Prop :=
  (sch.map FieldDef.tag).Nodup ∧ ∀ f ∈ sch, 1 ≤ f.tag ∧ f.tag < 2 ^ 29

/-- A value is well formed for a field type when the constructor matches
and the bit pattern is in range. -/
def ValueWF (t : FieldType) (v : Value) : Prop :=
  match t, v with
  | .fDouble, .vFloat64 b => b < 2 ^ 64
  | .fFloat, .vFloat32 b => b < 2 ^ 32
  | .fGeneric, .vGeneric n => n < 2 ^ 64
  | _, _ => False

instance (t : FieldType) (v : Value) : Decidable (ValueWF t v) :=
  match t, v with
  | .fDouble, .vFloat64 b => inferInstanceAs (Decidable (b < 2 ^ 64))
  | .fDouble, .vFloat32 _ => inferInstanceAs (Decidable False)
  | .fDouble, .vGeneric _ => inferInstanceAs (Decidable False)
  | .fFloat, .vFloat64 _ => inferInstanceAs (Decidable False)
  | .fFloat, .vFloat32 b => inferInstanceAs (Decidable (b < 2 ^ 32))
  | .fFloat, .vGeneric _ => inferInstanceAs (Decidable False)
  | .fGeneric, .vFloat64 _ => inferInstanceAs (Decidable False)
  | .fGeneric, .vFloat32 _ => inferInstanceAs (Decidable False)
  | .fGeneric, .vGeneric n => inferInstanceAs (Decidable (n < 2 ^ 64))

/-- A message conforms to the schema: no wire-format unknown fields, no
duplicate set tags, and every set field is a schema field carrying a
well-formed value of the declared type. -/
def Conforms (sch : Schema) (m : Msg) : Prop :=
  m.unknown = false ∧ (m.fields.map Prod.fst).Nodup ∧
    ∀ p ∈ m.fields, ∃ f ∈ sch, f.tag = p.1 ∧ ValueWF f.ftype p.2

instance (sch : Schema) : Decidable (SchemaWF sch) :=
  inferInstanceAs (Decidable ((sch.map FieldDef.tag).Nodup ∧
    ∀ f ∈ sch, 1 ≤ f.tag ∧ f.tag < 2 ^ 29))

instance (sch : Schema) (m : Msg) : Decidable (Conforms sch m) :=
  inferInstanceAs (Decidable (m.unknown = false ∧ (m.fields.map Prod.fst).Nodup ∧
    ∀ p ∈ m.fields, ∃ f ∈ sch, f.tag = p.1 ∧ ValueWF f.ftype p.2))

/-- The 64 bits the encoder derives from a message's custom field. -/
def fieldBits (sch : Schema) (m : Msg) (t : Nat) : Nat :=
  (floatBitsOfValue (getField sch m t)).getD 0

/-- The custom tags of the schema, in stream order. -/
def customTags (sch : Schema) : List Nat :=
  (customFields sch).map CustomState.fieldNum

/-- The message after `encodeTSZValues` has cleared the custom fields. -/
def trimCustom (sch : Schema) (m : Msg) : Msg :=
  clearFieldList m (customTags sch)

/-- Custom-field states after the first record of a stream. -/
def tszFirstStates (sch : Schema) (m : Msg) : List CustomState :=
  (customFields sch).map (fun cs =>
    { cs with prevFloatBits := fieldBits sch m cs.fieldNum,
              prevXOR := fieldBits sch m cs.fieldNum })

/-- The bits of a first record: more-data `1`, 64 raw bits per custom
field, proto-changes `1`, defaults `0`, varint length, payload. -/
def firstRecordBits (sch : Schema) (m : Msg) : Bits :=
  true :: (((customFields sch).map (fun cs => natToBits 64 (fieldBits sch m cs.fieldNum))).flatten
    ++ true :: false :: (bytesToBits (uvarintBytes (marshalMsg (trimCustom sch m)).length)
      ++ bytesToBits (marshalMsg (trimCustom sch m))))

/-- The synchronisation invariant between the encoder and iterator states
after at least one record has been encoded and read: same schema, the
iterator's custom states mirror the encoder's (with in-range words), the
rolling messages agree on non-custom fields, the encoder's `lastEncoded`
holds defaults on custom fields, and the iterator is live. -/
structure SyncInv (sch : Schema) (es : EncState) (it : ItState) : Prop where
  encClosed : es.closed = false
  encSchema : es.schema = some sch
  firstDone : es.hasWrittenFirstTSZ = true
  itSchema : it.schema = sch
  customEq : it.custom = es.tszFields
  customShape : es.tszFields.map (fun cs => (cs.fieldNum, cs.ftype)) =
    (customFields sch).map (fun cs => (cs.fieldNum, cs.ftype))
  customBound : ∀ cs ∈ es.tszFields, cs.prevXOR < 2 ^ 64 ∧ cs.prevFloatBits < 2 ^ 64
  lastEnc : ∃ le li, es.lastEncoded = some le ∧ it.lastIterated = some li ∧
    (∀ f ∈ sch, isCustomType f.ftype = false →
      getField sch li f.tag = getField sch le f.tag) ∧
    (∀ f ∈ sch, isCustomType f.ftype = true →
      getField sch le f.tag = defaultValue sch f.tag)
  consumed : it.consumedFirstMessage = true
  notDone : it.done = false
  noErr : it.err = none

theorem natToBits_length (n v : Nat) : (natToBits n v).length = n := by
  induction n generalizing v with
  | zero => rfl
  | succ k ih => simp [natToBits, ih]

theorem readBitsAcc_append (n : Nat) :
    ∀ (acc v : Nat) (rest : Bits),
      readBitsAcc acc n (natToBits n v ++ rest) =
        some (acc * 2 ^ n + v % 2 ^ n, rest) := by
  induction n with
  | zero => intro acc v rest; simp [natToBits, readBitsAcc, Nat.mod_one]
  | succ k ih =>
    intro acc v rest
    have hb : (if decide (v / 2 ^ k % 2 = 1) = true then 1 else 0) = v / 2 ^ k % 2 := by
      rcases Nat.mod_two_eq_zero_or_one (v / 2 ^ k) with h | h <;> simp [h]
    have hmod : v % 2 ^ (k + 1) = v % 2 ^ k + 2 ^ k * (v / 2 ^ k % 2) := by
      rw [pow_succ, Nat.mod_mul]
    simp only [natToBits, List.cons_append, readBitsAcc, hb, List.append_eq]
    rw [ih]
    simp only [hmod, Option.some.injEq, Prod.mk.injEq, and_true]
    ring

theorem readBitsL_append (n v : Nat) (rest : Bits) (hv : v < 2 ^ n) :
    readBitsL n (natToBits n v ++ rest) = some (v, rest) := by
  unfold readBitsL
  rw [readBitsAcc_append]
  simp [Nat.mod_eq_of_lt hv]

theorem readBitsAcc_length {n acc w : Nat} {bs rest : Bits}
    (h : readBitsAcc acc n bs = some (w, rest)) :
    bs.length = n + rest.length := by
  induction n generalizing acc bs with
  | zero => simp [readBitsAcc] at h; simp [h]
  | succ k ih =>
    cases bs with
    | nil => simp [readBitsAcc] at h
    | cons b cs =>
      simp only [readBitsAcc] at h
      have := ih h
      simp [this]; omega

theorem readBitsL_length {n w : Nat} {bs rest : Bits}
    (h : readBitsL n bs = some (w, rest)) : bs.length = n + rest.length :=
  readBitsAcc_length h

theorem readBitsAcc_lt (n : Nat) :
    ∀ (acc : Nat) (bs : Bits) (w : Nat) (rest : Bits),
      readBitsAcc acc n bs = some (w, rest) → w < (acc + 1) * 2 ^ n := by
  induction n with
  | zero =>
    intro acc bs w rest h
    simp [readBitsAcc] at h
    simp [h.1.symm]
  | succ k ih =>
    intro acc bs w rest h
    cases bs with
    | nil => simp [readBitsAcc] at h
    | cons b cs =>
      simp only [readBitsAcc] at h
      have := ih _ _ _ _ h
      have hb : (if b = true then 1 else 0) ≤ 1 := by split <;> omega
      calc w < (2 * acc + (if b = true then 1 else 0) + 1) * 2 ^ k := this
        _ ≤ (2 * acc + 2) * 2 ^ k := by
            apply Nat.mul_le_mul_right; omega
        _ = (acc + 1) * 2 ^ (k + 1) := by ring

theorem readBitsL_lt {n : Nat} {bs : Bits} {w : Nat} {rest : Bits}
    (h : readBitsL n bs = some (w, rest)) : w < 2 ^ n := by
  have := readBitsAcc_lt n 0 bs w rest h
  simpa using this

theorem bytesToBits_append (a b : List Nat) :
    bytesToBits (a ++ b) = bytesToBits a ++ bytesToBits b := by
  induction a with
  | nil => rfl
  | cons x xs ih => simp [bytesToBits, ih]

theorem bytesToBits_length (a : List Nat) :
    (bytesToBits a).length = 8 * a.length := by
  induction a with
  | nil => rfl
  | cons x xs ih => simp [bytesToBits, ih, natToBits_length]; ring

theorem readNBytes_append (bs : List Nat) (rest : Bits)
    (hb : ∀ b ∈ bs, b < 256) :
    readNBytes bs.length (bytesToBits bs ++ rest) = some (bs, rest) := by
  induction bs with
  | nil => simp [readNBytes, bytesToBits]
  | cons x xs ih =>
    have hx : x < (2 : Nat) ^ 8 := by
      have := hb x (by simp); norm_num; omega
    simp only [List.length_cons, bytesToBits, List.append_assoc, readNBytes, readByteBits]
    rw [readBitsL_append 8 x _ hx, Option.some_bind,
      ih (fun b hmem => hb b (by simp [hmem]))]
    rfl

theorem uvarintBytesAux_length_le {f k x : Nat} (hk : k + 1 ≤ f) (hx : x < 128 ^ (k + 1)) :
    (uvarintBytesAux f x).length ≤ k + 1 := by
  induction k generalizing f x with
  | zero =>
    cases f with
    | zero => omega
    | succ g =>
      have h : x < 128 := by simpa using hx
      simp [uvarintBytesAux, h]
  | succ j ih =>
    cases f with
    | zero => omega
    | succ g =>
      by_cases h : x < 128
      · simp [uvarintBytesAux, h]
      · have hdiv : x / 128 < 128 ^ (j + 1) := by
          rw [Nat.div_lt_iff_lt_mul (by norm_num)]
          calc x < 128 ^ (j + 1 + 1) := hx
            _ = 128 ^ (j + 1) * 128 := by rw [pow_succ]
        simp only [uvarintBytesAux, h, if_false, List.length_cons]
        have := ih (f := g) (by omega) hdiv
        omega

theorem uvarintBytesAux_length_gt {f k x : Nat} (hf : k < f) (hx : 128 ^ k ≤ x) :
    k < (uvarintBytesAux f x).length := by
  induction k generalizing f x with
  | zero =>
    cases f with
    | zero => omega
    | succ g =>
      by_cases h : x < 128 <;> simp [uvarintBytesAux, h]
  | succ j ih =>
    cases f with
    | zero => omega
    | succ g =>
      have hge : ¬ x < 128 := by
        have : (128 : Nat) ≤ 128 ^ (j + 1) := by
          calc (128 : Nat) = 128 ^ 1 := (pow_one 128).symm
            _ ≤ 128 ^ (j + 1) := Nat.pow_le_pow_right (by norm_num) (by omega)
        omega
      simp only [uvarintBytesAux, hge, if_false, List.length_cons]
      have hdiv : 128 ^ j ≤ x / 128 := by
        rw [Nat.le_div_iff_mul_le (by norm_num)]
        calc 128 ^ j * 128 = 128 ^ (j + 1) := (pow_succ 128 j).symm
          _ ≤ x := hx
      have := ih (f := g) (by omega) hdiv
      omega

theorem uvarintBytes_length_le {k x : Nat} (hk : k + 1 ≤ 10) (hx : x < 128 ^ (k + 1)) :
    (uvarintBytes x).length ≤ k + 1 :=
  uvarintBytesAux_length_le hk hx

theorem uvarintBytesAux_lt_256 {f x : Nat} : ∀ b ∈ uvarintBytesAux f x, b < 256 := by
  induction f generalizing x with
  | zero => simp [uvarintBytesAux]
  | succ k ih =>
    intro b hb
    by_cases h : x < 128
    · simp [uvarintBytesAux, h] at hb; omega
    · simp only [uvarintBytesAux, h, if_false, List.mem_cons] at hb
      rcases hb with hb | hb
      · have := Nat.mod_lt x (y := 128) (by norm_num); omega
      · exact ih _ hb

theorem uvarintBytes_lt_256 {x : Nat} : ∀ b ∈ uvarintBytes x, b < 256 :=
  uvarintBytesAux_lt_256

theorem readUvarintAux_append {f g x : Nat} {rest : Bits}
    (hf1 : 1 ≤ f) (hg : f ≤ g) (hx : x < 128 ^ f) :
    readUvarintAux g (bytesToBits (uvarintBytesAux f x) ++ rest) = some (x, rest) := by
  induction f generalizing g x with
  | zero => omega
  | succ k ih =>
    cases g with
    | zero => omega
    | succ h =>
      by_cases hlt : x < 128
      · have hx8 : x < (2 : Nat) ^ 8 := by norm_num; omega
        simp only [uvarintBytesAux, hlt, if_true, bytesToBits, List.append_nil,
          readUvarintAux, readByteBits]
        rw [readBitsL_append 8 x _ hx8, Option.some_bind]
        simp [hlt]
      · have hk1 : 1 ≤ k := by
          by_contra hc
          have : k = 0 := by omega
          subst this
          simp at hx
          omega
        have hmod : x % 128 + 128 < (2 : Nat) ^ 8 := by
          have := Nat.mod_lt x (y := 128) (by norm_num); norm_num; omega
        have hdiv : x / 128 < 128 ^ k := by
          rw [Nat.div_lt_iff_lt_mul (by norm_num)]
          calc x < 128 ^ (k + 1) := hx
            _ = 128 ^ k * 128 := by rw [pow_succ]
        have hcond : ¬ (x % 128 + 128 < 128) := by omega
        simp only [uvarintBytesAux, hlt, if_false, bytesToBits, List.append_assoc,
          readUvarintAux, readByteBits]
        rw [readBitsL_append 8 _ _ hmod, Option.some_bind, if_neg hcond,
          ih (g := h) hk1 (by omega) hdiv]
        simp only [Option.map_some', Option.some.injEq, Prod.mk.injEq, and_true]
        have := Nat.div_add_mod x 128
        omega

theorem readUvarintBytes_append {f g x : Nat} {rest : List Nat}
    (hf1 : 1 ≤ f) (hg : f ≤ g) (hx : x < 128 ^ f) :
    readUvarintBytes g (uvarintBytesAux f x ++ rest) = some (x, rest) := by
  induction f generalizing g x with
  | zero => omega
  | succ k ih =>
    cases g with
    | zero => omega
    | succ h =>
      by_cases hlt : x < 128
      · simp [uvarintBytesAux, hlt, readUvarintBytes]
      · have hk1 : 1 ≤ k := by
          by_contra hc
          have : k = 0 := by omega
          subst this
          simp at hx
          omega
        have hdiv : x / 128 < 128 ^ k := by
          rw [Nat.div_lt_iff_lt_mul (by norm_num)]
          calc x < 128 ^ (k + 1) := hx
            _ = 128 ^ k * 128 := by rw [pow_succ]
        have hcond : ¬ (x % 128 + 128 < 128) := by omega
        simp only [uvarintBytesAux, hlt, if_false, List.cons_append, readUvarintBytes]
        rw [if_neg hcond, ih (g := h) hk1 (by omega) hdiv]
        simp only [Option.map_some', Option.some.injEq, Prod.mk.injEq, and_true]
        have := Nat.div_add_mod x 128
        omega

theorem bitLenAux_le (f x : Nat) : bitLenAux f x ≤ f := by
  induction f generalizing x with
  | zero => simp [bitLenAux]
  | succ k ih =>
    by_cases h : x = 0
    · simp [bitLenAux, h]
    · simp only [bitLenAux, h, if_false]
      have := ih (x / 2)
      omega

theorem bitLenAux_lt (f x : Nat) (hx : x < 2 ^ f) : x < 2 ^ bitLenAux f x := by
  induction f generalizing x with
  | zero =>
    simp at hx
    simp [bitLenAux, hx]
  | succ k ih =>
    by_cases h : x = 0
    · simp [bitLenAux, h]
    · have hdiv : x / 2 < 2 ^ k := by
        rw [Nat.div_lt_iff_lt_mul (by norm_num)]
        calc x < 2 ^ (k + 1) := hx
          _ = 2 ^ k * 2 := by rw [pow_succ]
      have := ih (x / 2) hdiv
      simp only [bitLenAux, h, if_false, pow_succ]
      have hx2 : x ≤ 2 * (x / 2) + 1 := by omega
      omega

theorem bitLenAux_pos (f x : Nat) (hf : 1 ≤ f) (hx : x ≠ 0) : 1 ≤ bitLenAux f x := by
  cases f with
  | zero => omega
  | succ k => simp [bitLenAux, hx]

theorem bitLenAux_zero (f : Nat) : bitLenAux f 0 = 0 := by
  cases f <;> simp [bitLenAux]

theorem two_pow_bitLenAux_le (f x : Nat) (hx : x ≠ 0) :
    2 ^ (bitLenAux f x - 1) ≤ x := by
  induction f generalizing x with
  | zero => simp [bitLenAux]; omega
  | succ k ih =>
    simp only [bitLenAux, hx, if_false]
    by_cases h2 : x / 2 = 0
    · rw [h2, bitLenAux_zero]
      simp
      omega
    · have hih := ih (x / 2) h2
      rcases Nat.eq_zero_or_pos (bitLenAux k (x / 2)) with hb | hb
      · rw [hb]
        simp
        omega
      have heq : bitLenAux k (x / 2) + 1 - 1 = (bitLenAux k (x / 2) - 1) + 1 := by omega
      rw [heq]
      calc 2 ^ (bitLenAux k (x / 2) - 1 + 1)
          = 2 ^ (bitLenAux k (x / 2) - 1) * 2 := by rw [pow_succ]
        _ ≤ (x / 2) * 2 := Nat.mul_le_mul_right 2 hih
        _ ≤ x := by omega

theorem lt_two_pow_sub_clz64 {x : Nat} (hx : x < 2 ^ 64) : x < 2 ^ (64 - clz64 x) := by
  have h1 : bitLen x ≤ 64 := bitLenAux_le 64 x
  have h2 : x < 2 ^ bitLen x := bitLenAux_lt 64 x hx
  have : 64 - clz64 x = bitLen x := by unfold clz64; omega
  rw [this]
  exact h2

theorem two_pow_le_of_clz64 {x : Nat} (hx : x ≠ 0) : 2 ^ (63 - clz64 x) ≤ x := by
  have h1 : bitLen x ≤ 64 := bitLenAux_le 64 x
  have hp : 1 ≤ bitLen x := bitLenAux_pos 64 x (by omega) hx
  have h2 : 2 ^ (bitLen x - 1) ≤ x := two_pow_bitLenAux_le 64 x hx
  have : 63 - clz64 x = bitLen x - 1 := by unfold clz64; omega
  rw [this]
  exact h2

theorem clz64_le_63 {x : Nat} (hx : x ≠ 0) : clz64 x ≤ 63 := by
  have hp : 1 ≤ bitLen x := bitLenAux_pos 64 x (by omega) hx
  unfold clz64
  omega

theorem clz64_zero : clz64 0 = 64 := by
  decide

theorem ctz64_zero : ctz64 0 = 64 := by
  decide

theorem eq_zero_of_64_le_clz64 {x : Nat} (hx : x < 2 ^ 64) (h : 64 ≤ clz64 x) :
    x = 0 := by
  by_contra hne
  have := clz64_le_63 hne
  omega

theorem two_pow_ctzAux_dvd (f x : Nat) (hx : x ≠ 0) : 2 ^ ctzAux f x ∣ x := by
  induction f generalizing x with
  | zero => simp [ctzAux]
  | succ k ih =>
    by_cases h : x % 2 = 1
    · simp [ctzAux, h]
    · have hev : x % 2 = 0 := by omega
      have h2 : x / 2 ≠ 0 := by
        intro hz
        have := Nat.div_add_mod x 2
        omega
      have hih := ih (x / 2) h2
      simp only [ctzAux, h, if_false, pow_succ]
      have hxeq : x = 2 * (x / 2) := by
        have := Nat.div_add_mod x 2
        omega
      have hmul : 2 ^ ctzAux k (x / 2) * 2 ∣ (x / 2) * 2 :=
        mul_dvd_mul_right hih 2
      have hx2 : (x / 2) * 2 = x := by omega
      rw [hx2] at hmul
      exact hmul

theorem two_pow_ctz64_dvd {x : Nat} (hx : x ≠ 0) : 2 ^ ctz64 x ∣ x :=
  two_pow_ctzAux_dvd 64 x hx

theorem ctz64_le_63 {x : Nat} (hx : x ≠ 0) (hx64 : x < 2 ^ 64) : ctz64 x ≤ 63 := by
  have hd := two_pow_ctz64_dvd hx
  have hle : 2 ^ ctz64 x ≤ x := Nat.le_of_dvd (Nat.pos_of_ne_zero hx) hd
  by_contra hc
  have : 2 ^ 64 ≤ 2 ^ ctz64 x := Nat.pow_le_pow_right (by norm_num) (by omega)
  omega

theorem clz64_add_ctz64_le_63 {x : Nat} (hx : x ≠ 0) (hx64 : x < 2 ^ 64) :
    clz64 x + ctz64 x ≤ 63 := by
  have hd := two_pow_ctz64_dvd hx
  have hle : 2 ^ ctz64 x ≤ x := Nat.le_of_dvd (Nat.pos_of_ne_zero hx) hd
  have hlt : x < 2 ^ (64 - clz64 x) := lt_two_pow_sub_clz64 hx64
  have hcl : clz64 x ≤ 63 := clz64_le_63 hx
  have hpow : 2 ^ ctz64 x < 2 ^ (64 - clz64 x) := by omega
  have := (Nat.pow_lt_pow_iff_right (a := 2) (by norm_num)).mp hpow
  omega

theorem div_two_pow_lt {x p t : Nat} (hx : x < 2 ^ (64 - p)) (hpt : p + t ≤ 64) :
    x / 2 ^ t < 2 ^ (64 - p - t) := by
  rw [Nat.div_lt_iff_lt_mul (Nat.pos_pow_of_pos t (by norm_num))]
  calc x < 2 ^ (64 - p) := hx
    _ = 2 ^ (64 - p - t) * 2 ^ t := by
        rw [← pow_add]
        congr 1
        omega

theorem div_mul_two_pow_eq {x t : Nat} (hx : x ≠ 0) (ht : t ≤ ctz64 x) :
    x / 2 ^ t * 2 ^ t = x := by
  apply Nat.div_mul_cancel
  exact dvd_trans (pow_dvd_pow 2 ht) (two_pow_ctz64_dvd hx)

theorem readBitsL_one_true (bs : Bits) : readBitsL 1 (true :: bs) = some (1, bs) := rfl

theorem readBitsL_one_false (bs : Bits) : readBitsL 1 (false :: bs) = some (0, bs) := rfl

theorem readXOR_writeXOR (prevXOR curXOR : Nat) (hp : prevXOR < 2 ^ 64)
    (hc : curXOR < 2 ^ 64) (rest : Bits) :
    readXORBits prevXOR (writeXOR prevXOR curXOR ++ rest) = some (curXOR, rest) := by
  by_cases hz : curXOR = 0
  · subst hz
    simp [writeXOR, readXORBits, readBitsL_one_false]
  · have hcl63 : clz64 curXOR ≤ 63 := clz64_le_63 hz
    have hct63 : ctz64 curXOR ≤ 63 := ctz64_le_63 hz hc
    have hclct : clz64 curXOR + ctz64 curXOR ≤ 63 := clz64_add_ctz64_le_63 hz hc
    by_cases hun : clz64 curXOR < clz64 prevXOR ∨ ctz64 curXOR < ctz64 prevXOR
    · -- uncontained: opcode 11
      have hcur_lt : curXOR < 2 ^ (64 - clz64 curXOR) := lt_two_pow_sub_clz64 hc
      have hdivlt : curXOR / 2 ^ ctz64 curXOR <
          2 ^ (64 - clz64 curXOR - ctz64 curXOR) :=
        div_two_pow_lt hcur_lt (by omega)
      have h6a : clz64 curXOR < 2 ^ 6 := by norm_num; omega
      have h6b : 64 - clz64 curXOR - ctz64 curXOR - 1 < 2 ^ 6 := by norm_num; omega
      have hnm : 64 - clz64 curXOR - ctz64 curXOR - 1 + 1 =
          64 - clz64 curXOR - ctz64 curXOR := by omega
      have htz2 : 64 - clz64 curXOR - (64 - clz64 curXOR - ctz64 curXOR) =
          ctz64 curXOR := by omega
      simp only [writeXOR, hz, hun, if_false, if_true, List.append_assoc,
        List.cons_append, readXORBits]
      rw [readBitsL_one_true, Option.some_bind]
      dsimp only
      rw [if_neg (by decide : ¬ (1 : Nat) = 0),
        readBitsL_one_true, Option.some_bind]
      dsimp only
      rw [if_neg (by decide : ¬ (1 : Nat) * 2 + 1 = 2)]
      rw [List.nil_append, readBitsL_append 6 _ _ h6a, Option.some_bind]
      dsimp only
      rw [readBitsL_append 6 _ _ h6b, Option.some_bind]
      dsimp only
      rw [hnm, readBitsL_append _ _ _ hdivlt, Option.map_some']
      dsimp only
      rw [htz2, div_mul_two_pow_eq hz (le_refl _)]
    · -- contained: opcode 10
      push_neg at hun
      obtain ⟨hpl, hpt⟩ := hun
      have hpne : prevXOR ≠ 0 := by
        intro h0
        rw [h0, clz64_zero] at hpl
        have : curXOR = 0 := eq_zero_of_64_le_clz64 hc (by omega)
        exact hz this
      have hplct : clz64 prevXOR + ctz64 prevXOR ≤ 63 :=
        clz64_add_ctz64_le_63 hpne hp
      have hcur_lt : curXOR < 2 ^ (64 - clz64 prevXOR) := by
        have h1 : curXOR < 2 ^ (64 - clz64 curXOR) := lt_two_pow_sub_clz64 hc
        calc curXOR < 2 ^ (64 - clz64 curXOR) := h1
          _ ≤ 2 ^ (64 - clz64 prevXOR) :=
            Nat.pow_le_pow_right (by norm_num) (by omega)
      have hdivlt : curXOR / 2 ^ ctz64 prevXOR <
          2 ^ (64 - clz64 prevXOR - ctz64 prevXOR) :=
        div_two_pow_lt hcur_lt (by omega)
      have hnotun : ¬ (clz64 curXOR < clz64 prevXOR ∨ ctz64 curXOR < ctz64 prevXOR) := by
        omega
      simp only [writeXOR, hz, hnotun, if_false, List.append_assoc,
        List.cons_append, readXORBits]
      rw [readBitsL_one_true, Option.some_bind]
      dsimp only
      rw [if_neg (by decide : ¬ (1 : Nat) = 0),
        readBitsL_one_false, Option.some_bind]
      dsimp only
      rw [if_pos (by decide : (1 : Nat) * 2 + 0 = 2)]
      rw [List.nil_append, readBitsL_append _ _ _ hdivlt, Option.map_some']
      dsimp only
      rw [div_mul_two_pow_eq hz hpt]

theorem valueOfCode_valueCode (v : Value) : valueOfCode (valueCode v) = v := by
  cases v with
  | vFloat64 b =>
    simp [valueCode, valueOfCode, Nat.mul_mod_right, Nat.mul_div_cancel_left b (by norm_num : (0:Nat) < 3)]
  | vFloat32 b =>
    have h1 : (3 * b + 1) % 3 = 1 := by omega
    have h2 : (3 * b + 1) / 3 = b := by omega
    simp [valueCode, valueOfCode, h1, h2]
  | vGeneric n =>
    have h1 : (3 * n + 2) % 3 = 2 := by omega
    have h2 : (3 * n + 2) / 3 = n := by omega
    simp [valueCode, valueOfCode, h1, h2]

theorem uvarintBytesAux_ne_nil {f x : Nat} (hf : 1 ≤ f) : uvarintBytesAux f x ≠ [] := by
  cases f with
  | zero => omega
  | succ k =>
    by_cases h : x < 128 <;> simp [uvarintBytesAux, h]

theorem uvarintBytes_ne_nil (x : Nat) : uvarintBytes x ≠ [] :=
  uvarintBytesAux_ne_nil (by norm_num)

theorem uvarintBytesAux_stable {f g x : Nat} (hf1 : 1 ≤ f) (hf : f ≤ g) (hx : x < 128 ^ f) :
    uvarintBytesAux g x = uvarintBytesAux f x := by
  induction f generalizing g x with
  | zero => omega
  | succ k ih =>
    cases g with
    | zero => omega
    | succ j =>
      by_cases h : x < 128
      · simp [uvarintBytesAux, h]
      · have hk1 : 1 ≤ k := by
          by_contra hc
          have : k = 0 := by omega
          subst this
          simp at hx
          omega
        have hdiv : x / 128 < 128 ^ k := by
          rw [Nat.div_lt_iff_lt_mul (by norm_num)]
          calc x < 128 ^ (k + 1) := hx
            _ = 128 ^ k * 128 := by rw [pow_succ]
        simp only [uvarintBytesAux, h, if_false, List.cons.injEq, true_and]
        exact ih hk1 (by omega) hdiv

theorem lt_128_pow_len {x : Nat} (hx : x < 128 ^ 10) :
    x < 128 ^ (uvarintBytes x).length := by
  by_contra hc
  push_neg at hc
  by_cases hlen : (uvarintBytes x).length < 10
  · have := uvarintBytesAux_length_gt (f := 10) (k := (uvarintBytes x).length) hlen hc
    unfold uvarintBytes at *
    omega
  · have : (128 : Nat) ^ 10 ≤ 128 ^ (uvarintBytes x).length :=
      Nat.pow_le_pow_right (by norm_num) (by omega)
    omega

theorem uvarintBytes_length_pos (x : Nat) : 1 ≤ (uvarintBytes x).length := by
  have := uvarintBytes_ne_nil x
  cases h : uvarintBytes x with
  | nil => exact absurd h this
  | cons a l => simp [h]

theorem uvarintBytesAux_len_le_fuel (f x : Nat) : (uvarintBytesAux f x).length ≤ f := by
  induction f generalizing x with
  | zero => simp [uvarintBytesAux]
  | succ k ih =>
    by_cases h : x < 128
    · simp [uvarintBytesAux, h]
    · simp only [uvarintBytesAux, h, if_false, List.length_cons]
      have := ih (x / 128)
      omega

theorem uvarintBytes_eq_aux_len {x : Nat} (hx : x < 128 ^ 10) :
    uvarintBytes x = uvarintBytesAux (uvarintBytes x).length x := by
  show uvarintBytesAux 10 x = _
  exact uvarintBytesAux_stable (uvarintBytes_length_pos x)
    (uvarintBytesAux_len_le_fuel 10 x) (lt_128_pow_len hx)

theorem readUvarintBytes_uvarint {g x : Nat} {rest : List Nat}
    (hx : x < 128 ^ 10) (hg : (uvarintBytes x).length ≤ g) :
    readUvarintBytes g (uvarintBytes x ++ rest) = some (x, rest) := by
  rw [uvarintBytes_eq_aux_len hx]
  have hlen : (uvarintBytesAux (uvarintBytes x).length x).length = (uvarintBytes x).length := by
    rw [← uvarintBytes_eq_aux_len hx]
  exact readUvarintBytes_append (uvarintBytes_length_pos x)
    (by omega) (lt_128_pow_len hx)

theorem readUvarintAux_uvarint {g x : Nat} {rest : Bits}
    (hx : x < 128 ^ 10) (hg : (uvarintBytes x).length ≤ g) :
    readUvarintAux g (bytesToBits (uvarintBytes x) ++ rest) = some (x, rest) := by
  rw [uvarintBytes_eq_aux_len hx]
  exact readUvarintAux_append (uvarintBytes_length_pos x)
    (by omega) (lt_128_pow_len hx)

theorem parsePairsAux_succ {f : Nat} {bytes : List Nat} (h : bytes ≠ []) :
    parsePairsAux (f + 1) bytes =
      (readUvarintBytes (bytes.length + 1) bytes).bind fun t =>
        (readUvarintBytes (t.2.length + 1) t.2).bind fun c =>
          (parsePairsAux f c.2).map fun l2 => (t.1, valueOfCode c.1) :: l2 := by
  cases bytes with
  | nil => exact absurd rfl h
  | cons b bs => rfl

theorem marshalFieldList_cons (p : Nat × Value) (l : List (Nat × Value)) :
    marshalFieldList (p :: l) =
      uvarintBytes p.1 ++ (uvarintBytes (valueCode p.2) ++ marshalFieldList l) := by
  simp [marshalFieldList]

theorem marshalFieldList_lt_256 (l : List (Nat × Value)) :
    ∀ b ∈ marshalFieldList l, b < 256 := by
  induction l with
  | nil => simp [marshalFieldList]
  | cons p ps ih =>
    intro b hb
    rw [marshalFieldList_cons] at hb
    simp only [List.mem_append] at hb
    rcases hb with hb | hb | hb
    · exact uvarintBytes_lt_256 b hb
    · exact uvarintBytes_lt_256 b hb
    · exact ih b hb

theorem marshalFieldList_length_le (l : List (Nat × Value)) :
    (marshalFieldList l).length ≤ 20 * l.length := by
  induction l with
  | nil => simp [marshalFieldList]
  | cons p ps ih =>
    rw [marshalFieldList_cons]
    simp only [List.length_append, List.length_cons]
    have h1 : (uvarintBytes p.1).length ≤ 10 := uvarintBytesAux_len_le_fuel 10 p.1
    have h2 : (uvarintBytes (valueCode p.2)).length ≤ 10 :=
      uvarintBytesAux_len_le_fuel 10 (valueCode p.2)
    omega

theorem parsePairsAux_marshal (l : List (Nat × Value)) :
    ∀ (f : Nat),
      (∀ p ∈ l, p.1 < 128 ^ 10 ∧ valueCode p.2 < 128 ^ 10) →
      l.length ≤ f →
      parsePairsAux f (marshalFieldList l) = some l := by
  induction l with
  | nil =>
    intro f _ _
    simp [marshalFieldList, parsePairsAux]
  | cons p ps ih =>
    intro f hb hf
    cases f with
    | zero => simp at hf
    | succ g =>
      obtain ⟨htag, hcode⟩ := hb p (by simp)
      have hne : marshalFieldList (p :: ps) ≠ [] := by
        rw [marshalFieldList_cons]
        intro hnil
        have := uvarintBytes_ne_nil p.1
        simp only [List.append_eq_nil] at hnil
        exact this hnil.1
      rw [parsePairsAux_succ hne, marshalFieldList_cons]
      have hlen1 : (uvarintBytes p.1).length ≤
          (uvarintBytes p.1 ++ (uvarintBytes (valueCode p.2) ++ marshalFieldList ps)).length + 1 := by
        simp only [List.length_append]
        omega
      rw [readUvarintBytes_uvarint htag hlen1, Option.some_bind]
      have hlen2 : (uvarintBytes (valueCode p.2)).length ≤
          (uvarintBytes (valueCode p.2) ++ marshalFieldList ps).length + 1 := by
        simp only [List.length_append]
        omega
      dsimp only
      rw [readUvarintBytes_uvarint hcode hlen2, Option.some_bind]
      dsimp only
      rw [ih g (fun q hq => hb q (by simp [hq])) (by simp at hf; omega)]
      simp [valueOfCode_valueCode]

theorem lookup_filter_ne {t t' : Nat} (l : List (Nat × Value)) (h : t' ≠ t) :
    (l.filter (fun p => p.1 != t)).lookup t' = l.lookup t' := by
  induction l with
  | nil => simp
  | cons p ps ih =>
    rcases p with ⟨a, v⟩
    by_cases hp : a = t
    · subst hp
      have h1 : ((a, v).1 != a) = false := by simp
      have h2 : (t' == a) = false := by simp [h]
      simp only [List.filter_cons, h1, Bool.false_eq_true, if_false, List.lookup, h2]
      exact ih
    · have h1 : ((a, v).1 != t) = true := by simp [hp]
      simp only [List.filter_cons, h1, if_true, List.lookup]
      by_cases ht' : t' = a
      · subst ht'
        simp
      · have h2 : (t' == a) = false := by simp [ht']
        simp only [h2]
        exact ih

theorem lookup_filter_self {t : Nat} (l : List (Nat × Value)) :
    (l.filter (fun p => p.1 != t)).lookup t = none := by
  induction l with
  | nil => simp
  | cons p ps ih =>
    rcases p with ⟨a, v⟩
    by_cases hp : a = t
    · subst hp
      have h1 : ((a, v).1 != a) = false := by simp
      simp only [List.filter_cons, h1, Bool.false_eq_true, if_false]
      exact ih
    · have h1 : ((a, v).1 != t) = true := by simp [hp]
      have h2 : (t == a) = false := by
        simp
        omega
      simp only [List.filter_cons, h1, if_true, List.lookup, h2]
      exact ih

theorem getField_setField_same (sch : Schema) (m : Msg) (t : Nat) (v : Value) :
    getField sch (setField m t v) t = v := by
  simp [getField, setField, List.lookup]

theorem getField_setField_ne (sch : Schema) (m : Msg) {t t' : Nat} (v : Value)
    (h : t' ≠ t) : getField sch (setField m t v) t' = getField sch m t' := by
  have hne : (t' == t) = false := by simp [h]
  simp only [getField, setField, List.lookup, hne, Bool.false_eq_true, if_false]
  rw [lookup_filter_ne _ h]

theorem getField_clearField_same (sch : Schema) (m : Msg) (t : Nat) :
    getField sch (clearField m t) t = defaultValue sch t := by
  simp only [getField, clearField]
  rw [lookup_filter_self]

theorem getField_clearField_ne (sch : Schema) (m : Msg) {t t' : Nat}
    (h : t' ≠ t) : getField sch (clearField m t) t' = getField sch m t' := by
  simp only [getField, clearField]
  rw [lookup_filter_ne _ h]

theorem length_le_of_nodup_lt {l : List Nat} {n : Nat}
    (hnd : l.Nodup) (hlt : ∀ x ∈ l, x < n) : l.length ≤ n := by
  have hsub : l.toFinset ⊆ Finset.range n := by
    intro x hx
    rw [List.mem_toFinset] at hx
    exact Finset.mem_range.mpr (hlt x hx)
  have h1 : l.toFinset.card = l.length := List.toFinset_card_of_nodup hnd
  have h2 := Finset.card_le_card hsub
  simp [Finset.card_range] at h2
  omega

theorem schema_length_le {sch : Schema} (hwf : SchemaWF sch) : sch.length ≤ 2 ^ 29 := by
  obtain ⟨hnd, hb⟩ := hwf
  have := length_le_of_nodup_lt hnd (by
    intro x hx
    rw [List.mem_map] at hx
    obtain ⟨f, hf, rfl⟩ := hx
    exact (hb f hf).2)
  simpa using this

theorem fields_length_le_schema {sch : Schema} {m : Msg}
    (hc : Conforms sch m) : m.fields.length ≤ sch.length := by
  obtain ⟨-, hnd, hmem⟩ := hc
  have hsub : (m.fields.map Prod.fst).toFinset ⊆ (sch.map FieldDef.tag).toFinset := by
    intro x hx
    rw [List.mem_toFinset, List.mem_map] at hx
    obtain ⟨p, hp, rfl⟩ := hx
    obtain ⟨f, hf, hft, -⟩ := hmem p hp
    rw [List.mem_toFinset, List.mem_map]
    exact ⟨f, hf, hft⟩
  have h1 : (m.fields.map Prod.fst).toFinset.card = m.fields.length := by
    rw [List.toFinset_card_of_nodup hnd, List.length_map]
  have h2 := Finset.card_le_card hsub
  have h3 : (sch.map FieldDef.tag).toFinset.card ≤ sch.length := by
    have := List.toFinset_card_le (sch.map FieldDef.tag)
    simpa using this
  omega

theorem encodeVarIntBits_ok {x : Nat} (hx : x < 2 ^ 56) :
    encodeVarIntBits x = some (bytesToBits (uvarintBytes x)) := by
  have h8 : (uvarintBytes x).length ≤ 8 := by
    have : x < 128 ^ 8 := by
      calc x < 2 ^ 56 := hx
        _ = 128 ^ 8 := by norm_num
    exact uvarintBytes_length_le (k := 7) (by norm_num) this
  simp [encodeVarIntBits, h8]

theorem marshalMsg_length_lt {sch : Schema} {m : Msg}
    (hwf : SchemaWF sch) (hsub : m.fields.length ≤ sch.length) :
    (marshalMsg m).length < 2 ^ 56 := by
  have h1 : (marshalMsg m).length ≤
      20 * (m.fields.filter (fun p => !isZeroValue p.2)).length :=
    marshalFieldList_length_le _
  have h2 : (m.fields.filter (fun p => !isZeroValue p.2)).length ≤ m.fields.length :=
    List.length_filter_le _ _
  have h3 := schema_length_le hwf
  have : (marshalMsg m).length ≤ 20 * 2 ^ 29 := by omega
  omega

theorem marshalMsg_lt_256 (m : Msg) : ∀ b ∈ marshalMsg m, b < 256 :=
  marshalFieldList_lt_256 _

/-- C6 (amended): once `Close` has succeeded (the `closed` flag is set),
`Encode`, `Bytes` and `Close` all fail with the `Closed` error, but
`Reset` does not fail — it rebinds the encoder and clears the `closed`
flag, after which the encoder is usable again. -/
theorem c6_closed_operations (st : EncState) (m : Msg) (b : Bits) (sch : Schema)
    (h : st.closed = true) :
    encodeMsg st m = .error .closed ∧ encBytes st = .error .closed ∧
      encClose st = .error .closed ∧ (encReset st b sch).closed = false := by
  refine ⟨?_, ?_, ?_, rfl⟩ <;> simp [encodeMsg, encBytes, encClose, h]

theorem c6_closed_operations_witness :
    encodeMsg { newEncoder with closed := true } emptyMsg = .error .closed ∧
      encBytes { newEncoder with closed := true } = .error .closed ∧
      encClose { newEncoder with closed := true } = .error .closed ∧
      (encReset { newEncoder with closed := true } [] []).closed = false :=
  c6_closed_operations { newEncoder with closed := true } emptyMsg [] [] rfl

/-- C6 (counterexample): the claim says every operation after a successful
`Close` fails with `Closed` and that `Closed` is terminal; but `Reset` on
the closed encoder returns normally with the `closed` flag cleared, and a
subsequent `Encode` succeeds. -/
theorem c6_counterexample :
    encClose (encReset newEncoder [] [⟨1, FieldType.fGeneric⟩]) =
      .ok (([] : Bits),
        { encReset newEncoder [] [⟨1, FieldType.fGeneric⟩] with closed := true }) ∧
    (encReset { encReset newEncoder [] [⟨1, FieldType.fGeneric⟩] with closed := true }
        [] [⟨1, FieldType.fGeneric⟩]).closed = false ∧
    (encodeMsg
        (encReset { encReset newEncoder [] [⟨1, FieldType.fGeneric⟩] with closed := true }
          [] [⟨1, FieldType.fGeneric⟩]) emptyMsg).toOption.isSome = true :=
  ⟨rfl, rfl, rfl⟩

/-- C7 (counterexample): at `x = 2 ^ 56` the LEB128 form needs 9 bytes,
which does not fit the encoder's 8-byte varint scratch, so
`encodeVarInt` would write out of bounds (modelled as `none`); the claim
that the scratch suffices for every `u64` is false. -/
theorem c7_counterexample :
    (uvarintBytes (2 ^ 56)).length = 9 ∧ encodeVarIntBits (2 ^ 56) = none := by
  constructor <;> decide

/-- C7 (amended): the 8-byte varint scratch suffices exactly for
`x < 2 ^ 56` — there `encodeVarInt` writes the LEB128 bytes of `x` — while
for `2 ^ 56 ≤ x` (a fortiori any `u64` at or above it) the LEB128 form
exceeds 8 bytes and the write is out of bounds. -/
theorem c7_varint_scratch (x : Nat) :
    (x < 2 ^ 56 → encodeVarIntBits x = some (bytesToBits (uvarintBytes x))) ∧
      (2 ^ 56 ≤ x → encodeVarIntBits x = none) := by
  constructor
  · intro hx
    exact encodeVarIntBits_ok hx
  · intro hx
    have h9 : 8 < (uvarintBytes x).length := by
      have : (128 : Nat) ^ 8 ≤ x := by
        calc (128 : Nat) ^ 8 = 2 ^ 56 := by norm_num
          _ ≤ x := hx
      exact uvarintBytesAux_length_gt (by norm_num) this
    simp [encodeVarIntBits]
    omega

theorem c7_varint_scratch_witness :
    encodeVarIntBits 300 = some (bytesToBits (uvarintBytes 300)) ∧
      encodeVarIntBits (2 ^ 60) = none :=
  ⟨(c7_varint_scratch 300).1 (by norm_num), (c7_varint_scratch (2 ^ 60)).2 (by norm_num)⟩

/-- C8: iterator state transitions are monotonic — once `done` is set or
an error is latched, `Next` returns `false` and leaves the whole state
(including the latched error and the stream position) unchanged, and
every further `Next` does the same. -/
theorem c8_monotone (st : ItState) (h : st.done = true ∨ st.err ≠ none) :
    nextIt st = (st, false) ∧
      (∀ n : Nat, (fun s => (nextIt s).1)^[n] st = st) ∧
      (∀ n : Nat, (nextIt ((fun s => (nextIt s).1)^[n] st)).2 = false) := by
  have hn : hasNextIt st = false := by
    rcases h with h | h
    · simp [hasNextIt, h]
    · simp [hasNextIt, Option.isNone_iff_eq_none]
      intro hc
      exact absurd hc h
  have h1 : nextIt st = (st, false) := by
    simp [nextIt, hn]
  have h2 : ∀ n : Nat, (fun s => (nextIt s).1)^[n] st = st := by
    intro n
    induction n with
    | zero => rfl
    | succ k ih =>
      rw [Function.iterate_succ_apply', ih, h1]
  refine ⟨h1, h2, ?_⟩
  intro n
  rw [h2 n, h1]

theorem c8_monotone_witness :
    nextIt { newIterator [] [] with done := true } =
        ({ newIterator [] [] with done := true }, false) ∧
      (∀ n : Nat, (fun s => (nextIt s).1)^[n] { newIterator [] [] with done := true } =
        { newIterator [] [] with done := true }) ∧
      (∀ n : Nat, (nextIt ((fun s => (nextIt s).1)^[n]
        { newIterator [] [] with done := true })).2 = false) :=
  c8_monotone { newIterator [] [] with done := true } (Or.inl rfl)

/-- C9: on an empty byte source the iterator's first `Next` hits end of
stream on the more-data bit, marks `done`, returns `false`, and latches no
error — end of stream at the first bit is a clean empty-sequence sentinel,
not an error. -/
theorem c9_empty_stream (sch : Schema) :
    nextIt (newIterator sch []) = ({ newIterator sch [] with done := true }, false) ∧
      (nextIt (newIterator sch [])).1.err = none ∧
      (nextIt (newIterator sch [])).2 = false := by
  refine ⟨rfl, rfl, rfl⟩

theorem insertFieldByTag_perm (f : FieldDef) (l : List FieldDef) :
    List.Perm (insertFieldByTag f l) (f :: l) := by
  induction l with
  | nil => simp [insertFieldByTag]
  | cons g gs ih =>
    by_cases h : f.tag ≤ g.tag
    · simp [insertFieldByTag, h]
    · simp only [insertFieldByTag, h, if_false]
      exact (List.Perm.cons g ih).trans (List.Perm.swap f g gs)

theorem sortFieldsByTag_perm (l : List FieldDef) :
    List.Perm (sortFieldsByTag l) l := by
  induction l with
  | nil => simp [sortFieldsByTag]
  | cons f fs ih =>
    exact (insertFieldByTag_perm f (sortFieldsByTag fs)).trans (List.Perm.cons f ih)

theorem customFields_map_perm (sch : Schema) :
    List.Perm ((customFields sch).map CustomState.fieldNum)
      ((sch.filter (fun f => isCustomType f.ftype)).map FieldDef.tag) := by
  unfold customFields
  rw [List.map_map]
  exact List.Perm.map _ (sortFieldsByTag_perm _)

theorem customFields_nodup {sch : Schema} (hwf : SchemaWF sch) :
    ((customFields sch).map CustomState.fieldNum).Nodup := by
  apply (customFields_map_perm sch).nodup_iff.mpr
  have hsub : List.Sublist (sch.filter (fun f => isCustomType f.ftype)) sch :=
    List.filter_sublist sch
  exact (hsub.map FieldDef.tag).nodup hwf.1

theorem customFields_mem {sch : Schema} {cs : CustomState}
    (h : cs ∈ customFields sch) :
    ∃ f ∈ sch, cs = ⟨f.tag, 0, 0, f.ftype⟩ ∧ isCustomType f.ftype = true := by
  unfold customFields at h
  rw [List.mem_map] at h
  obtain ⟨f, hf, rfl⟩ := h
  have hf2 : f ∈ sch.filter (fun f => isCustomType f.ftype) :=
    (sortFieldsByTag_perm _).mem_iff.mp hf
  rw [List.mem_filter] at hf2
  exact ⟨f, hf2.1, rfl, hf2.2⟩

theorem findField_eq_of_mem {sch : Schema} {f : FieldDef}
    (hwf : SchemaWF sch) (hf : f ∈ sch) : findField sch f.tag = some f := by
  obtain ⟨hnd, -⟩ := hwf
  induction sch with
  | nil => simp at hf
  | cons g gs ih =>
    rw [List.mem_cons] at hf
    simp only [List.map_cons, List.nodup_cons] at hnd
    rcases hf with rfl | hf
    · simp [findField, List.find?]
    · have hne : g.tag ≠ f.tag := by
        intro hEq
        exact hnd.1 (hEq ▸ (List.mem_map.mpr ⟨f, hf, rfl⟩))
      have hne2 : (g.tag == f.tag) = false := by simp [hne]
      simp only [findField, List.find?, hne2]
      exact ih hf hnd.2

theorem fieldsContains_of_mem {sch : Schema} {f : FieldDef}
    (hwf : SchemaWF sch) (hf : f ∈ sch) : fieldsContains sch f.tag = true := by
  simp [fieldsContains, findField_eq_of_mem hwf hf]

theorem lookup_filter_fst {p : Nat → Bool} (l : List (Nat × Value)) (t : Nat)
    (hp : p t = true) :
    (l.filter (fun q => p q.1)).lookup t = l.lookup t := by
  induction l with
  | nil => simp
  | cons q qs ih =>
    rcases q with ⟨a, v⟩
    by_cases ha : t = a
    · subst ha
      simp only [List.filter_cons, hp, if_true, List.lookup, beq_self_eq_true]
    · have h2 : (t == a) = false := by simp [ha]
      by_cases hpa : p a = true
      · simp only [List.filter_cons, hpa, if_true, List.lookup, h2]
        exact ih
      · have : p (a, v).1 = false := by simpa using hpa
        simp only [List.filter_cons, this, Bool.false_eq_true, if_false, List.lookup]
        rw [ih]
        simp [List.lookup, h2]

theorem getField_strip_mem {sch : Schema} {m : Msg} {t : Nat}
    (ht : fieldsContains sch t = true) :
    getField sch (stripOffSchema sch m) t = getField sch m t := by
  simp only [getField, stripOffSchema]
  rw [lookup_filter_fst _ _ ht]

theorem lookup_clearField_ne {m : Msg} {a t : Nat} (h : t ≠ a) :
    (clearField m a).fields.lookup t = m.fields.lookup t := by
  simp only [clearField]
  exact lookup_filter_ne _ h

theorem lookup_clearFieldList_not_mem {tags : List Nat} {t : Nat}
    (h : t ∉ tags) : ∀ m : Msg,
    (clearFieldList m tags).fields.lookup t = m.fields.lookup t := by
  induction tags with
  | nil => intro m; rfl
  | cons a rest ih =>
    intro m
    simp only [clearFieldList, List.foldl_cons]
    have h1 : t ∉ rest := fun hr => h (by simp [hr])
    have h2 : t ≠ a := fun hr => h (by simp [hr])
    rw [show (List.foldl clearField (clearField m a) rest) =
        clearFieldList (clearField m a) rest from rfl]
    rw [ih h1 (clearField m a)]
    exact lookup_clearField_ne h2

theorem getField_clearFieldList_not_mem {sch : Schema} {tags : List Nat} {t : Nat}
    (h : t ∉ tags) (m : Msg) :
    getField sch (clearFieldList m tags) t = getField sch m t := by
  simp only [getField]
  rw [lookup_clearFieldList_not_mem h]

theorem getField_clearFieldList_mem {sch : Schema} {tags : List Nat} {t : Nat}
    (h : t ∈ tags) : ∀ m : Msg,
    getField sch (clearFieldList m tags) t = defaultValue sch t := by
  induction tags with
  | nil => simp at h
  | cons a rest ih =>
    intro m
    by_cases hr : t ∈ rest
    · simp only [clearFieldList, List.foldl_cons]
      exact ih hr (clearField m a)
    · have hta : t = a := by
        rcases List.mem_cons.mp h with h1 | h1
        · exact h1
        · exact absurd h1 hr
      subst hta
      simp only [clearFieldList, List.foldl_cons]
      rw [show (List.foldl clearField (clearField m t) rest) =
          clearFieldList (clearField m t) rest from rfl]
      simp only [getField]
      rw [lookup_clearFieldList_not_mem hr]
      have := getField_clearField_same sch m t
      simpa [getField, clearField] using this

theorem foldl_max_le {L : List Nat} {n : Nat} :
    ∀ acc, acc < n → (∀ v ∈ L, v < n) → L.foldl max acc < n := by
  induction L with
  | nil => intro acc hacc _; simpa using hacc
  | cons a rest ih =>
    intro acc hacc h
    simp only [List.foldl_cons]
    exact ih (max acc a) (by
      have := h a (by simp)
      omega) (fun v hv => h v (by simp [hv]))

theorem le_foldl_max (L : List Nat) : ∀ acc, acc ≤ L.foldl max acc ∧
    ∀ v ∈ L, v ≤ L.foldl max acc := by
  induction L with
  | nil => intro acc; simp
  | cons a rest ih =>
    intro acc
    obtain ⟨h1, h2⟩ := ih (max acc a)
    constructor
    · calc acc ≤ max acc a := le_max_left _ _
        _ ≤ _ := h1
    · intro v hv
      rcases List.mem_cons.mp hv with rfl | hv
      · calc v ≤ max acc v := le_max_right _ _
          _ ≤ _ := h1
      · exact h2 v hv

theorem le_listMax {L : List Nat} {v : Nat} (h : v ∈ L) : v ≤ listMax L :=
  (le_foldl_max L 0).2 v h

theorem listMax_lt {L : List Nat} {n : Nat} (hn : 0 < n) (h : ∀ v ∈ L, v < n) :
    listMax L < n :=
  foldl_max_le 0 hn h

theorem encodeTSZLoop_spec (sch : Schema) (first : Bool) (csl : List CustomState) :
    ∀ (m : Msg), (csl.map CustomState.fieldNum).Nodup →
      (∀ cs ∈ csl, (floatBitsOfValue (getField sch m cs.fieldNum)).isSome = true) →
      encodeTSZLoop sch first csl m =
        .ok (csl.map (fun cs =>
                let fb := (floatBitsOfValue (getField sch m cs.fieldNum)).getD 0
                if first then { cs with prevFloatBits := fb, prevXOR := fb }
                else { cs with prevFloatBits := fb, prevXOR := cs.prevFloatBits ^^^ fb }),
              clearFieldList m (csl.map CustomState.fieldNum),
              (csl.map (fun cs =>
                let fb := (floatBitsOfValue (getField sch m cs.fieldNum)).getD 0
                if first then natToBits 64 fb
                else writeXOR cs.prevXOR (cs.prevFloatBits ^^^ fb))).flatten) := by
  induction csl with
  | nil =>
    intro m _ _
    simp [encodeTSZLoop, clearFieldList]
  | cons cs rest ih =>
    intro m hnd hv
    have hcs := hv cs (by simp)
    rw [Option.isSome_iff_exists] at hcs
    obtain ⟨fb, hfb⟩ := hcs
    simp only [List.map_cons, List.nodup_cons] at hnd
    have hgets : ∀ cs' ∈ rest,
        getField sch (clearField m cs.fieldNum) cs'.fieldNum =
          getField sch m cs'.fieldNum := by
      intro cs' hcs'
      have hne : cs'.fieldNum ≠ cs.fieldNum := by
        intro hEq
        exact hnd.1 (hEq ▸ List.mem_map.mpr ⟨cs', hcs', rfl⟩)
      exact getField_clearField_ne sch m hne
    have hrest : ∀ cs' ∈ rest,
        (floatBitsOfValue (getField sch (clearField m cs.fieldNum) cs'.fieldNum)).isSome = true := by
      intro cs' hcs'
      rw [hgets cs' hcs']
      exact hv cs' (by simp [hcs'])
    simp only [encodeTSZLoop, hfb]
    rw [ih (clearField m cs.fieldNum) hnd.2 hrest]
    have hm1 : rest.map (fun cs' =>
        let fb' := (floatBitsOfValue (getField sch (clearField m cs.fieldNum) cs'.fieldNum)).getD 0
        if first then { cs' with prevFloatBits := fb', prevXOR := fb' }
        else { cs' with prevFloatBits := fb', prevXOR := cs'.prevFloatBits ^^^ fb' }) =
        rest.map (fun cs' =>
        let fb' := (floatBitsOfValue (getField sch m cs'.fieldNum)).getD 0
        if first then { cs' with prevFloatBits := fb', prevXOR := fb' }
        else { cs' with prevFloatBits := fb', prevXOR := cs'.prevFloatBits ^^^ fb' }) :=
      List.map_congr_left (fun cs' hcs' => by rw [hgets cs' hcs'])
    have hm2 : rest.map (fun cs' =>
        let fb' := (floatBitsOfValue (getField sch (clearField m cs.fieldNum) cs'.fieldNum)).getD 0
        if first then natToBits 64 fb'
        else writeXOR cs'.prevXOR (cs'.prevFloatBits ^^^ fb')) =
        rest.map (fun cs' =>
        let fb' := (floatBitsOfValue (getField sch m cs'.fieldNum)).getD 0
        if first then natToBits 64 fb'
        else writeXOR cs'.prevXOR (cs'.prevFloatBits ^^^ fb')) :=
      List.map_congr_left (fun cs' hcs' => by rw [hgets cs' hcs'])
    rw [hm1, hm2]
    cases first <;>
      simp [encodeFirstTSZValue, encodeNextTSZValue, hfb, List.flatten, clearFieldList]

theorem diffFields_no_change (sch : Schema) (fs : List FieldDef) :
    ∀ (le m : Msg), (fs.map FieldDef.tag).Nodup →
      (∀ f ∈ fs, getField sch m f.tag = getField sch le f.tag) →
      diffFields sch fs le m = ⟨le, clearFieldList m (fs.map FieldDef.tag), [], []⟩ := by
  induction fs with
  | nil =>
    intro le m _ _
    simp [diffFields, clearFieldList]
  | cons f rest ih =>
    intro le m hnd heq
    simp only [List.map_cons, List.nodup_cons] at hnd
    have h1 : getField sch m f.tag = getField sch le f.tag := heq f (by simp)
    have heq' : ∀ g ∈ rest, getField sch (clearField m f.tag) g.tag = getField sch le g.tag := by
      intro g hg
      have hne : g.tag ≠ f.tag := by
        intro hEq
        exact hnd.1 (hEq ▸ List.mem_map.mpr ⟨g, hg, rfl⟩)
      rw [getField_clearField_ne sch m hne]
      exact heq g (by simp [hg])
    simp only [diffFields, if_pos h1]
    rw [ih le (clearField m f.tag) hnd.2 heq']
    simp only [List.map_cons, clearFieldList, List.foldl_cons]

theorem readUvarintBits_uvarint {x : Nat} {rest : Bits} (hx : x < 128 ^ 10) :
    readUvarintBits (bytesToBits (uvarintBytes x) ++ rest) = some (x, rest) := by
  unfold readUvarintBits
  apply readUvarintAux_uvarint hx
  have hlen := bytesToBits_length (uvarintBytes x)
  simp only [List.length_append]
  omega

theorem readBitsetLoop_spec (L : List Nat) (k : Nat) :
    ∀ (i0 : Nat) (rest : Bits),
      readBitsetLoop k i0
          (((List.range' (i0 + 1) k).map (fun v => decide (v ∈ L))) ++ rest) =
        some ((List.range' (i0 + 1) k).filter (fun v => decide (v ∈ L)), rest) := by
  induction k with
  | zero =>
    intro i0 rest
    simp [readBitsetLoop, List.range']
  | succ n ih =>
    intro i0 rest
    rw [List.range'_succ]
    simp only [List.map_cons, List.cons_append, readBitsetLoop, readBit, Option.some_bind]
    rw [ih (i0 + 1) rest]
    simp only [Option.map_some', List.filter_cons]

theorem filter_range'_eq_sorted {L : List Nat} {mx : Nat}
    (hs : List.Chain' (· < ·) L) (h1 : ∀ v ∈ L, 1 ≤ v) (hmx : ∀ v ∈ L, v ≤ mx) :
    (List.range' 1 mx).filter (fun v => decide (v ∈ L)) = L := by
  have hpL : List.Pairwise (· < ·) L := List.chain'_iff_pairwise.mp hs
  have hndL : L.Nodup := hpL.imp (fun h => Nat.ne_of_lt h)
  have hpR : List.Pairwise (· < ·) (List.range' 1 mx) := List.pairwise_lt_range' 1 mx
  have hpF : List.Pairwise (· < ·)
      ((List.range' 1 mx).filter (fun v => decide (v ∈ L))) := hpR.filter _
  have hndF : ((List.range' 1 mx).filter (fun v => decide (v ∈ L))).Nodup :=
    hpF.imp (fun h => Nat.ne_of_lt h)
  have hmem : ∀ x, (x ∈ (List.range' 1 mx).filter (fun v => decide (v ∈ L))) ↔ x ∈ L := by
    intro x
    rw [List.mem_filter]
    constructor
    · rintro ⟨-, hx⟩
      simpa using hx
    · intro hx
      refine ⟨List.mem_range'_1.mpr ⟨h1 x hx, ?_⟩, by simpa using hx⟩
      have := hmx x hx
      omega
  have hperm : ((List.range' 1 mx).filter (fun v => decide (v ∈ L))).Perm L := by
    apply List.perm_of_nodup_nodup_toFinset_eq hndF hndL
    ext x
    simp only [List.mem_toFinset]
    exact hmem x
  exact List.eq_of_perm_of_sorted hperm (hpF.imp Nat.le_of_lt) (hpL.imp Nat.le_of_lt)

/-- C5: for a non-empty strictly sorted list of field tags (all at least 1
and within the int32 tag range), `encodeBitset` writes the maximum tag as
an unsigned varint followed by `max` bits — bit `i` set iff tag `i + 1` is
in the list — and `readBitset` decodes that bitset back to exactly the
same list. -/
theorem c5_bitset_roundtrip (L : List Nat) (rest : Bits)
    (hne : L ≠ []) (hs : List.Chain' (· < ·) L)
    (hb : ∀ v ∈ L, 1 ≤ v ∧ v < 2 ^ 31) :
    encodeBitsetBits L =
        some (bytesToBits (uvarintBytes (listMax L)) ++ bitsetBits (listMax L) L) ∧
      readBitsetBits
          ((bytesToBits (uvarintBytes (listMax L)) ++ bitsetBits (listMax L) L) ++ rest) =
        some (L, rest) := by
  have hmx31 : listMax L < 2 ^ 31 := listMax_lt (by norm_num) (fun v hv => (hb v hv).2)
  have hmx56 : listMax L < 2 ^ 56 := by
    have : (2 : Nat) ^ 31 < 2 ^ 56 := by norm_num
    omega
  have hmx10 : listMax L < 128 ^ 10 := by
    have : (2 : Nat) ^ 56 ≤ 128 ^ 10 := by norm_num
    omega
  constructor
  · simp [encodeBitsetBits, encodeVarIntBits_ok hmx56]
  · simp only [readBitsetBits, List.append_assoc]
    rw [readUvarintBits_uvarint hmx10, Option.some_bind]
    have hbits : bitsetBits (listMax L) L =
        (List.range' 1 (listMax L)).map (fun v => decide (v ∈ L)) := by
      simp only [bitsetBits, List.range_eq_range']
      rw [show (List.range' 0 (listMax L)).map (fun i => decide ((i + 1) ∈ L)) =
          (List.range' 0 (listMax L)).map ((fun v => decide (v ∈ L)) ∘ (fun i => i + 1))
        from rfl]
      rw [← List.map_map]
      congr 1
      rw [show (fun i => i + 1) = (fun i => 1 + i) from funext fun i => by omega]
      rw [List.map_add_range']
    rw [hbits]
    have h0 : (1 : Nat) = 0 + 1 := rfl
    rw [show (List.range' 1 (listMax L)) = List.range' (0 + 1) (listMax L) from rfl]
    rw [readBitsetLoop_spec L (listMax L) 0 rest]
    rw [show List.range' (0 + 1) (listMax L) = List.range' 1 (listMax L) from rfl]
    rw [filter_range'_eq_sorted hs (fun v hv => (hb v hv).1) (fun v hv => le_listMax hv)]

theorem c5_bitset_roundtrip_witness :
    encodeBitsetBits [1, 3] =
        some (bytesToBits (uvarintBytes (listMax [1, 3])) ++ bitsetBits (listMax [1, 3]) [1, 3]) ∧
      readBitsetBits
          ((bytesToBits (uvarintBytes (listMax [1, 3])) ++ bitsetBits (listMax [1, 3]) [1, 3]) ++ []) =
        some ([1, 3], []) :=
  c5_bitset_roundtrip [1, 3] [] (by decide) (by norm_num [List.chain'_cons]) (by decide)

/-- C2: on the first Encode after a Reset (`lastEncoded` null) the proto
section always consists of the proto-changes control bit `1`, the defaults
control bit (`0`, since the diff loop was skipped), the varint-framed
length and the marshalled payload — even when every generic field holds
its default value (then the payload is empty but still framed); and the
skip form `[0]` is produced only when `lastEncoded` was non-null and the
diff loop recorded no changed field. -/
theorem c2_first_record_payload (sch : Schema) (m : Msg)
    (hwf : SchemaWF sch) (hlen : m.fields.length ≤ sch.length) :
    encodeProtoValuesM sch none m =
        .ok (some m, m,
          true :: false :: (bytesToBits (uvarintBytes (marshalMsg m).length) ++
            bytesToBits (marshalMsg m))) ∧
      (∀ (le : Option Msg) (m₀ : Msg) (r : Option Msg × Msg × Bits),
        encodeProtoValuesM sch le m₀ = .ok r → r.2.2 = [false] →
          le ≠ none ∧
            (diffFields sch sch (le.getD emptyMsg) (stripOffSchema sch m₀)).changed = []) := by
  constructor
  · have hok := encodeVarIntBits_ok (marshalMsg_length_lt hwf hlen)
    simp [encodeProtoValuesM, hok]
  · intro le m₀ r h hb
    rcases le with _ | le'
    · exfalso
      simp only [encodeProtoValuesM] at h
      rcases hE : encodeVarIntBits (marshalMsg m₀).length with _ | lb
      · rw [hE] at h
        exact Except.noConfusion h
      · rw [hE] at h
        injection h with h2
        rw [← h2] at hb
        simp at hb
    · simp only [encodeProtoValuesM] at h
      by_cases hch : (diffFields sch sch le' (stripOffSchema sch m₀)).changed = []
      · refine ⟨by simp, ?_⟩
        simpa using hch
      · exfalso
        rw [if_neg hch] at h
        rcases hDP : (if (diffFields sch sch le' (stripOffSchema sch m₀)).changedToDefault.isEmpty
            then some [false]
            else (encodeBitsetBits
              (diffFields sch sch le' (stripOffSchema sch m₀)).changedToDefault).map
                (fun bb => true :: bb)) with _ | dp
        · rw [hDP] at h
          rcases hE : encodeVarIntBits (marshalMsg (diffFields sch sch le'
              (stripOffSchema sch m₀)).msg).length with _ | lb
          · rw [hE] at h
            exact Except.noConfusion h
          · rw [hE] at h
            exact Except.noConfusion h
        · rw [hDP] at h
          rcases hE : encodeVarIntBits (marshalMsg (diffFields sch sch le'
              (stripOffSchema sch m₀)).msg).length with _ | lb
          · rw [hE] at h
            exact Except.noConfusion h
          · rw [hE] at h
            injection h with h2
            rw [← h2] at hb
            simp at hb

theorem c2_first_record_payload_witness :
    encodeProtoValuesM [⟨1, FieldType.fGeneric⟩] none emptyMsg =
        .ok (some emptyMsg, emptyMsg,
          true :: false :: (bytesToBits (uvarintBytes (marshalMsg emptyMsg).length) ++
            bytesToBits (marshalMsg emptyMsg))) ∧
      (∀ (le : Option Msg) (m₀ : Msg) (r : Option Msg × Msg × Bits),
        encodeProtoValuesM [⟨1, FieldType.fGeneric⟩] le m₀ = .ok r → r.2.2 = [false] →
          le ≠ none ∧
            (diffFields [⟨1, FieldType.fGeneric⟩] [⟨1, FieldType.fGeneric⟩]
              (le.getD emptyMsg) (stripOffSchema [⟨1, FieldType.fGeneric⟩] m₀)).changed = []) :=
  c2_first_record_payload [⟨1, FieldType.fGeneric⟩] emptyMsg (by decide) (by decide)

theorem encodeTSZLoop_msg_eq (sch : Schema) (first : Bool) (csl : List CustomState) :
    ∀ (m : Msg) (r : List CustomState × Msg × Bits),
      encodeTSZLoop sch first csl m = .ok r →
      r.2.1 = clearFieldList m (csl.map CustomState.fieldNum) := by
  induction csl with
  | nil =>
    intro m r h
    simp only [encodeTSZLoop] at h
    injection h with h2
    rw [← h2]
    rfl
  | cons cs rest ih =>
    intro m r h
    simp only [encodeTSZLoop] at h
    rcases hfb : floatBitsOfValue (getField sch m cs.fieldNum) with _ | fb
    · rw [hfb] at h
      exact Except.noConfusion h
    · rw [hfb] at h
      rcases hE : encodeTSZLoop sch first rest (clearField m cs.fieldNum) with e | ⟨csl', m', bits⟩
      · rw [hE] at h
        exact Except.noConfusion h
      · rw [hE] at h
        injection h with h2
        rw [← h2]
        have := ih (clearField m cs.fieldNum) (csl', m', bits) hE
        simpa [clearFieldList] using this

/-- C10 (amended): when `lastEncoded` was null, a successful `Encode`
retains as `lastEncoded` exactly the caller's message as mutated by the
call — only the custom fields have been cleared from it; no clone is made
and, on this first record, neither off-schema fields nor generic fields
are cleared (the stripping and diff loops run only when `lastEncoded` is
non-null). -/
theorem c10_last_encoded_alias (st : EncState) (m : Msg)
    (hle : st.lastEncoded = none) :
    ∀ (st' : EncState) (m' : Msg) (bits : Bits),
      encodeMsg st m = .ok (st', m', bits) →
      st'.lastEncoded = some m' ∧
        m' = clearFieldList m (st.tszFields.map CustomState.fieldNum) ∧
        ∀ t, t ∉ st.tszFields.map CustomState.fieldNum →
          m'.fields.lookup t = m.fields.lookup t := by
  intro st' m' bits h
  unfold encodeMsg at h
  cases hclosed : st.closed
  · rw [hclosed] at h
    simp only [Bool.false_eq_true, if_false] at h
    rcases hsch : st.schema with _ | sch
    · rw [hsch] at h
      exact Except.noConfusion h
    · rw [hsch] at h
      cases hunk : m.unknown
      · rw [hunk] at h
        simp only [Bool.false_eq_true, if_false] at h
        rcases hE : encodeTSZLoop sch (!st.hasWrittenFirstTSZ) st.tszFields m with e | ⟨tsz', m1, tszBits⟩
        · rw [hE] at h
          exact Except.noConfusion h
        · rw [hE, hle] at h
          unfold encodeProtoValuesM at h
          dsimp only at h
          rcases hE2 : encodeVarIntBits (marshalMsg m1).length with _ | lenBits
          · rw [hE2] at h
            exact Except.noConfusion h
          · rw [hE2] at h
            injection h with h2
            rw [Prod.mk.injEq] at h2
            obtain ⟨hA, h2'⟩ := h2
            rw [Prod.mk.injEq] at h2'
            obtain ⟨hB, -⟩ := h2'
            have hmsg : m1 = clearFieldList m (st.tszFields.map CustomState.fieldNum) :=
              encodeTSZLoop_msg_eq sch (!st.hasWrittenFirstTSZ) st.tszFields m
                (tsz', m1, tszBits) hE
            refine ⟨?_, ?_, ?_⟩
            · rw [← hA, ← hB]
            · rw [← hB, hmsg]
            · intro t ht
              rw [← hB, hmsg]
              exact lookup_clearFieldList_not_mem ht m
      · rw [hunk] at h
        simp at h
  · rw [hclosed] at h
    simp at h

theorem c10_last_encoded_alias_witness :
    ∃ (st' : EncState) (m' : Msg) (bits : Bits),
      encodeMsg (encReset newEncoder [] [⟨1, FieldType.fDouble⟩, ⟨2, FieldType.fGeneric⟩])
          ⟨[(1, Value.vFloat64 5), (2, Value.vGeneric 7)], false⟩ = .ok (st', m', bits) ∧
        st'.lastEncoded = some m' ∧
        m' = clearFieldList ⟨[(1, Value.vFloat64 5), (2, Value.vGeneric 7)], false⟩
          ((encReset newEncoder [] [⟨1, FieldType.fDouble⟩, ⟨2, FieldType.fGeneric⟩]).tszFields.map
            CustomState.fieldNum) := by
  rcases hE : encodeMsg (encReset newEncoder [] [⟨1, FieldType.fDouble⟩, ⟨2, FieldType.fGeneric⟩])
      ⟨[(1, Value.vFloat64 5), (2, Value.vGeneric 7)], false⟩ with e | ⟨st', m', bits⟩
  · have h1 : (encodeMsg (encReset newEncoder [] [⟨1, FieldType.fDouble⟩, ⟨2, FieldType.fGeneric⟩])
        ⟨[(1, Value.vFloat64 5), (2, Value.vGeneric 7)], false⟩).toOption.isSome = true := rfl
    rw [hE] at h1
    simp [Except.toOption] at h1
  · obtain ⟨ha, hb, -⟩ := c10_last_encoded_alias _ _ rfl st' m' bits hE
    exact ⟨st', m', bits, rfl, ha, hb⟩

/-- C10 (counterexample): the claim says the retained `lastEncoded` is a
deep clone of the message trimmed of custom AND off-schema fields,
independent of the caller's object; but on the first Encode the code
aliases `lastEncoded = m`, and the off-schema field (tag 3) is still
present in it (stripping runs only when `lastEncoded` was non-null). -/
theorem c10_counterexample :
    (encodeMsg (encReset newEncoder [] [⟨1, FieldType.fDouble⟩, ⟨2, FieldType.fGeneric⟩])
        ⟨[(1, Value.vFloat64 5), (2, Value.vGeneric 7), (3, Value.vGeneric 9)], false⟩).toOption.map
      (fun r => (r.1.lastEncoded, r.2.1)) =
      some (some ⟨[(2, Value.vGeneric 7), (3, Value.vGeneric 9)], false⟩,
            ⟨[(2, Value.vGeneric 7), (3, Value.vGeneric 9)], false⟩) := by
  decide

theorem mem_of_lookup_eq_some {l : List (Nat × Value)} {a : Nat} {v : Value}
    (h : l.lookup a = some v) : (a, v) ∈ l := by
  induction l with
  | nil => simp [List.lookup] at h
  | cons p ps ih =>
    rcases p with ⟨b, w⟩
    by_cases hab : a = b
    · subst hab
      simp only [List.lookup, beq_self_eq_true, Option.some.injEq] at h
      simp [h]
    · have h2 : (a == b) = false := by simp [hab]
      simp only [List.lookup, h2] at h
      exact List.mem_cons_of_mem _ (ih h)

theorem mem_tag_unique {sch : Schema} (hwf : SchemaWF sch) {f g : FieldDef}
    (hf : f ∈ sch) (hg : g ∈ sch) (h : f.tag = g.tag) : f = g := by
  have h1 := findField_eq_of_mem hwf hf
  have h2 := findField_eq_of_mem hwf hg
  rw [h, h2] at h1
  injection h1 with h3
  exact h3.symm

theorem conforms_custom_isSome {sch : Schema} {m : Msg}
    (hwf : SchemaWF sch) (hc : Conforms sch m) :
    ∀ cs ∈ customFields sch, (floatBitsOfValue (getField sch m cs.fieldNum)).isSome = true := by
  intro cs hcs
  obtain ⟨f, hf, rfl, hcust⟩ := customFields_mem hcs
  show (floatBitsOfValue (getField sch m f.tag)).isSome = true
  rcases hlk : m.fields.lookup f.tag with _ | v
  · simp only [getField, hlk, defaultValue, findField_eq_of_mem hwf hf]
    cases hft : f.ftype
    · simp [zeroValue, floatBitsOfValue]
    · simp [zeroValue, floatBitsOfValue]
    · rw [hft] at hcust
      simp [isCustomType] at hcust
  · have hmem : (f.tag, v) ∈ m.fields := mem_of_lookup_eq_some hlk
    obtain ⟨-, -, hval⟩ := hc
    obtain ⟨g, hg, hgt, hwfv⟩ := hval (f.tag, v) hmem
    have hfg : g = f := mem_tag_unique hwf hg hf hgt
    subst hfg
    simp only [getField, hlk]
    cases hft : g.ftype <;> rw [hft] at hwfv
    · cases v <;> simp [ValueWF] at hwfv <;> simp [floatBitsOfValue]
    · cases v <;> simp [ValueWF] at hwfv <;> simp [floatBitsOfValue]
    · rw [hft] at hcust
      simp [isCustomType] at hcust

theorem clearFieldList_fields_length (tags : List Nat) :
    ∀ m : Msg, (clearFieldList m tags).fields.length ≤ m.fields.length := by
  induction tags with
  | nil => intro m; exact le_refl _
  | cons a rest ih =>
    intro m
    calc (clearFieldList (clearField m a) rest).fields.length
        ≤ (clearField m a).fields.length := ih (clearField m a)
      _ ≤ m.fields.length := List.length_filter_le _ _

theorem flatten_map_singleton_false {α : Type} (l : List α) :
    (l.map (fun _ => [false])).flatten = List.replicate l.length false := by
  induction l with
  | nil => rfl
  | cons a rest ih => simp [List.replicate, ih]

theorem writeXOR_zero (prevXOR : Nat) : writeXOR prevXOR 0 = [false] := by
  simp [writeXOR]

theorem encodeMsg_first {sch : Schema} {m : Msg} (st : EncState)
    (hwf : SchemaWF sch) (hc : Conforms sch m)
    (hst : st.closed = false) (hsch : st.schema = some sch)
    (hle : st.lastEncoded = none) (hfw : st.hasWrittenFirstTSZ = false)
    (htsz : st.tszFields = customFields sch) :
    encodeMsg st m =
      .ok ({ st with lastEncoded := some (trimCustom sch m),
                     tszFields := tszFirstStates sch m,
                     hasWrittenFirstTSZ := true,
                     stream := st.stream ++ firstRecordBits sch m },
           trimCustom sch m, firstRecordBits sch m) := by
  have hnd0 : ((customFields sch).map CustomState.fieldNum).Nodup := customFields_nodup hwf
  have hv1 := conforms_custom_isSome hwf hc
  have hT1 := encodeTSZLoop_spec sch true (customFields sch) m hnd0 hv1
  simp only [if_true] at hT1
  have hlen : (trimCustom sch m).fields.length ≤ sch.length :=
    le_trans (clearFieldList_fields_length _ m) (fields_length_le_schema hc)
  have hok1 := encodeVarIntBits_ok (marshalMsg_length_lt hwf hlen)
  unfold encodeMsg
  rw [hst]
  simp only [Bool.false_eq_true, if_false]
  rw [hsch]
  rw [hc.1]
  simp only [Bool.false_eq_true, if_false]
  rw [hfw]
  simp only [Bool.not_false]
  rw [htsz, hT1]
  rw [hle]
  unfold encodeProtoValuesM
  dsimp only
  rw [show clearFieldList m (List.map CustomState.fieldNum (customFields sch)) =
      trimCustom sch m from rfl]
  rw [hok1]
  simp only [tszFirstStates, fieldBits, firstRecordBits, trimCustom, customTags]

/-- C3: encoding a message and then an equal message again produces as
the second record exactly a `1` more-data bit, one `0` (XOR-zero opcode)
bit per custom field in tag order, and a `0` proto-changes bit — nothing
else. -/
theorem c3_second_record (sch : Schema) (m₁ m₂ : Msg) (hwf : SchemaWF sch)
    (hc1 : Conforms sch m₁) (hc2 : Conforms sch m₂)
    (heq : ∀ f ∈ sch, getField sch m₂ f.tag = getField sch m₁ f.tag) :
    ∃ (st₁ : EncState) (m₁' : Msg) (bits₁ : Bits),
      encodeMsg (encReset newEncoder [] sch) m₁ = .ok (st₁, m₁', bits₁) ∧
      (encodeMsg st₁ m₂).toOption.map (fun r => r.2.2) =
        some (true :: (List.replicate (customFields sch).length false ++ [false])) := by
  have hE1 := @encodeMsg_first sch m₁ (encReset newEncoder [] sch)
    hwf hc1 rfl rfl rfl rfl rfl
  have hmapf : (tszFirstStates sch m₁).map CustomState.fieldNum = customTags sch := by
    simp [tszFirstStates, customTags, List.map_map, Function.comp]
  have hnd1 : ((tszFirstStates sch m₁).map CustomState.fieldNum).Nodup := by
    rw [hmapf]
    exact customFields_nodup hwf
  have hv2 := conforms_custom_isSome hwf hc2
  have hv2' : ∀ cs ∈ tszFirstStates sch m₁,
      (floatBitsOfValue (getField sch m₂ cs.fieldNum)).isSome = true := by
    intro cs hcs
    rw [tszFirstStates, List.mem_map] at hcs
    obtain ⟨cs₀, hcs₀, rfl⟩ := hcs
    exact hv2 cs₀ hcs₀
  have hT2 := encodeTSZLoop_spec sch false (tszFirstStates sch m₁) m₂ hnd1 hv2'
  simp only [Bool.false_eq_true, if_false] at hT2
  have helem : ∀ cs ∈ tszFirstStates sch m₁,
      writeXOR cs.prevXOR
        (cs.prevFloatBits ^^^ (floatBitsOfValue (getField sch m₂ cs.fieldNum)).getD 0) =
      [false] := by
    intro cs hcs
    rw [tszFirstStates, List.mem_map] at hcs
    obtain ⟨cs₀, hcs₀, rfl⟩ := hcs
    obtain ⟨f, hf, hcseq, -⟩ := customFields_mem hcs₀
    have htag : cs₀.fieldNum = f.tag := by rw [hcseq]
    have hsame : getField sch m₂ cs₀.fieldNum = getField sch m₁ cs₀.fieldNum := by
      rw [htag]
      exact heq f hf
    show writeXOR _ (fieldBits sch m₁ cs₀.fieldNum ^^^
      (floatBitsOfValue (getField sch m₂ cs₀.fieldNum)).getD 0) = _
    rw [hsame]
    show writeXOR _ (fieldBits sch m₁ cs₀.fieldNum ^^^ fieldBits sch m₁ cs₀.fieldNum) = _
    rw [Nat.xor_self]
    exact writeXOR_zero _
  have hbits : ((tszFirstStates sch m₁).map (fun cs =>
      writeXOR cs.prevXOR
        (cs.prevFloatBits ^^^ (floatBitsOfValue (getField sch m₂ cs.fieldNum)).getD 0))).flatten =
      List.replicate (customFields sch).length false := by
    rw [List.map_congr_left helem, flatten_map_singleton_false]
    simp [tszFirstStates]
  have heq' : ∀ f ∈ sch,
      getField sch (stripOffSchema sch (clearFieldList m₂
        ((tszFirstStates sch m₁).map CustomState.fieldNum))) f.tag =
      getField sch (trimCustom sch m₁) f.tag := by
    intro f hf
    rw [getField_strip_mem (fieldsContains_of_mem hwf hf), hmapf]
    by_cases hmem : f.tag ∈ customTags sch
    · rw [getField_clearFieldList_mem hmem, trimCustom, getField_clearFieldList_mem hmem]
    · rw [getField_clearFieldList_not_mem hmem, trimCustom,
        getField_clearFieldList_not_mem hmem]
      exact heq f hf
  have hP2 : encodeProtoValuesM sch (some (trimCustom sch m₁))
      (clearFieldList m₂ ((tszFirstStates sch m₁).map CustomState.fieldNum)) =
      .ok (some (trimCustom sch m₁),
           clearFieldList (stripOffSchema sch (clearFieldList m₂
             ((tszFirstStates sch m₁).map CustomState.fieldNum))) (sch.map FieldDef.tag),
           [false]) := by
    unfold encodeProtoValuesM
    dsimp only
    rw [diffFields_no_change sch sch _ _ hwf.1 heq']
    rfl
  refine ⟨_, _, _, hE1, ?_⟩
  unfold encodeMsg
  dsimp only [encReset, newEncoder]
  rw [hc2.1]
  simp only [Bool.false_eq_true, if_false, Bool.not_true]
  rw [hT2]
  dsimp only
  rw [hP2]
  dsimp only
  rw [hbits]
  simp [Except.toOption]

theorem c3_second_record_witness :
    ∃ (st₁ : EncState) (m₁' : Msg) (bits₁ : Bits),
      encodeMsg (encReset newEncoder [] [⟨1, FieldType.fDouble⟩, ⟨2, FieldType.fGeneric⟩])
          ⟨[(1, Value.vFloat64 5), (2, Value.vGeneric 7)], false⟩ = .ok (st₁, m₁', bits₁) ∧
      (encodeMsg st₁ ⟨[(1, Value.vFloat64 5), (2, Value.vGeneric 7)], false⟩).toOption.map
          (fun r => r.2.2) =
        some (true :: (List.replicate
          (customFields [⟨1, FieldType.fDouble⟩, ⟨2, FieldType.fGeneric⟩]).length false ++
            [false])) :=
  c3_second_record [⟨1, FieldType.fDouble⟩, ⟨2, FieldType.fGeneric⟩]
    ⟨[(1, Value.vFloat64 5), (2, Value.vGeneric 7)], false⟩
    ⟨[(1, Value.vFloat64 5), (2, Value.vGeneric 7)], false⟩
    (by decide) (by decide) (by decide) (by decide)

/-- C4 (code bug): for the schema with a single 32-bit float custom field
and the conforming message holding `1.5f` (bits `0x3FC00000`), the encoder
does write the widened value as 64 raw bits (a 75-bit first record), but
the iterator's custom-value loops skip every custom field whose schema
type is not double: the first `Next` succeeds while consuming only 2 of
the 75 bits (none of the 64 value bits) and leaves `lastIterated` nil, so
`Current` yields no reconstructed message and the float64-to-float32
truncation of `updateLastIterated` is never reached. -/
theorem c4_float_field_not_decoded :
    Conforms [⟨1, FieldType.fFloat⟩] ⟨[(1, Value.vFloat32 0x3FC00000)], false⟩ ∧
    (encodeAll [⟨1, FieldType.fFloat⟩] [⟨[(1, Value.vFloat32 0x3FC00000)], false⟩]).toOption.map
        (fun B => (B.length,
          (nextIt (newIterator [⟨1, FieldType.fFloat⟩] B)).2,
          (nextIt (newIterator [⟨1, FieldType.fFloat⟩] B)).1.lastIterated,
          (nextIt (newIterator [⟨1, FieldType.fFloat⟩] B)).1.stream.length,
          iterAll (B.length + 1) (newIterator [⟨1, FieldType.fFloat⟩] B))) =
      some (75, true, none, 73, [none]) :=
  ⟨by decide, by decide⟩

theorem f32ToF64Bits_lt (b : Nat) : f32ToF64Bits b < 2 ^ 64 := by
  have hs : b / 2 ^ 31 % 2 < 2 := Nat.mod_lt _ (by norm_num)
  have he : b / 2 ^ 23 % 2 ^ 8 < 2 ^ 8 := Nat.mod_lt _ (by norm_num)
  have hf : b % 2 ^ 23 < 2 ^ 23 := Nat.mod_lt _ (by norm_num)
  unfold f32ToF64Bits
  dsimp only
  split_ifs with h1 h2 h3
  · omega
  · omega
  · have hbl : bitLen (b % 2 ^ 23) ≤ 23 := by
      by_contra hgt
      push_neg at hgt
      have h2p : 2 ^ (bitLen (b % 2 ^ 23) - 1) ≤ b % 2 ^ 23 :=
        two_pow_bitLenAux_le 64 (b % 2 ^ 23) h3
      have hmono : (2 : Nat) ^ 23 ≤ 2 ^ (bitLen (b % 2 ^ 23) - 1) :=
        Nat.pow_le_pow_right (by norm_num) (by omega)
      have : (2 : Nat) ^ 23 ≤ b % 2 ^ 23 := le_trans hmono h2p
      omega
    have hm : b % 2 ^ 23 % 2 ^ (bitLen (b % 2 ^ 23) - 1) <
        2 ^ (bitLen (b % 2 ^ 23) - 1) :=
      Nat.mod_lt _ (pow_pos (by norm_num) _)
    have hprod : b % 2 ^ 23 % 2 ^ (bitLen (b % 2 ^ 23) - 1) *
        2 ^ (52 - (bitLen (b % 2 ^ 23) - 1)) < 2 ^ 52 := by
      calc b % 2 ^ 23 % 2 ^ (bitLen (b % 2 ^ 23) - 1) *
            2 ^ (52 - (bitLen (b % 2 ^ 23) - 1))
          < 2 ^ (bitLen (b % 2 ^ 23) - 1) * 2 ^ (52 - (bitLen (b % 2 ^ 23) - 1)) :=
            mul_lt_mul_of_pos_right hm (pow_pos (by norm_num) _)
        _ = 2 ^ ((bitLen (b % 2 ^ 23) - 1) + (52 - (bitLen (b % 2 ^ 23) - 1))) := by
            rw [← pow_add]
        _ = 2 ^ 52 := by congr 1; omega
    omega
  · omega

theorem floatBitsOfValue_lt {t : FieldType} {v : Value} (hwf : ValueWF t v) :
    (floatBitsOfValue v).getD 0 < 2 ^ 64 := by
  cases t <;> cases v
  · exact hwf
  · exact False.elim hwf
  · exact False.elim hwf
  · exact False.elim hwf
  · exact f32ToF64Bits_lt _
  · exact False.elim hwf
  · exact False.elim hwf
  · exact False.elim hwf
  · show (0 : Nat) < 2 ^ 64
    norm_num

theorem conforms_value_wf {sch : Schema} {m : Msg} (hwf : SchemaWF sch)
    (hc : Conforms sch m) {f : FieldDef} (hf : f ∈ sch) {v : Value}
    (hlk : m.fields.lookup f.tag = some v) : ValueWF f.ftype v := by
  obtain ⟨-, -, hval⟩ := hc
  obtain ⟨g, hg, hgt, hwfv⟩ := hval (f.tag, v) (mem_of_lookup_eq_some hlk)
  have hgf : g = f := mem_tag_unique hwf hg hf hgt
  exact hgf ▸ hwfv

theorem fieldBits_lt {sch : Schema} {m : Msg} (hwf : SchemaWF sch)
    (hc : Conforms sch m) {f : FieldDef} (hf : f ∈ sch) :
    fieldBits sch m f.tag < 2 ^ 64 := by
  rcases hlk : m.fields.lookup f.tag with _ | v
  · simp only [fieldBits, getField, hlk, defaultValue, findField_eq_of_mem hwf hf]
    cases f.ftype
    · norm_num [zeroValue, floatBitsOfValue]
    · show (floatBitsOfValue (Value.vFloat32 0)).getD 0 < 2 ^ 64
      show f32ToF64Bits 0 < 2 ^ 64
      exact f32ToF64Bits_lt 0
    · norm_num [zeroValue, floatBitsOfValue]
  · simp only [fieldBits, getField, hlk]
    exact floatBitsOfValue_lt (conforms_value_wf hwf hc hf hlk)

theorem getField_double_eq {sch : Schema} {m : Msg} (hwf : SchemaWF sch)
    (hc : Conforms sch m) {f : FieldDef} (hf : f ∈ sch) (hd : f.ftype = .fDouble) :
    getField sch m f.tag = .vFloat64 (fieldBits sch m f.tag) := by
  rcases hlk : m.fields.lookup f.tag with _ | v
  · simp only [getField, fieldBits, hlk, defaultValue, findField_eq_of_mem hwf hf, hd,
      zeroValue, floatBitsOfValue, Option.getD_some]
  · have hwfv := conforms_value_wf hwf hc hf hlk
    rw [hd] at hwfv
    cases v
    · simp only [getField, fieldBits, hlk, floatBitsOfValue, Option.getD_some]
    · exact False.elim hwfv
    · exact False.elim hwfv

theorem customFields_double {sch : Schema} (hnf : ∀ f ∈ sch, f.ftype ≠ .fFloat) :
    ∀ cs ∈ customFields sch, cs.ftype = .fDouble := by
  intro cs hcs
  obtain ⟨f, hf, rfl, hcust⟩ := customFields_mem hcs
  show f.ftype = .fDouble
  have hne := hnf f hf
  cases hft : f.ftype
  · rfl
  · exact absurd hft hne
  · rw [hft] at hcust
    simp [isCustomType] at hcust

theorem clearFieldList_unknown (tags : List Nat) :
    ∀ m : Msg, (clearFieldList m tags).unknown = m.unknown := by
  induction tags with
  | nil => intro m; rfl
  | cons a rest ih =>
    intro m
    exact (ih (clearField m a)).trans rfl

theorem clearFieldList_sublist (tags : List Nat) :
    ∀ m : Msg, ((clearFieldList m tags).fields).Sublist m.fields := by
  induction tags with
  | nil => intro m; exact List.Sublist.refl _
  | cons a rest ih =>
    intro m
    exact (ih (clearField m a)).trans (List.filter_sublist _)

theorem clearFieldList_fields_mem {tags : List Nat} {m : Msg} {p : Nat × Value}
    (h : p ∈ (clearFieldList m tags).fields) : p ∈ m.fields :=
  (clearFieldList_sublist tags m).subset h

theorem conforms_clearFieldList {sch : Schema} {m : Msg} (hc : Conforms sch m)
    (tags : List Nat) : Conforms sch (clearFieldList m tags) := by
  obtain ⟨hu, hnd, hval⟩ := hc
  refine ⟨?_, ?_, ?_⟩
  · rw [clearFieldList_unknown]; exact hu
  · exact (((clearFieldList_sublist tags m)).map Prod.fst).nodup hnd
  · intro p hp
    exact hval p (clearFieldList_fields_mem hp)

theorem stripOffSchema_eq_self {sch : Schema} {m : Msg}
    (hsub : ∀ p ∈ m.fields, fieldsContains sch p.1 = true) :
    stripOffSchema sch m = m := by
  rcases m with ⟨fs, u⟩
  simp only [stripOffSchema]
  congr 1
  exact List.filter_eq_self.mpr (fun p hp => hsub p hp)

theorem conforms_fieldsContains {sch : Schema} {m : Msg} (hwf : SchemaWF sch)
    (hc : Conforms sch m) : ∀ p ∈ m.fields, fieldsContains sch p.1 = true := by
  intro p hp
  obtain ⟨f, hf, hft, -⟩ := hc.2.2 p hp
  rw [← hft]
  exact fieldsContains_of_mem hwf hf

theorem lookup_eq_none_of_not_mem {l : List (Nat × Value)} {t : Nat}
    (h : t ∉ l.map Prod.fst) : l.lookup t = none := by
  induction l with
  | nil => rfl
  | cons q qs ih =>
    rcases q with ⟨a, v⟩
    have h2 : (t == a) = false := by
      simp only [beq_eq_false_iff_ne, ne_eq]
      exact fun hr => h (by simp [hr])
    simp only [List.lookup, h2]
    exact ih (fun hr => h (by simp [hr]))

theorem getField_foldl_setField_not_mem {sch : Schema} {pairs : List (Nat × Value)}
    {t : Nat} (h : t ∉ pairs.map Prod.fst) : ∀ acc : Msg,
    getField sch (pairs.foldl (fun a p => setField a p.1 p.2) acc) t =
      getField sch acc t := by
  induction pairs with
  | nil => intro acc; rfl
  | cons q qs ih =>
    intro acc
    simp only [List.foldl_cons]
    have h1 : t ∉ qs.map Prod.fst := fun hr => h (by simp [hr])
    have h2 : t ≠ q.1 := fun hr => h (by simp [hr])
    rw [ih h1 (setField acc q.1 q.2)]
    exact getField_setField_ne sch acc q.2 h2

theorem getField_merge {sch : Schema} (pairs : List (Nat × Value)) :
    ∀ (acc : Msg) (t : Nat), (pairs.map Prod.fst).Nodup →
    getField sch (pairs.foldl (fun a p => setField a p.1 p.2) acc) t =
      (match pairs.lookup t with
       | some v => v
       | none => getField sch acc t) := by
  induction pairs with
  | nil => intro acc t _; rfl
  | cons q qs ih =>
    rcases q with ⟨a, v⟩
    intro acc t hnd
    simp only [List.map_cons, List.nodup_cons] at hnd
    by_cases ht : t = a
    · subst ht
      simp only [List.foldl_cons, List.lookup, beq_self_eq_true]
      rw [getField_foldl_setField_not_mem hnd.1 (setField acc t v)]
      exact getField_setField_same sch acc t v
    · have h2 : (t == a) = false := by simp [ht]
      simp only [List.foldl_cons, List.lookup, h2]
      rw [ih (setField acc a v) t hnd.2]
      rcases hlk : qs.lookup t with _ | w
      · simp only
        exact getField_setField_ne sch acc v ht
      · rfl

theorem lookup_filter_isZero (l : List (Nat × Value)) : ∀ t : Nat,
    (l.map Prod.fst).Nodup →
    (l.filter (fun p => !isZeroValue p.2)).lookup t =
      (match l.lookup t with
       | some v => if isZeroValue v then none else some v
       | none => none) := by
  induction l with
  | nil => intro t _; rfl
  | cons q qs ih =>
    rcases q with ⟨a, v⟩
    intro t hnd
    simp only [List.map_cons, List.nodup_cons] at hnd
    by_cases hz : isZeroValue v = true
    · have hpred : (!isZeroValue ((a, v) : Nat × Value).2) = false := by simp [hz]
      simp only [List.filter_cons, hpred, Bool.false_eq_true, if_false]
      by_cases ht : t = a
      · subst ht
        have hnm : t ∉ (qs.filter (fun p => !isZeroValue p.2)).map Prod.fst :=
          fun hmem => hnd.1 (((List.filter_sublist qs).map Prod.fst).subset hmem)
        rw [lookup_eq_none_of_not_mem hnm]
        simp only [List.lookup, beq_self_eq_true, hz, if_true]
      · have h2 : (t == a) = false := by simp [ht]
        rw [ih t hnd.2]
        simp only [List.lookup, h2]
    · have hz' : isZeroValue v = false := by simpa using hz
      have hpred : (!isZeroValue ((a, v) : Nat × Value).2) = true := by simp [hz']
      simp only [List.filter_cons, hpred, if_true]
      by_cases ht : t = a
      · subst ht
        simp only [List.lookup, beq_self_eq_true, hz', Bool.false_eq_true, if_false]
      · have h2 : (t == a) = false := by simp [ht]
        simp only [List.lookup, h2]
        exact ih t hnd.2

theorem valueCode_lt {t : FieldType} {v : Value} (hwfv : ValueWF t v) :
    valueCode v < 128 ^ 10 := by
  cases t <;> cases v <;> simp only [valueCode]
  · rename_i b
    have hb : b < 2 ^ 64 := hwfv
    omega
  · exact False.elim hwfv
  · exact False.elim hwfv
  · exact False.elim hwfv
  · rename_i b
    have hb : b < 2 ^ 32 := hwfv
    omega
  · exact False.elim hwfv
  · exact False.elim hwfv
  · exact False.elim hwfv
  · rename_i n
    have hb : n < 2 ^ 64 := hwfv
    omega

theorem marshalFieldList_length_ge (l : List (Nat × Value)) :
    l.length ≤ (marshalFieldList l).length := by
  induction l with
  | nil => simp [marshalFieldList]
  | cons p ps ih =>
    rw [marshalFieldList_cons]
    simp only [List.length_append, List.length_cons]
    have h1 := uvarintBytes_length_pos p.1
    have h2 := uvarintBytes_length_pos (valueCode p.2)
    omega

theorem unmarshalMerge_marshal {sch : Schema} {mm : Msg} (hwf : SchemaWF sch)
    (hcm : Conforms sch mm) (m0 : Msg) :
    unmarshalMerge m0 (marshalMsg mm) =
      some ((mm.fields.filter (fun p => !isZeroValue p.2)).foldl
        (fun a p => setField a p.1 p.2) m0) := by
  have hbnd : ∀ p ∈ mm.fields.filter (fun p => !isZeroValue p.2),
      p.1 < 128 ^ 10 ∧ valueCode p.2 < 128 ^ 10 := by
    intro p hp
    have hp0 := List.mem_of_mem_filter hp
    obtain ⟨f, hf, hft, hwfv⟩ := hcm.2.2 p hp0
    refine ⟨?_, valueCode_lt hwfv⟩
    have h29 : p.1 < 2 ^ 29 := hft ▸ (hwf.2 f hf).2
    calc p.1 < 2 ^ 29 := h29
      _ < 128 ^ 10 := by norm_num
  unfold unmarshalMerge marshalMsg
  rw [parsePairsAux_marshal _ _ hbnd (marshalFieldList_length_ge _)]
  rfl

theorem readBitset_encodeBitset (L : List Nat) (rest : Bits)
    (hb : ∀ v ∈ L, v < 2 ^ 31) :
    encodeBitsetBits L =
        some (bytesToBits (uvarintBytes (listMax L)) ++ bitsetBits (listMax L) L) ∧
      readBitsetBits
          ((bytesToBits (uvarintBytes (listMax L)) ++ bitsetBits (listMax L) L) ++ rest) =
        some ((List.range' 1 (listMax L)).filter (fun v => decide (v ∈ L)), rest) := by
  have hmx31 : listMax L < 2 ^ 31 := listMax_lt (by norm_num) hb
  have hmx56 : listMax L < 2 ^ 56 := by
    have hp : (2 : Nat) ^ 31 < 2 ^ 56 := by norm_num
    omega
  have hmx10 : listMax L < 128 ^ 10 := by
    have hp : (2 : Nat) ^ 56 ≤ 128 ^ 10 := by norm_num
    omega
  constructor
  · simp [encodeBitsetBits, encodeVarIntBits_ok hmx56]
  · simp only [readBitsetBits, List.append_assoc]
    rw [readUvarintBits_uvarint hmx10, Option.some_bind]
    have hbits : bitsetBits (listMax L) L =
        (List.range' 1 (listMax L)).map (fun v => decide (v ∈ L)) := by
      simp only [bitsetBits, List.range_eq_range']
      rw [show (List.range' 0 (listMax L)).map (fun i => decide ((i + 1) ∈ L)) =
          (List.range' 0 (listMax L)).map ((fun v => decide (v ∈ L)) ∘ (fun i => i + 1))
        from rfl]
      rw [← List.map_map]
      congr 1
      rw [show (fun i => i + 1) = (fun i => 1 + i) from funext fun i => by omega]
      rw [List.map_add_range']
    rw [hbits]
    rw [show (List.range' 1 (listMax L)) = List.range' (0 + 1) (listMax L) from rfl]
    rw [readBitsetLoop_spec L (listMax L) 0 rest]

theorem mem_filter_range'_iff {L : List Nat} {t : Nat} (h1 : ∀ v ∈ L, 1 ≤ v) :
    (t ∈ (List.range' 1 (listMax L)).filter (fun v => decide (v ∈ L))) ↔ t ∈ L := by
  rw [List.mem_filter]
  constructor
  · rintro ⟨-, ht⟩
    simpa using ht
  · intro ht
    refine ⟨List.mem_range'_1.mpr ⟨h1 t ht, ?_⟩, by simpa using ht⟩
    have hle := le_listMax ht
    omega

theorem readFirstCustomLoop_writer (sch : Schema) (csl : List CustomState) :
    ∀ (fbv : Nat → Nat) (li : Option Msg) (rest : Bits),
      (∀ cs ∈ csl, cs.ftype = .fDouble ∧ fbv cs.fieldNum < 2 ^ 64) →
      readFirstCustomLoop sch csl li
          ((csl.map (fun cs => natToBits 64 (fbv cs.fieldNum))).flatten ++ rest) =
        some (csl.map (fun cs => { cs with prevFloatBits := fbv cs.fieldNum,
                                           prevXOR := fbv cs.fieldNum }),
              csl.foldl (fun acc cs => some (updateLastIterated sch acc
                { cs with prevFloatBits := fbv cs.fieldNum,
                          prevXOR := fbv cs.fieldNum })) li,
              rest) := by
  induction csl with
  | nil =>
    intro fbv li rest _
    simp [readFirstCustomLoop]
  | cons cs rest0 ih =>
    intro fbv li rest h
    obtain ⟨hd, hb⟩ := h cs (by simp)
    simp only [readFirstCustomLoop, List.map_cons, List.flatten_cons,
      List.append_assoc]
    rw [if_pos hd]
    rw [readBitsL_append 64 (fbv cs.fieldNum) _ hb, Option.some_bind]
    dsimp only
    rw [ih fbv (some (updateLastIterated sch li
      { cs with prevFloatBits := fbv cs.fieldNum, prevXOR := fbv cs.fieldNum }))
      rest (fun c hc => h c (by simp [hc]))]
    simp only [Option.map_some', List.foldl_cons]

theorem readNextCustomLoop_writer (sch : Schema) (csl : List CustomState) :
    ∀ (fbv : Nat → Nat) (li : Option Msg) (rest : Bits),
      (∀ cs ∈ csl, cs.ftype = .fDouble ∧ cs.prevXOR < 2 ^ 64 ∧
        cs.prevFloatBits < 2 ^ 64 ∧ fbv cs.fieldNum < 2 ^ 64) →
      readNextCustomLoop sch csl li
          ((csl.map (fun cs =>
            writeXOR cs.prevXOR (cs.prevFloatBits ^^^ fbv cs.fieldNum))).flatten ++ rest) =
        some (csl.map (fun cs => { cs with prevFloatBits := fbv cs.fieldNum,
                                           prevXOR := cs.prevFloatBits ^^^ fbv cs.fieldNum }),
              csl.foldl (fun acc cs => some (updateLastIterated sch acc
                { cs with prevFloatBits := fbv cs.fieldNum,
                          prevXOR := cs.prevFloatBits ^^^ fbv cs.fieldNum })) li,
              rest) := by
  induction csl with
  | nil =>
    intro fbv li rest _
    simp [readNextCustomLoop]
  | cons cs rest0 ih =>
    intro fbv li rest h
    obtain ⟨hd, hpx, hpf, hb⟩ := h cs (by simp)
    have hxor : cs.prevFloatBits ^^^ fbv cs.fieldNum < 2 ^ 64 :=
      Nat.xor_lt_two_pow hpf hb
    simp only [readNextCustomLoop, List.map_cons, List.flatten_cons,
      List.append_assoc]
    rw [if_pos hd]
    rw [readXOR_writeXOR cs.prevXOR (cs.prevFloatBits ^^^ fbv cs.fieldNum) hpx hxor,
      Option.some_bind]
    dsimp only
    rw [show cs.prevFloatBits ^^^ (cs.prevFloatBits ^^^ fbv cs.fieldNum) =
      fbv cs.fieldNum from Nat.xor_cancel_left _ _]
    rw [ih fbv (some (updateLastIterated sch li
      { cs with prevFloatBits := fbv cs.fieldNum,
                prevXOR := cs.prevFloatBits ^^^ fbv cs.fieldNum }))
      rest (fun c hc => h c (by simp [hc]))]
    simp only [Option.map_some', List.foldl_cons]

theorem foldl_update_get (sch : Schema) (csl : List CustomState)
    (g : CustomState → CustomState) (fbv : Nat → Nat) :
    ∀ (li : Option Msg) (t : Nat),
      (∀ cs ∈ csl, (g cs).fieldNum = cs.fieldNum ∧ (g cs).prevFloatBits = fbv cs.fieldNum) →
      (∀ cs ∈ csl, ∃ f, findField sch cs.fieldNum = some f ∧ f.ftype = FieldType.fDouble) →
      getField sch
          ((csl.foldl (fun acc cs => some (updateLastIterated sch acc (g cs))) li).getD
            emptyMsg) t =
        if t ∈ csl.map CustomState.fieldNum then Value.vFloat64 (fbv t)
        else getField sch (li.getD emptyMsg) t := by
  induction csl with
  | nil =>
    intro li t _ _
    simp
  | cons cs rest ih =>
    intro li t hg hfind
    have hstep : updateLastIterated sch li (g cs) =
        setField (li.getD emptyMsg) cs.fieldNum (Value.vFloat64 (fbv cs.fieldNum)) := by
      obtain ⟨hg1, hg2⟩ := hg cs (by simp)
      obtain ⟨f, hff, hfd⟩ := hfind cs (by simp)
      unfold updateLastIterated
      dsimp only
      rw [hg1, hff]
      simp only [hfd, if_true, hg1, hg2]
    simp only [List.foldl_cons, hstep]
    rw [ih (some (setField (li.getD emptyMsg) cs.fieldNum (Value.vFloat64 (fbv cs.fieldNum))))
      t (fun c hc => hg c (by simp [hc])) (fun c hc => hfind c (by simp [hc]))]
    by_cases hmem : t ∈ rest.map CustomState.fieldNum
    · rw [if_pos hmem, if_pos (by simp [hmem])]
    · rw [if_neg hmem]
      simp only [Option.getD_some]
      by_cases hta : t = cs.fieldNum
      · subst hta
        rw [getField_setField_same, if_pos (by simp)]
      · rw [getField_setField_ne sch _ _ hta, if_neg (by simp [hta, hmem])]

theorem diffFields_spec (sch : Schema) (fs : List FieldDef) :
    ∀ (le m : Msg), (fs.map FieldDef.tag).Nodup →
      (diffFields sch fs le m).changed =
          (fs.filter (fun f =>
            decide (getField sch m f.tag ≠ getField sch le f.tag))).map FieldDef.tag ∧
      (diffFields sch fs le m).changedToDefault =
          (fs.filter (fun f =>
            decide (getField sch m f.tag ≠ getField sch le f.tag) &&
              decide (zeroValue f.ftype = getField sch m f.tag))).map FieldDef.tag ∧
      (∀ f ∈ fs, getField sch (diffFields sch fs le m).lastEnc f.tag =
          getField sch m f.tag) ∧
      (∀ t, (∀ f ∈ fs, f.tag ≠ t) →
          getField sch (diffFields sch fs le m).lastEnc t = getField sch le t) ∧
      (∀ t, (diffFields sch fs le m).msg.fields.lookup t =
          if ∃ f ∈ fs, f.tag = t ∧ getField sch m f.tag = getField sch le f.tag
          then none else m.fields.lookup t) ∧
      (diffFields sch fs le m).msg.unknown = m.unknown := by
  induction fs with
  | nil =>
    intro le m _
    refine ⟨rfl, rfl, by intro f hf; simp at hf, fun t _ => rfl, ?_, rfl⟩
    intro t
    rw [if_neg (by rintro ⟨f, hf, -⟩; simp at hf)]
    rfl
  | cons f fs' ih =>
    intro le m hnd
    simp only [List.map_cons, List.nodup_cons] at hnd
    by_cases h : getField sch m f.tag = getField sch le f.tag
    · have hgm : ∀ g ∈ fs', getField sch (clearField m f.tag) g.tag =
          getField sch m g.tag := by
        intro g hg
        exact getField_clearField_ne sch m
          (fun hEq => hnd.1 (hEq ▸ List.mem_map.mpr ⟨g, hg, rfl⟩))
      obtain ⟨ih1, ih2, ih3, ih4, ih5, ih6⟩ := ih le (clearField m f.tag) hnd.2
      have hdq : diffFields sch (f :: fs') le m =
          diffFields sch fs' le (clearField m f.tag) := by
        simp only [diffFields, if_pos h]
      refine ⟨?_, ?_, ?_, ?_, ?_, ?_⟩
      · rw [hdq, ih1, List.filter_cons]
        rw [show (decide (getField sch m f.tag ≠ getField sch le f.tag)) = false by
          simp [h]]
        simp only [Bool.false_eq_true, if_false]
        congr 1
        exact List.filter_congr (fun g hg => by rw [hgm g hg])
      · rw [hdq, ih2, List.filter_cons]
        rw [show (decide (getField sch m f.tag ≠ getField sch le f.tag) &&
            decide (zeroValue f.ftype = getField sch m f.tag)) = false by
          simp [h]]
        simp only [Bool.false_eq_true, if_false]
        congr 1
        refine List.filter_congr (fun g hg => ?_)
        rw [hgm g hg]
      · intro g hgmem
        rcases List.mem_cons.mp hgmem with rfl | hg
        · rw [hdq, ih4 g.tag (fun q hq hEq =>
            hnd.1 (hEq ▸ List.mem_map.mpr ⟨q, hq, rfl⟩)), ← h]
        · rw [hdq, ih3 g hg, hgm g hg]
      · intro t hall
        rw [hdq, ih4 t (fun q hq => hall q (by simp [hq]))]
      · intro t
        rw [hdq, ih5 t]
        by_cases hta : t = f.tag
        · have hnone : ¬∃ g ∈ fs', g.tag = t ∧
              getField sch (clearField m f.tag) g.tag = getField sch le g.tag := by
            rintro ⟨g, hg, hgt, -⟩
            exact hnd.1 ((hgt.trans hta) ▸ List.mem_map.mpr ⟨g, hg, rfl⟩)
          rw [if_neg hnone, if_pos ⟨f, by simp, hta.symm, h⟩, hta]
          simp only [clearField]
          exact lookup_filter_self _
        · have hlk : (clearField m f.tag).fields.lookup t = m.fields.lookup t :=
            lookup_clearField_ne hta
          by_cases hex : ∃ g ∈ fs', g.tag = t ∧
              getField sch m g.tag = getField sch le g.tag
          · obtain ⟨g, hg, hgt, hgv⟩ := hex
            rw [if_pos ⟨g, hg, hgt, by rw [hgm g hg]; exact hgv⟩,
              if_pos ⟨g, by simp [hg], hgt, hgv⟩]
          · rw [if_neg, if_neg, hlk]
            · rintro ⟨g, hgmem, hgt, hgv⟩
              rcases List.mem_cons.mp hgmem with rfl | hg
              · exact hta hgt.symm
              · exact hex ⟨g, hg, hgt, hgv⟩
            · rintro ⟨g, hg, hgt, hgv⟩
              exact hex ⟨g, hg, hgt, by rw [← hgm g hg]; exact hgv⟩
      · rw [hdq, ih6]
        rfl
    · have hgl : ∀ g ∈ fs',
          getField sch (setField le f.tag (getField sch m f.tag)) g.tag =
            getField sch le g.tag := by
        intro g hg
        exact getField_setField_ne sch le _
          (fun hEq => hnd.1 (hEq ▸ List.mem_map.mpr ⟨g, hg, rfl⟩))
      obtain ⟨ih1, ih2, ih3, ih4, ih5, ih6⟩ :=
        ih (setField le f.tag (getField sch m f.tag)) m hnd.2
      have hdq : diffFields sch (f :: fs') le m =
          ⟨(diffFields sch fs' (setField le f.tag (getField sch m f.tag)) m).lastEnc,
           (diffFields sch fs' (setField le f.tag (getField sch m f.tag)) m).msg,
           f.tag :: (diffFields sch fs' (setField le f.tag (getField sch m f.tag)) m).changed,
           if zeroValue f.ftype = getField sch m f.tag then
             f.tag :: (diffFields sch fs'
               (setField le f.tag (getField sch m f.tag)) m).changedToDefault
           else (diffFields sch fs'
             (setField le f.tag (getField sch m f.tag)) m).changedToDefault⟩ := by
        simp only [diffFields, if_neg h]
      refine ⟨?_, ?_, ?_, ?_, ?_, ?_⟩
      · rw [hdq]
        show f.tag :: _ = _
        rw [ih1, List.filter_cons]
        rw [show (decide (getField sch m f.tag ≠ getField sch le f.tag)) = true by
          simp [h]]
        simp only [if_true, List.map_cons]
        congr 2
        exact List.filter_congr (fun g hg => by rw [hgl g hg])
      · rw [hdq]
        show (if zeroValue f.ftype = getField sch m f.tag then f.tag :: _ else _) = _
        rw [ih2, List.filter_cons]
        have hcg : (fs'.filter (fun g =>
            decide (getField sch m g.tag ≠
              getField sch (setField le f.tag (getField sch m f.tag)) g.tag) &&
              decide (zeroValue g.ftype = getField sch m g.tag))).map FieldDef.tag =
            (fs'.filter (fun g =>
              decide (getField sch m g.tag ≠ getField sch le g.tag) &&
                decide (zeroValue g.ftype = getField sch m g.tag))).map FieldDef.tag := by
          congr 1
          exact List.filter_congr (fun g hg => by rw [hgl g hg])
        by_cases hz : zeroValue f.ftype = getField sch m f.tag
        · rw [if_pos hz, hcg]
          rw [show (decide (getField sch m f.tag ≠ getField sch le f.tag) &&
              decide (zeroValue f.ftype = getField sch m f.tag)) = true by
            simp [h, hz]]
          simp only [if_true, List.map_cons]
        · rw [if_neg hz, hcg]
          rw [show (decide (getField sch m f.tag ≠ getField sch le f.tag) &&
              decide (zeroValue f.ftype = getField sch m f.tag)) = false by
            simp [h, hz]]
          simp only [Bool.false_eq_true, if_false]
      · intro g hgmem
        rcases List.mem_cons.mp hgmem with rfl | hg
        · rw [hdq]
          show getField sch (diffFields sch fs' _ m).lastEnc g.tag = _
          rw [ih4 g.tag (fun q hq hEq =>
            hnd.1 (hEq ▸ List.mem_map.mpr ⟨q, hq, rfl⟩))]
          exact getField_setField_same sch le g.tag _
        · rw [hdq]
          show getField sch (diffFields sch fs' _ m).lastEnc g.tag = _
          exact ih3 g hg
      · intro t hall
        rw [hdq]
        show getField sch (diffFields sch fs' _ m).lastEnc t = _
        rw [ih4 t (fun q hq => hall q (by simp [hq]))]
        exact getField_setField_ne sch le _ (fun hEq => hall f (by simp) hEq.symm)
      · intro t
        rw [hdq]
        show (diffFields sch fs' _ m).msg.fields.lookup t = _
        rw [ih5 t]
        by_cases hex : ∃ g ∈ fs', g.tag = t ∧
            getField sch m g.tag = getField sch le g.tag
        · obtain ⟨g, hg, hgt, hgv⟩ := hex
          rw [if_pos ⟨g, hg, hgt, by rw [hgl g hg]; exact hgv⟩,
            if_pos ⟨g, by simp [hg], hgt, hgv⟩]
        · rw [if_neg, if_neg]
          · rintro ⟨g, hgmem, hgt, hgv⟩
            rcases List.mem_cons.mp hgmem with rfl | hg
            · exact h hgv
            · exact hex ⟨g, hg, hgt, hgv⟩
          · rintro ⟨g, hg, hgt, hgv⟩
            exact hex ⟨g, hg, hgt, by rw [← hgl g hg]; exact hgv⟩
      · rw [hdq]
        show (diffFields sch fs' _ m).msg.unknown = _
        exact ih6

theorem foldl_update_isSome (sch : Schema) (g : CustomState → CustomState)
    (csl : List CustomState) :
    ∀ li : Option Msg, li.isSome = true →
      (csl.foldl (fun acc cs => some (updateLastIterated sch acc (g cs))) li).isSome
        = true := by
  induction csl with
  | nil => intro li h; exact h
  | cons cs rest ih => intro li h; exact ih _ rfl

theorem isZeroValue_iff {t : FieldType} {v : Value} (hwfv : ValueWF t v) :
    isZeroValue v = true ↔ v = zeroValue t := by
  cases t <;> cases v
  · simp only [isZeroValue, zeroValue, beq_iff_eq, Value.vFloat64.injEq]
  · exact False.elim hwfv
  · exact False.elim hwfv
  · exact False.elim hwfv
  · simp only [isZeroValue, zeroValue, beq_iff_eq, Value.vFloat32.injEq]
  · exact False.elim hwfv
  · exact False.elim hwfv
  · exact False.elim hwfv
  · simp only [isZeroValue, zeroValue, beq_iff_eq, Value.vGeneric.injEq]

theorem defaultValue_eq {sch : Schema} (hwf : SchemaWF sch) {f : FieldDef}
    (hf : f ∈ sch) : defaultValue sch f.tag = zeroValue f.ftype := by
  simp [defaultValue, findField_eq_of_mem hwf hf]

theorem mem_customTags_iff {sch : Schema} (hwf : SchemaWF sch) {f : FieldDef}
    (hf : f ∈ sch) : f.tag ∈ customTags sch ↔ isCustomType f.ftype = true := by
  constructor
  · intro hmem
    unfold customTags at hmem
    rw [List.mem_map] at hmem
    obtain ⟨cs, hcs, htag⟩ := hmem
    obtain ⟨g, hg, rfl, hcust⟩ := customFields_mem hcs
    have : g = f := mem_tag_unique hwf hg hf htag
    exact this ▸ hcust
  · intro hcust
    unfold customTags customFields
    rw [List.map_map]
    have hmemf : f ∈ sortFieldsByTag (sch.filter (fun g => isCustomType g.ftype)) :=
      (sortFieldsByTag_perm _).mem_iff.mpr (List.mem_filter.mpr ⟨hf, hcust⟩)
    exact List.mem_map.mpr ⟨f, hmemf, rfl⟩

theorem diffFields_msg_sublist (sch : Schema) (fs : List FieldDef) :
    ∀ (le m : Msg), ((diffFields sch fs le m).msg.fields).Sublist m.fields := by
  induction fs with
  | nil => intro le m; exact List.Sublist.refl _
  | cons f fs' ih =>
    intro le m
    by_cases h : getField sch m f.tag = getField sch le f.tag
    · simp only [diffFields, if_pos h]
      exact (ih le (clearField m f.tag)).trans (List.filter_sublist _)
    · simp only [diffFields, if_neg h]
      exact ih (setField le f.tag (getField sch m f.tag)) m

theorem conforms_of_sublist {sch : Schema} {m m' : Msg} (hc : Conforms sch m)
    (hsub : m'.fields.Sublist m.fields) (hu : m'.unknown = false) :
    Conforms sch m' :=
  ⟨hu, (hsub.map Prod.fst).nodup hc.2.1, fun p hp => hc.2.2 p (hsub.subset hp)⟩

theorem lookup_of_getField_ne {sch : Schema} {m : Msg} {t : Nat}
    (h : getField sch m t ≠ defaultValue sch t) :
    m.fields.lookup t = some (getField sch m t) := by
  rcases hlk : m.fields.lookup t with _ | v
  · exact absurd (by simp [getField, hlk]) h
  · simp [getField, hlk]

theorem bex_tag_iff {sch : Schema} (hwf : SchemaWF sch) {f : FieldDef} (hf : f ∈ sch)
    (C : FieldDef → Prop) : (∃ g ∈ sch, g.tag = f.tag ∧ C g) ↔ C f := by
  constructor
  · rintro ⟨g, hg, hgt, hC⟩
    exact (mem_tag_unique hwf hg hf hgt) ▸ hC
  · intro h
    exact ⟨f, hf, rfl, h⟩

theorem getField_trimCustom_custom {sch : Schema} {m : Msg} {t : Nat}
    (h : t ∈ customTags sch) :
    getField sch (trimCustom sch m) t = defaultValue sch t :=
  getField_clearFieldList_mem h m

theorem getField_trimCustom_not_custom {sch : Schema} {m : Msg} {t : Nat}
    (h : t ∉ customTags sch) :
    getField sch (trimCustom sch m) t = getField sch m t :=
  getField_clearFieldList_not_mem h m

theorem proto_roundtrip {sch : Schema} {m le li₀ : Msg} (hwf : SchemaWF sch)
    (hc : Conforms sch m)
    (hnc : ∀ f ∈ sch, isCustomType f.ftype = false →
      getField sch li₀ f.tag = getField sch le f.tag)
    (hcu : ∀ f ∈ sch, isCustomType f.ftype = true →
      getField sch li₀ f.tag = getField sch m f.tag)
    (hlec : ∀ f ∈ sch, isCustomType f.ftype = true →
      getField sch le f.tag = defaultValue sch f.tag) :
    ∃ (protoBits : Bits) (li2 : Msg),
      encodeProtoValuesM sch (some le) (trimCustom sch m) =
        Except.ok (some (diffFields sch sch le (trimCustom sch m)).lastEnc,
          (diffFields sch sch le (trimCustom sch m)).msg, protoBits) ∧
      (∀ (bv : List Nat) (rest : Bits),
        readProtoValuesIt sch (some li₀) bv (protoBits ++ rest) =
          Except.ok (some li2,
            (if (diffFields sch sch le (trimCustom sch m)).changedToDefault = [] ∨
                (diffFields sch sch le (trimCustom sch m)).changed = [] then bv
             else (List.range' 1
                (listMax (diffFields sch sch le (trimCustom sch m)).changedToDefault)).filter
              (fun v => decide (v ∈
                (diffFields sch sch le (trimCustom sch m)).changedToDefault))),
            rest)) ∧
      (∀ f ∈ sch, getField sch li2 f.tag = getField sch m f.tag) := by
  have hcm1 : Conforms sch (trimCustom sch m) := conforms_clearFieldList hc _
  have hstrip : stripOffSchema sch (trimCustom sch m) = trimCustom sch m :=
    stripOffSchema_eq_self (conforms_fieldsContains hwf hcm1)
  obtain ⟨hs1, hs2, hs3, hs4, hs5, hs6⟩ :=
    diffFields_spec sch sch le (trimCustom sch m) hwf.1
  have hsub := diffFields_msg_sublist sch sch le (trimCustom sch m)
  have hrc : Conforms sch (diffFields sch sch le (trimCustom sch m)).msg :=
    conforms_of_sublist hcm1 hsub (hs6.trans hcm1.1)
  have hlen : (diffFields sch sch le (trimCustom sch m)).msg.fields.length ≤ sch.length :=
    le_trans hsub.length_le (fields_length_le_schema hcm1)
  have hm56 : (marshalMsg (diffFields sch sch le (trimCustom sch m)).msg).length < 2 ^ 56 :=
    marshalMsg_length_lt hwf hlen
  have hm10 : (marshalMsg (diffFields sch sch le (trimCustom sch m)).msg).length
      < 128 ^ 10 := by
    have h1 : (2 : Nat) ^ 56 ≤ 128 ^ 10 := by norm_num
    omega
  have hvarint := encodeVarIntBits_ok hm56
  have hctd_mem : ∀ f ∈ sch,
      (f.tag ∈ (diffFields sch sch le (trimCustom sch m)).changedToDefault ↔
        (decide (getField sch (trimCustom sch m) f.tag ≠ getField sch le f.tag) &&
          decide (zeroValue f.ftype = getField sch (trimCustom sch m) f.tag)) = true) := by
    intro f hf
    rw [hs2]
    constructor
    · intro hmem
      rw [List.mem_map] at hmem
      obtain ⟨g, hgf, hgt⟩ := hmem
      rw [List.mem_filter] at hgf
      have hgeq : g = f := mem_tag_unique hwf hgf.1 hf hgt
      exact hgeq ▸ hgf.2
    · intro hq
      exact List.mem_map.mpr ⟨f, List.mem_filter.mpr ⟨hf, hq⟩, rfl⟩
  have hctd_bnd : ∀ v ∈ (diffFields sch sch le (trimCustom sch m)).changedToDefault,
      1 ≤ v ∧ v < 2 ^ 31 := by
    intro v hv
    rw [hs2, List.mem_map] at hv
    obtain ⟨g, hgf, rfl⟩ := hv
    rw [List.mem_filter] at hgf
    have hb := hwf.2 g hgf.1
    omega
  have hpairs_nodup : (((diffFields sch sch le (trimCustom sch m)).msg.fields.filter
      (fun p => !isZeroValue p.2)).map Prod.fst).Nodup :=
    ((List.filter_sublist _).map Prod.fst).nodup hrc.2.1
  have hli1 : ∀ f ∈ sch,
      getField sch (((diffFields sch sch le (trimCustom sch m)).msg.fields.filter
          (fun p => !isZeroValue p.2)).foldl (fun a p => setField a p.1 p.2) li₀) f.tag =
        (if getField sch (trimCustom sch m) f.tag = getField sch le f.tag ∨
            getField sch (trimCustom sch m) f.tag = defaultValue sch f.tag
         then getField sch li₀ f.tag
         else getField sch (trimCustom sch m) f.tag) := by
    intro f hf
    rw [getField_merge _ li₀ f.tag hpairs_nodup,
      lookup_filter_isZero _ f.tag hrc.2.1, hs5 f.tag]
    by_cases hun : getField sch (trimCustom sch m) f.tag = getField sch le f.tag
    · rw [if_pos ((bex_tag_iff hwf hf
        (fun g => getField sch (trimCustom sch m) g.tag = getField sch le g.tag)).mpr hun)]
      dsimp only
      rw [if_pos (Or.inl hun)]
    · rw [if_neg (fun habs => hun ((bex_tag_iff hwf hf
        (fun g => getField sch (trimCustom sch m) g.tag = getField sch le g.tag)).mp habs))]
      by_cases hz : getField sch (trimCustom sch m) f.tag = defaultValue sch f.tag
      · rcases hlk : (trimCustom sch m).fields.lookup f.tag with _ | v
        · rw [if_pos (Or.inr hz)]
        · have hwfv := conforms_value_wf hwf hcm1 hf hlk
          have hveq : v = getField sch (trimCustom sch m) f.tag := by
            simp [getField, hlk]
          have hzz : isZeroValue v = true := by
            rw [isZeroValue_iff hwfv, hveq, hz, defaultValue_eq hwf hf]
          dsimp only
          rw [if_pos hzz]
          rw [if_pos (Or.inr hz)]
      · have hlk := @lookup_of_getField_ne sch (trimCustom sch m) f.tag hz
        have hwfv := conforms_value_wf hwf hcm1 hf hlk
        have hnz : isZeroValue (getField sch (trimCustom sch m) f.tag) = false := by
          rw [← Bool.not_eq_true]
          intro habs
          exact hz (by rw [(isZeroValue_iff hwfv).mp habs, defaultValue_eq hwf hf])
        rw [hlk]
        dsimp only
        rw [hnz]
        simp only [Bool.false_eq_true, if_false]
        rw [if_neg (not_or.mpr ⟨hun, hz⟩)]
  by_cases hskip : (diffFields sch sch le (trimCustom sch m)).changed = []
  · refine ⟨[false], li₀, ?_, ?_, ?_⟩
    · unfold encodeProtoValuesM
      dsimp only
      rw [hstrip, if_pos hskip]
    · intro bv rest
      rw [if_pos (Or.inr hskip)]
      rfl
    · intro f hf
      by_cases hcust : isCustomType f.ftype = true
      · exact hcu f hf hcust
      · have hall : ∀ g ∈ sch,
            getField sch (trimCustom sch m) g.tag = getField sch le g.tag := by
          intro g hg
          rw [hs1] at hskip
          have hfe := List.map_eq_nil_iff.mp hskip
          have hpred := List.filter_eq_nil_iff.mp hfe g hg
          simpa using hpred
        have hnm : f.tag ∉ customTags sch :=
          fun habs => hcust ((mem_customTags_iff hwf hf).mp habs)
        rw [hnc f hf (by simpa using hcust), ← hall f hf,
          getField_trimCustom_not_custom hnm]
  · by_cases hctd : (diffFields sch sch le (trimCustom sch m)).changedToDefault = []
    · refine ⟨true :: ([false] ++
          bytesToBits (uvarintBytes
            (marshalMsg (diffFields sch sch le (trimCustom sch m)).msg).length) ++
          bytesToBits (marshalMsg (diffFields sch sch le (trimCustom sch m)).msg)),
        ((diffFields sch sch le (trimCustom sch m)).msg.fields.filter
          (fun p => !isZeroValue p.2)).foldl (fun a p => setField a p.1 p.2) li₀,
        ?_, ?_, ?_⟩
      · unfold encodeProtoValuesM
        dsimp only
        rw [hstrip, if_neg hskip,
          if_pos (List.isEmpty_iff.mpr hctd), hvarint]
      · intro bv rest
        rw [if_pos (Or.inl hctd)]
        simp only [readProtoValuesIt, List.cons_append, List.append_assoc,
          List.nil_append, readBit, Bool.true_eq_false, Bool.false_eq_true,
          if_true, if_false, readUvarintBits_uvarint hm10,
          readNBytes_append _ _ (marshalMsg_lt_256 _), Option.getD_some,
          unmarshalMerge_marshal hwf hrc li₀]
      · intro f hf
        by_cases hcust : isCustomType f.ftype = true
        · have hdef : getField sch (trimCustom sch m) f.tag = defaultValue sch f.tag :=
            getField_trimCustom_custom ((mem_customTags_iff hwf hf).mpr hcust)
          have hun : getField sch (trimCustom sch m) f.tag = getField sch le f.tag := by
            rw [hdef, hlec f hf hcust]
          rw [hli1 f hf, if_pos (Or.inl hun)]
          exact hcu f hf hcust
        · have hnm : f.tag ∉ customTags sch :=
            fun habs => hcust ((mem_customTags_iff hwf hf).mp habs)
          have htm : getField sch (trimCustom sch m) f.tag = getField sch m f.tag :=
            getField_trimCustom_not_custom hnm
          by_cases hun : getField sch (trimCustom sch m) f.tag = getField sch le f.tag
          · rw [hli1 f hf, if_pos (Or.inl hun),
              hnc f hf (by simpa using hcust), ← hun, htm]
          · by_cases hz : getField sch (trimCustom sch m) f.tag = defaultValue sch f.tag
            · exfalso
              have hinctd : f.tag ∈
                  (diffFields sch sch le (trimCustom sch m)).changedToDefault :=
                (hctd_mem f hf).mpr (by
                  simp only [Bool.and_eq_true, decide_eq_true_eq]
                  exact ⟨hun, by rw [hz, defaultValue_eq hwf hf]⟩)
              rw [hctd] at hinctd
              simp at hinctd
            · rw [hli1 f hf, if_neg (not_or.mpr ⟨hun, hz⟩), htm]
    · refine ⟨true :: ((true ::
          (bytesToBits (uvarintBytes
            (listMax (diffFields sch sch le (trimCustom sch m)).changedToDefault)) ++
           bitsetBits (listMax (diffFields sch sch le (trimCustom sch m)).changedToDefault)
             (diffFields sch sch le (trimCustom sch m)).changedToDefault)) ++
          bytesToBits (uvarintBytes
            (marshalMsg (diffFields sch sch le (trimCustom sch m)).msg).length) ++
          bytesToBits (marshalMsg (diffFields sch sch le (trimCustom sch m)).msg)),
        clearFieldList
          (((diffFields sch sch le (trimCustom sch m)).msg.fields.filter
            (fun p => !isZeroValue p.2)).foldl (fun a p => setField a p.1 p.2) li₀)
          ((List.range' 1
            (listMax (diffFields sch sch le (trimCustom sch m)).changedToDefault)).filter
           (fun v => decide (v ∈
             (diffFields sch sch le (trimCustom sch m)).changedToDefault))),
        ?_, ?_, ?_⟩
      · unfold encodeProtoValuesM
        dsimp only
        rw [hstrip, if_neg hskip,
          if_neg (fun habs => hctd (List.isEmpty_iff.mp habs)),
          (readBitset_encodeBitset
            (diffFields sch sch le (trimCustom sch m)).changedToDefault []
            (fun v hv => (hctd_bnd v hv).2)).1,
          hvarint]
        simp only [Option.map_some']
      · intro bv rest
        rw [if_neg (by push_neg; exact ⟨hctd, hskip⟩)]
        have hread := (readBitset_encodeBitset
          (diffFields sch sch le (trimCustom sch m)).changedToDefault
          (bytesToBits (uvarintBytes
            (marshalMsg (diffFields sch sch le (trimCustom sch m)).msg).length) ++
           (bytesToBits (marshalMsg (diffFields sch sch le (trimCustom sch m)).msg) ++
            rest))
          (fun v hv => (hctd_bnd v hv).2)).2
        rw [List.append_assoc] at hread
        simp only [readProtoValuesIt, List.cons_append, List.append_assoc,
          List.nil_append, readBit, Bool.true_eq_false, Bool.false_eq_true,
          if_true, if_false, hread, readUvarintBits_uvarint hm10,
          readNBytes_append _ _ (marshalMsg_lt_256 _), Option.getD_some,
          unmarshalMerge_marshal hwf hrc li₀]
      · intro f hf
        have h1le : ∀ v ∈ (diffFields sch sch le (trimCustom sch m)).changedToDefault,
            1 ≤ v := fun v hv => (hctd_bnd v hv).1
        by_cases hcust : isCustomType f.ftype = true
        · have hdef : getField sch (trimCustom sch m) f.tag = defaultValue sch f.tag :=
            getField_trimCustom_custom ((mem_customTags_iff hwf hf).mpr hcust)
          have hun : getField sch (trimCustom sch m) f.tag = getField sch le f.tag := by
            rw [hdef, hlec f hf hcust]
          have hnotctd : f.tag ∉
              (diffFields sch sch le (trimCustom sch m)).changedToDefault := by
            intro habs
            have hq := (hctd_mem f hf).mp habs
            simp [hun] at hq
          have hnmem : f.tag ∉ (List.range' 1
              (listMax (diffFields sch sch le (trimCustom sch m)).changedToDefault)).filter
              (fun v => decide (v ∈
                (diffFields sch sch le (trimCustom sch m)).changedToDefault)) :=
            fun habs => hnotctd ((mem_filter_range'_iff h1le).mp habs)
          rw [getField_clearFieldList_not_mem hnmem, hli1 f hf, if_pos (Or.inl hun)]
          exact hcu f hf hcust
        · have hnm : f.tag ∉ customTags sch :=
            fun habs => hcust ((mem_customTags_iff hwf hf).mp habs)
          have htm : getField sch (trimCustom sch m) f.tag = getField sch m f.tag :=
            getField_trimCustom_not_custom hnm
          by_cases hun : getField sch (trimCustom sch m) f.tag = getField sch le f.tag
          · have hnotctd : f.tag ∉
                (diffFields sch sch le (trimCustom sch m)).changedToDefault := by
              intro habs
              have hq := (hctd_mem f hf).mp habs
              simp [hun] at hq
            have hnmem : f.tag ∉ (List.range' 1
                (listMax (diffFields sch sch le (trimCustom sch m)).changedToDefault)).filter
                (fun v => decide (v ∈
                  (diffFields sch sch le (trimCustom sch m)).changedToDefault)) :=
              fun habs => hnotctd ((mem_filter_range'_iff h1le).mp habs)
            rw [getField_clearFieldList_not_mem hnmem, hli1 f hf, if_pos (Or.inl hun),
              hnc f hf (by simpa using hcust), ← hun, htm]
          · by_cases hz : getField sch (trimCustom sch m) f.tag = defaultValue sch f.tag
            · have hinctd : f.tag ∈
                  (diffFields sch sch le (trimCustom sch m)).changedToDefault :=
                (hctd_mem f hf).mpr (by
                  simp only [Bool.and_eq_true, decide_eq_true_eq]
                  exact ⟨hun, by rw [hz, defaultValue_eq hwf hf]⟩)
              have hmem : f.tag ∈ (List.range' 1
                  (listMax (diffFields sch sch le (trimCustom sch m)).changedToDefault)).filter
                  (fun v => decide (v ∈
                    (diffFields sch sch le (trimCustom sch m)).changedToDefault)) :=
                (mem_filter_range'_iff h1le).mpr hinctd
              rw [getField_clearFieldList_mem hmem, ← htm, hz]
            · have hnotctd : f.tag ∉
                  (diffFields sch sch le (trimCustom sch m)).changedToDefault := by
                intro habs
                have hq := (hctd_mem f hf).mp habs
                simp only [Bool.and_eq_true, decide_eq_true_eq] at hq
                exact hz (by rw [← hq.2, defaultValue_eq hwf hf])
              have hnmem : f.tag ∉ (List.range' 1
                  (listMax (diffFields sch sch le (trimCustom sch m)).changedToDefault)).filter
                  (fun v => decide (v ∈
                    (diffFields sch sch le (trimCustom sch m)).changedToDefault)) :=
                fun habs => hnotctd ((mem_filter_range'_iff h1le).mp habs)
              rw [getField_clearFieldList_not_mem hnmem, hli1 f hf,
                if_neg (not_or.mpr ⟨hun, hz⟩), htm]

theorem nextIt_success (st : ItState) {sch : Schema} {csl : List CustomState}
    {li : Option Msg} {csl' : List CustomState} {li' : Option Msg}
    {bs bs2 : Bits} {li2 : Option Msg} {bv' : List Nat} {bs3 : Bits}
    (herr : st.err = none) (hdone : st.done = false)
    (hcons : st.consumedFirstMessage = true)
    (hsch : st.schema = sch) (hcust : st.custom = csl)
    (hlast : st.lastIterated = li)
    (hstream : st.stream = true :: bs)
    (hloop : readNextCustomLoop sch csl li bs = some (csl', li', bs2))
    (hproto : readProtoValuesIt sch li' st.bitsetValues bs2 =
      Except.ok (li2, bv', bs3)) :
    nextIt st = ({ st with custom := csl', lastIterated := li2,
                           bitsetValues := bv', stream := bs3,
                           consumedFirstMessage := true }, true) := by
  unfold nextIt
  have h1 : hasNextIt st = true := by simp [hasNextIt, herr, hdone]
  rw [h1]
  simp only [Bool.not_true, Bool.false_eq_true, if_false]
  rw [hstream]
  dsimp only [readBit]
  simp only [Bool.true_eq_false, if_false]
  rw [hcons]
  simp only [Bool.not_true, Bool.false_eq_true, if_false]
  rw [hsch, hcust, hlast]
  rw [hloop]
  dsimp only
  rw [hproto]
  dsimp only
  rw [Prod.mk.injEq]
  refine ⟨rfl, ?_⟩
  simp [hasNextIt, herr, hdone]

theorem sync_step {sch : Schema} {es : EncState} {it : ItState} {m : Msg}
    (hwf : SchemaWF sch) (hnf : ∀ f ∈ sch, f.ftype ≠ FieldType.fFloat)
    (hc : Conforms sch m) (hinv : SyncInv sch es it) :
    ∃ (es' : EncState) (m' : Msg) (B : Bits),
      encodeMsg es m = Except.ok (es', m', B) ∧ 1 ≤ B.length ∧
      es'.stream = es.stream ++ B ∧
      ∃ it' : ItState, SyncInv sch es' it' ∧
        (∃ li2, it'.lastIterated = some li2 ∧
          ∀ f ∈ sch, getField sch li2 f.tag = getField sch m f.tag) ∧
        ∀ rest : Bits,
          nextIt { it with stream := B ++ rest } = ({ it' with stream := rest }, true) := by
  obtain ⟨le, li₀, hleq, hliq, hg1, hg2⟩ := hinv.lastEnc
  have hmapf : es.tszFields.map CustomState.fieldNum = customTags sch := by
    unfold customTags
    have h := congrArg (List.map Prod.fst) hinv.customShape
    simpa [List.map_map, Function.comp] using h
  have hnd : (es.tszFields.map CustomState.fieldNum).Nodup := by
    rw [hmapf]
    exact customFields_nodup hwf
  have hcsfact : ∀ cs ∈ es.tszFields, ∃ f ∈ sch,
      f.tag = cs.fieldNum ∧ f.ftype = FieldType.fDouble ∧
        cs.ftype = FieldType.fDouble := by
    intro cs hcs
    have hpair : (cs.fieldNum, cs.ftype) ∈
        (customFields sch).map (fun c => (c.fieldNum, c.ftype)) := by
      rw [← hinv.customShape]
      exact List.mem_map.mpr ⟨cs, hcs, rfl⟩
    rw [List.mem_map] at hpair
    obtain ⟨cs₀, hcs₀, hpq⟩ := hpair
    obtain ⟨f, hf, rfl, hcust⟩ := customFields_mem hcs₀
    rw [Prod.mk.injEq] at hpq
    obtain ⟨h1, h2⟩ := hpq
    have hdd : f.ftype = FieldType.fDouble := by
      cases hft : f.ftype
      · rfl
      · exact absurd hft (hnf f hf)
      · rw [hft] at hcust
        simp [isCustomType] at hcust
    exact ⟨f, hf, h1, hdd, by rw [← h2]; exact hdd⟩
  have hfb : ∀ cs ∈ es.tszFields, fieldBits sch m cs.fieldNum < 2 ^ 64 := by
    intro cs hcs
    obtain ⟨f, hf, htag, -, -⟩ := hcsfact cs hcs
    rw [← htag]
    exact fieldBits_lt hwf hc hf
  have hv : ∀ cs ∈ es.tszFields,
      (floatBitsOfValue (getField sch m cs.fieldNum)).isSome = true := by
    intro cs hcs
    obtain ⟨f, hf, htag, hdd, -⟩ := hcsfact cs hcs
    have hmemt : f.tag ∈ customTags sch :=
      (mem_customTags_iff hwf hf).mpr (by rw [hdd]; rfl)
    unfold customTags at hmemt
    rw [List.mem_map] at hmemt
    obtain ⟨cs₀, hcs₀, htag₀⟩ := hmemt
    have hsome := conforms_custom_isSome hwf hc cs₀ hcs₀
    rw [htag₀, htag] at hsome
    exact hsome
  have hT := encodeTSZLoop_spec sch false es.tszFields m hnd hv
  simp only [Bool.false_eq_true, if_false] at hT
  have hT' : encodeTSZLoop sch false es.tszFields m = Except.ok
      (es.tszFields.map (fun cs =>
        { cs with prevFloatBits := fieldBits sch m cs.fieldNum,
                  prevXOR := cs.prevFloatBits ^^^ fieldBits sch m cs.fieldNum }),
       clearFieldList m (es.tszFields.map CustomState.fieldNum),
       (es.tszFields.map (fun cs =>
         writeXOR cs.prevXOR (cs.prevFloatBits ^^^ fieldBits sch m cs.fieldNum))).flatten) :=
    hT
  have hcond : ∀ cs ∈ es.tszFields, cs.ftype = FieldType.fDouble ∧
      cs.prevXOR < 2 ^ 64 ∧ cs.prevFloatBits < 2 ^ 64 ∧
      fieldBits sch m cs.fieldNum < 2 ^ 64 := by
    intro cs hcs
    obtain ⟨f, hf, htag, hfd, hdd⟩ := hcsfact cs hcs
    exact ⟨hdd, (hinv.customBound cs hcs).1, (hinv.customBound cs hcs).2, hfb cs hcs⟩
  have hsome := foldl_update_isSome sch (fun cs =>
      { cs with prevFloatBits := fieldBits sch m cs.fieldNum,
                prevXOR := cs.prevFloatBits ^^^ fieldBits sch m cs.fieldNum })
    es.tszFields (some li₀) rfl
  rw [Option.isSome_iff_exists] at hsome
  obtain ⟨li₁, hli₁⟩ := hsome
  have hfindc : ∀ cs ∈ es.tszFields, ∃ f, findField sch cs.fieldNum = some f ∧
      f.ftype = FieldType.fDouble := by
    intro cs hcs
    obtain ⟨f, hf, htag, hfd, -⟩ := hcsfact cs hcs
    refine ⟨f, ?_, hfd⟩
    rw [← htag]
    exact findField_eq_of_mem hwf hf
  have hli₁get : ∀ t, getField sch li₁ t =
      (if t ∈ es.tszFields.map CustomState.fieldNum
       then Value.vFloat64 (fieldBits sch m t) else getField sch li₀ t) := by
    intro t
    have h := foldl_update_get sch es.tszFields (fun cs =>
        { cs with prevFloatBits := fieldBits sch m cs.fieldNum,
                  prevXOR := cs.prevFloatBits ^^^ fieldBits sch m cs.fieldNum })
      (fieldBits sch m) (some li₀) t (fun cs _ => ⟨rfl, rfl⟩) hfindc
    rw [hli₁] at h
    simpa using h
  have hnc' : ∀ f ∈ sch, isCustomType f.ftype = false →
      getField sch li₁ f.tag = getField sch le f.tag := by
    intro f hf hcu0
    have hnm : f.tag ∉ es.tszFields.map CustomState.fieldNum := by
      rw [hmapf]
      intro habs
      rw [mem_customTags_iff hwf hf, hcu0] at habs
      exact Bool.noConfusion habs
    rw [hli₁get f.tag, if_neg hnm]
    exact hg1 f hf hcu0
  have hcu' : ∀ f ∈ sch, isCustomType f.ftype = true →
      getField sch li₁ f.tag = getField sch m f.tag := by
    intro f hf hcu0
    have hmem : f.tag ∈ es.tszFields.map CustomState.fieldNum := by
      rw [hmapf]
      exact (mem_customTags_iff hwf hf).mpr hcu0
    have hdd : f.ftype = FieldType.fDouble := by
      cases hft : f.ftype
      · rfl
      · exact absurd hft (hnf f hf)
      · rw [hft] at hcu0
        simp [isCustomType] at hcu0
    rw [hli₁get f.tag, if_pos hmem, getField_double_eq hwf hc hf hdd]
  obtain ⟨protoBits, li2, hEnc, hRead, hOut⟩ := proto_roundtrip hwf hc hnc' hcu' hg2
  obtain ⟨hs1d, hs2d, hs3d, hs4d, hs5d, hs6d⟩ :=
    diffFields_spec sch sch le (trimCustom sch m) hwf.1
  refine ⟨{ es with
      lastEncoded := some (diffFields sch sch le (trimCustom sch m)).lastEnc,
      tszFields := es.tszFields.map (fun cs =>
        { cs with prevFloatBits := fieldBits sch m cs.fieldNum,
                  prevXOR := cs.prevFloatBits ^^^ fieldBits sch m cs.fieldNum }),
      hasWrittenFirstTSZ := true,
      stream := es.stream ++ (true :: ((es.tszFields.map (fun cs =>
        writeXOR cs.prevXOR (cs.prevFloatBits ^^^ fieldBits sch m cs.fieldNum))).flatten ++
        protoBits)) },
    (diffFields sch sch le (trimCustom sch m)).msg,
    true :: ((es.tszFields.map (fun cs =>
      writeXOR cs.prevXOR (cs.prevFloatBits ^^^ fieldBits sch m cs.fieldNum))).flatten ++
      protoBits),
    ?_, Nat.succ_le_succ (Nat.zero_le _), rfl, ?_⟩
  · unfold encodeMsg
    rw [hinv.encClosed]
    simp only [Bool.false_eq_true, if_false]
    rw [hinv.encSchema]
    rw [hc.1]
    simp only [Bool.false_eq_true, if_false]
    rw [hinv.firstDone]
    simp only [Bool.not_true]
    rw [hT']
    dsimp only
    rw [hleq]
    rw [show clearFieldList m (es.tszFields.map CustomState.fieldNum) =
        trimCustom sch m by rw [hmapf]; rfl]
    rw [hEnc]
  · refine ⟨{ it with
        custom := es.tszFields.map (fun cs =>
          { cs with prevFloatBits := fieldBits sch m cs.fieldNum,
                    prevXOR := cs.prevFloatBits ^^^ fieldBits sch m cs.fieldNum }),
        lastIterated := some li2,
        bitsetValues :=
          (if (diffFields sch sch le (trimCustom sch m)).changedToDefault = [] ∨
              (diffFields sch sch le (trimCustom sch m)).changed = [] then it.bitsetValues
           else (List.range' 1
              (listMax (diffFields sch sch le (trimCustom sch m)).changedToDefault)).filter
            (fun v => decide (v ∈
              (diffFields sch sch le (trimCustom sch m)).changedToDefault))),
        stream := ([] : Bits),
        consumedFirstMessage := true }, ?_, ⟨li2, rfl, hOut⟩, ?_⟩
    · refine ⟨hinv.encClosed, hinv.encSchema, rfl, hinv.itSchema, rfl, ?_, ?_,
        ?_, rfl, hinv.notDone, hinv.noErr⟩
      · rw [List.map_map]
        exact hinv.customShape
      · intro cs' hcs'
        rw [List.mem_map] at hcs'
        obtain ⟨cs, hcs, rfl⟩ := hcs'
        exact ⟨Nat.xor_lt_two_pow (hinv.customBound cs hcs).2 (hfb cs hcs), hfb cs hcs⟩
      · refine ⟨(diffFields sch sch le (trimCustom sch m)).lastEnc, li2, rfl, rfl, ?_, ?_⟩
        · intro f hf hq
          have hnm : f.tag ∉ customTags sch := by
            intro habs
            rw [mem_customTags_iff hwf hf, hq] at habs
            exact Bool.noConfusion habs
          rw [hOut f hf, hs3d f hf, getField_trimCustom_not_custom hnm]
        · intro f hf hq
          rw [hs3d f hf, getField_trimCustom_custom ((mem_customTags_iff hwf hf).mpr hq)]
    · intro rest
      have hloop := readNextCustomLoop_writer sch es.tszFields (fieldBits sch m)
        (some li₀) (protoBits ++ rest) hcond
      rw [hli₁] at hloop
      have hproto := hRead it.bitsetValues rest
      have hnext := nextIt_success { it with stream := (true :: ((es.tszFields.map (fun cs =>
          writeXOR cs.prevXOR (cs.prevFloatBits ^^^ fieldBits sch m cs.fieldNum))).flatten ++
          protoBits)) ++ rest }
        hinv.noErr hinv.notDone hinv.consumed hinv.itSchema hinv.customEq hliq
        (by simp [List.cons_append, List.append_assoc]) hloop hproto
      exact hnext

theorem mem_clearFieldList {tags : List Nat} :
    ∀ {m : Msg} {p : Nat × Value}, p ∈ (clearFieldList m tags).fields → p.1 ∉ tags := by
  induction tags with
  | nil =>
    intro m p _ hmem
    simp at hmem
  | cons a rest ih =>
    intro m p h hmem
    rcases List.mem_cons.mp hmem with heq | hr
    · have hmem2 : p ∈ (clearField m a).fields := clearFieldList_fields_mem h
      have hpred := (List.mem_filter.mp hmem2).2
      rw [heq] at hpred
      simp at hpred
    · exact ih h hr

theorem lookup_trimCustom_mem {sch : Schema} {m : Msg} {t : Nat}
    (h : t ∈ customTags sch) : (trimCustom sch m).fields.lookup t = none := by
  apply lookup_eq_none_of_not_mem
  intro habs
  rw [List.mem_map] at habs
  obtain ⟨p, hp, rfl⟩ := habs
  exact mem_clearFieldList hp h

theorem getField_emptyMsg (sch : Schema) (t : Nat) :
    getField sch emptyMsg t = defaultValue sch t := rfl

theorem nextIt_success_first (st : ItState) {sch : Schema} {csl : List CustomState}
    {li : Option Msg} {csl' : List CustomState} {li' : Option Msg}
    {bs bs2 : Bits} {li2 : Option Msg} {bv' : List Nat} {bs3 : Bits}
    (herr : st.err = none) (hdone : st.done = false)
    (hcons : st.consumedFirstMessage = false)
    (hsch : st.schema = sch) (hcust : st.custom = csl)
    (hlast : st.lastIterated = li)
    (hstream : st.stream = true :: bs)
    (hloop : readFirstCustomLoop sch csl li bs = some (csl', li', bs2))
    (hproto : readProtoValuesIt sch li' st.bitsetValues bs2 =
      Except.ok (li2, bv', bs3)) :
    nextIt st = ({ st with custom := csl', lastIterated := li2,
                           bitsetValues := bv', stream := bs3,
                           consumedFirstMessage := true }, true) := by
  unfold nextIt
  have h1 : hasNextIt st = true := by simp [hasNextIt, herr, hdone]
  rw [h1]
  simp only [Bool.not_true, Bool.false_eq_true, if_false]
  rw [hstream]
  dsimp only [readBit]
  simp only [Bool.true_eq_false, if_false]
  rw [hcons]
  simp only [Bool.not_false, if_true]
  rw [hsch, hcust, hlast]
  rw [hloop]
  dsimp only
  rw [hproto]
  dsimp only
  rw [Prod.mk.injEq]
  refine ⟨rfl, ?_⟩
  simp [hasNextIt, herr, hdone]

theorem proto_first_read {sch : Schema} {m : Msg} (li₀ : Option Msg)
    (hwf : SchemaWF sch) (hc : Conforms sch m) :
    ∀ (bv : List Nat) (rest : Bits),
      readProtoValuesIt sch li₀ bv
          ((true :: false ::
            (bytesToBits (uvarintBytes (marshalMsg (trimCustom sch m)).length) ++
             bytesToBits (marshalMsg (trimCustom sch m)))) ++ rest) =
        Except.ok
          (some (((trimCustom sch m).fields.filter (fun p => !isZeroValue p.2)).foldl
            (fun a p => setField a p.1 p.2) (li₀.getD emptyMsg)), bv, rest) := by
  intro bv rest
  have hcm1 : Conforms sch (trimCustom sch m) := conforms_clearFieldList hc _
  have hlen : (trimCustom sch m).fields.length ≤ sch.length :=
    le_trans (clearFieldList_fields_length _ m) (fields_length_le_schema hc)
  have hm56 : (marshalMsg (trimCustom sch m)).length < 2 ^ 56 :=
    marshalMsg_length_lt hwf hlen
  have hm10 : (marshalMsg (trimCustom sch m)).length < 128 ^ 10 := by
    have h1 : (2 : Nat) ^ 56 ≤ 128 ^ 10 := by norm_num
    omega
  simp only [readProtoValuesIt, List.cons_append, List.append_assoc,
    List.nil_append, readBit, Bool.true_eq_false, Bool.false_eq_true,
    if_true, if_false, readUvarintBits_uvarint hm10,
    readNBytes_append _ _ (marshalMsg_lt_256 _),
    unmarshalMerge_marshal hwf hcm1 (li₀.getD emptyMsg)]

theorem lookup_trimCustom_not_mem {sch : Schema} {m : Msg} {t : Nat}
    (h : t ∉ customTags sch) :
    (trimCustom sch m).fields.lookup t = m.fields.lookup t :=
  lookup_clearFieldList_not_mem h m

theorem sync_first {sch : Schema} {m : Msg} (hwf : SchemaWF sch)
    (hnf : ∀ f ∈ sch, f.ftype ≠ FieldType.fFloat) (hc : Conforms sch m) :
    ∃ (es' : EncState) (m' : Msg),
      encodeMsg (encReset newEncoder [] sch) m =
        Except.ok (es', m', firstRecordBits sch m) ∧
      1 ≤ (firstRecordBits sch m).length ∧ es'.stream = firstRecordBits sch m ∧
      ∃ it' : ItState, SyncInv sch es' it' ∧
        (∃ li2, it'.lastIterated = some li2 ∧
          ∀ f ∈ sch, getField sch li2 f.tag = getField sch m f.tag) ∧
        ∀ rest : Bits,
          nextIt (newIterator sch (firstRecordBits sch m ++ rest)) =
            ({ it' with stream := rest }, true) := by
  have hE := @encodeMsg_first sch m (encReset newEncoder [] sch) hwf hc rfl rfl rfl rfl rfl
  have hcm1 : Conforms sch (trimCustom sch m) := conforms_clearFieldList hc _
  have hcdbl : ∀ cs ∈ customFields sch, cs.ftype = FieldType.fDouble :=
    customFields_double hnf
  have hfb : ∀ cs ∈ customFields sch, fieldBits sch m cs.fieldNum < 2 ^ 64 := by
    intro cs hcs
    obtain ⟨f, hf, rfl, -⟩ := customFields_mem hcs
    exact fieldBits_lt hwf hc hf
  have hfindc : ∀ cs ∈ customFields sch, ∃ f, findField sch cs.fieldNum = some f ∧
      f.ftype = FieldType.fDouble := by
    intro cs hcs
    obtain ⟨f, hf, rfl, hcust⟩ := customFields_mem hcs
    refine ⟨f, findField_eq_of_mem hwf hf, ?_⟩
    cases hft : f.ftype
    · rfl
    · exact absurd hft (hnf f hf)
    · rw [hft] at hcust
      simp [isCustomType] at hcust
  have hbget : ∀ t, getField sch
      (((customFields sch).foldl (fun acc cs => some (updateLastIterated sch acc
        { cs with prevFloatBits := fieldBits sch m cs.fieldNum,
                  prevXOR := fieldBits sch m cs.fieldNum })) none).getD emptyMsg) t =
      (if t ∈ (customFields sch).map CustomState.fieldNum
       then Value.vFloat64 (fieldBits sch m t) else defaultValue sch t) := by
    intro t
    have h := foldl_update_get sch (customFields sch) (fun cs =>
        { cs with prevFloatBits := fieldBits sch m cs.fieldNum,
                  prevXOR := fieldBits sch m cs.fieldNum })
      (fieldBits sch m) none t (fun cs _ => ⟨rfl, rfl⟩) hfindc
    simpa [getField_emptyMsg] using h
  have hpairs_nodup : (((trimCustom sch m).fields.filter
      (fun p => !isZeroValue p.2)).map Prod.fst).Nodup :=
    ((List.filter_sublist _).map Prod.fst).nodup hcm1.2.1
  have hout : ∀ f ∈ sch, getField sch
      (((trimCustom sch m).fields.filter (fun p => !isZeroValue p.2)).foldl
        (fun a p => setField a p.1 p.2)
        (((customFields sch).foldl (fun acc cs => some (updateLastIterated sch acc
          { cs with prevFloatBits := fieldBits sch m cs.fieldNum,
                    prevXOR := fieldBits sch m cs.fieldNum })) none).getD emptyMsg)) f.tag =
      getField sch m f.tag := by
    intro f hf
    rw [getField_merge _ _ f.tag hpairs_nodup,
      lookup_filter_isZero _ f.tag hcm1.2.1]
    by_cases hcust : isCustomType f.ftype = true
    · have hdd : f.ftype = FieldType.fDouble := by
        cases hft : f.ftype
        · rfl
        · exact absurd hft (hnf f hf)
        · rw [hft] at hcust
          simp [isCustomType] at hcust
      rw [lookup_trimCustom_mem ((mem_customTags_iff hwf hf).mpr hcust)]
      dsimp only
      rw [hbget f.tag,
        if_pos (show f.tag ∈ (customFields sch).map CustomState.fieldNum from
          (mem_customTags_iff hwf hf).mpr hcust),
        getField_double_eq hwf hc hf hdd]
    · have hnm : f.tag ∉ customTags sch :=
        fun habs => hcust ((mem_customTags_iff hwf hf).mp habs)
      rw [lookup_trimCustom_not_mem hnm]
      rcases hlk : m.fields.lookup f.tag with _ | v
      · dsimp only
        rw [hbget f.tag,
          if_neg (show f.tag ∉ (customFields sch).map CustomState.fieldNum from hnm)]
        simp [getField, hlk]
      · have hwfv := conforms_value_wf hwf hc hf hlk
        have hveq : v = getField sch m f.tag := by simp [getField, hlk]
        by_cases hz : isZeroValue v = true
        · dsimp only
          rw [if_pos hz]
          rw [hbget f.tag,
            if_neg (show f.tag ∉ (customFields sch).map CustomState.fieldNum from hnm),
            ← hveq, (isZeroValue_iff hwfv).mp hz, defaultValue_eq hwf hf]
        · have hz' : isZeroValue v = false := by simpa using hz
          dsimp only
          rw [hz']
          simp only [Bool.false_eq_true, if_false]
          rw [hveq]
  refine ⟨_, _, hE, Nat.succ_le_succ (Nat.zero_le _), rfl,
    { schema := sch,
      custom := (customFields sch).map (fun cs =>
        { cs with prevFloatBits := fieldBits sch m cs.fieldNum,
                  prevXOR := fieldBits sch m cs.fieldNum }),
      lastIterated := some (((trimCustom sch m).fields.filter
        (fun p => !isZeroValue p.2)).foldl (fun a p => setField a p.1 p.2)
        ((((customFields sch).foldl (fun acc cs => some (updateLastIterated sch acc
          { cs with prevFloatBits := fieldBits sch m cs.fieldNum,
                    prevXOR := fieldBits sch m cs.fieldNum })) none)).getD emptyMsg)),
      bitsetValues := [],
      consumedFirstMessage := true,
      done := false,
      err := none,
      stream := [] }, ?_, ⟨_, rfl, hout⟩, ?_⟩
  · refine ⟨rfl, rfl, rfl, rfl, rfl, ?_, ?_, ?_, rfl, rfl, rfl⟩
    · show (tszFirstStates sch m).map (fun cs => (cs.fieldNum, cs.ftype)) =
        (customFields sch).map (fun cs => (cs.fieldNum, cs.ftype))
      unfold tszFirstStates
      rw [List.map_map]
      rfl
    · show ∀ cs ∈ tszFirstStates sch m, cs.prevXOR < 2 ^ 64 ∧ cs.prevFloatBits < 2 ^ 64
      intro cs' hcs'
      rw [tszFirstStates, List.mem_map] at hcs'
      obtain ⟨cs, hcs, rfl⟩ := hcs'
      exact ⟨hfb cs hcs, hfb cs hcs⟩
    · refine ⟨trimCustom sch m, _, rfl, rfl, ?_, ?_⟩
      · intro f hf hq
        have hnm : f.tag ∉ customTags sch := by
          intro habs
          rw [mem_customTags_iff hwf hf, hq] at habs
          exact Bool.noConfusion habs
        rw [hout f hf, getField_trimCustom_not_custom hnm]
      · intro f hf hq
        exact getField_trimCustom_custom ((mem_customTags_iff hwf hf).mpr hq)
  · intro rest
    have hloop := readFirstCustomLoop_writer sch (customFields sch) (fieldBits sch m)
      none ((true :: false ::
        (bytesToBits (uvarintBytes (marshalMsg (trimCustom sch m)).length) ++
         bytesToBits (marshalMsg (trimCustom sch m)))) ++ rest)
      (fun cs hcs => ⟨hcdbl cs hcs, hfb cs hcs⟩)
    have hproto := proto_first_read ((customFields sch).foldl
        (fun acc cs => some (updateLastIterated sch acc
          { cs with prevFloatBits := fieldBits sch m cs.fieldNum,
                    prevXOR := fieldBits sch m cs.fieldNum })) none) hwf hc [] rest
    have hstr : (newIterator sch (firstRecordBits sch m ++ rest)).stream =
        true :: (((customFields sch).map (fun cs =>
          natToBits 64 (fieldBits sch m cs.fieldNum))).flatten ++
          ((true :: false ::
            (bytesToBits (uvarintBytes (marshalMsg (trimCustom sch m)).length) ++
             bytesToBits (marshalMsg (trimCustom sch m)))) ++ rest)) := by
      simp [newIterator, firstRecordBits, List.cons_append, List.append_assoc]
    have hnext := nextIt_success_first (newIterator sch (firstRecordBits sch m ++ rest))
      rfl rfl rfl rfl rfl rfl hstr hloop hproto
    exact hnext

theorem sync_chain {sch : Schema} (hwf : SchemaWF sch)
    (hnf : ∀ f ∈ sch, f.ftype ≠ FieldType.fFloat) (ms : List Msg) :
    ∀ (es : EncState) (it : ItState), SyncInv sch es it →
      (∀ m0 ∈ ms, Conforms sch m0) →
      ∃ (es' : EncState) (B : Bits) (outs : List Msg),
        encodeAllFrom es ms = Except.ok (es', B) ∧
        List.Forall₂ (fun d m0 => ∀ f ∈ sch,
          getField sch d f.tag = getField sch m0 f.tag) outs ms ∧
        ∀ fuel : Nat, B.length + 1 ≤ fuel →
          iterAll fuel { it with stream := B } = outs.map some := by
  induction ms with
  | nil =>
    intro es it hinv _
    refine ⟨es, [], [], rfl, List.Forall₂.nil, ?_⟩
    intro fuel hfuel
    cases fuel with
    | zero => omega
    | succ k =>
      have hnx : nextIt { it with stream := ([] : Bits) } =
          ({ it with stream := ([] : Bits), done := true }, false) := by
        unfold nextIt
        have h1 : hasNextIt { it with stream := ([] : Bits) } = true := by
          simp [hasNextIt, hinv.noErr, hinv.notDone]
        rw [h1]
        simp only [Bool.not_true, Bool.false_eq_true, if_false]
        rfl
      unfold iterAll
      rw [hnx]
      rfl
  | cons m ms' ih =>
    intro es it hinv hms
    obtain ⟨es₁, m', B₁, hEnc, hB₁, hstr₁, it₁, hinv₁, hout₁, hnext₁⟩ :=
      sync_step hwf hnf (hms m (by simp)) hinv
    obtain ⟨es₂, B₂, outs₂, hEnc₂, hfa₂, hIter₂⟩ := ih es₁ it₁ hinv₁
      (fun m0 hm0 => hms m0 (by simp [hm0]))
    obtain ⟨li2, hli2, hgets⟩ := hout₁
    refine ⟨es₂, B₁ ++ B₂, li2 :: outs₂, ?_, List.Forall₂.cons hgets hfa₂, ?_⟩
    · simp only [encodeAllFrom, hEnc, hEnc₂]
    · intro fuel hfuel
      cases fuel with
      | zero =>
        simp only [List.length_append] at hfuel
        omega
      | succ k =>
        have hk : B₂.length + 1 ≤ k := by
          simp only [List.length_append] at hfuel
          omega
        unfold iterAll
        rw [hnext₁ B₂]
        dsimp only
        rw [if_pos rfl]
        rw [hIter₂ k hk]
        rw [show ({ it₁ with stream := B₂ } : ItState).lastIterated = some li2 from hli2]
        rfl

/-- C1 (counterexample): with a schema declaring a 32-bit float custom
field (tag 1) next to a generic field (tag 2), one conforming message
setting only the generic field encodes successfully, but decoding yields a
single successful `Next` whose `Current` is nil — no message equal to the
input field-by-field is produced, because the iterator's custom-value
loops skip non-double fields and never consume the float's 64 bits. -/
theorem c1_counterexample :
    Conforms [⟨1, FieldType.fFloat⟩, ⟨2, FieldType.fGeneric⟩]
        ⟨[(2, Value.vGeneric 5)], false⟩ ∧
    (encodeAll [⟨1, FieldType.fFloat⟩, ⟨2, FieldType.fGeneric⟩]
        [⟨[(2, Value.vGeneric 5)], false⟩]).toOption.map
      (fun B => iterAll (B.length + 1)
        (newIterator [⟨1, FieldType.fFloat⟩, ⟨2, FieldType.fGeneric⟩] B)) =
      some [none] :=
  ⟨by decide, by decide⟩

/-- C1 (amended): for a well-formed schema without 32-bit float fields
(double custom fields and generic fields only), encoding any conforming
sequence `m₁…mₙ` on a freshly reset encoder and decoding the produced
stream yields exactly `n` successful `Next` calls with non-nil `Current`,
and the `i`-th reconstructed message agrees with `mᵢ` on every schema
field. -/
theorem c1_round_trip (sch : Schema) (ms : List Msg) (hwf : SchemaWF sch)
    (hnf : ∀ f ∈ sch, f.ftype ≠ FieldType.fFloat)
    (hc : ∀ m ∈ ms, Conforms sch m) :
    ∃ (B : Bits) (outs : List Msg),
      encodeAll sch ms = Except.ok B ∧
      iterAll (B.length + 1) (newIterator sch B) = outs.map some ∧
      List.Forall₂ (fun d m0 => ∀ f ∈ sch,
        getField sch d f.tag = getField sch m0 f.tag) outs ms := by
  cases ms with
  | nil =>
    refine ⟨[], [], rfl, ?_, List.Forall₂.nil⟩
    rfl
  | cons m ms' =>
    obtain ⟨es₁, m', hE1, hlen1, hstr1, it₁, hinv₁, hout₁, hnext₁⟩ :=
      sync_first hwf hnf (hc m (by simp))
    obtain ⟨es₂, B₂, outs₂, hEnc₂, hfa₂, hIter₂⟩ :=
      sync_chain hwf hnf ms' es₁ it₁ hinv₁ (fun m0 hm0 => hc m0 (by simp [hm0]))
    obtain ⟨li2, hli2, hgets⟩ := hout₁
    refine ⟨firstRecordBits sch m ++ B₂, li2 :: outs₂, ?_, ?_,
      List.Forall₂.cons hgets hfa₂⟩
    · unfold encodeAll
      simp only [encodeAllFrom, hE1, hEnc₂]
    · have hk : B₂.length + 1 ≤ (firstRecordBits sch m ++ B₂).length := by
        rw [List.length_append]
        omega
      unfold iterAll
      rw [hnext₁ B₂]
      dsimp only
      rw [if_pos rfl]
      rw [hIter₂ (firstRecordBits sch m ++ B₂).length hk]
      rw [show ({ it₁ with stream := B₂ } : ItState).lastIterated = some li2 from hli2]
      rfl

theorem c1_round_trip_witness :
    ∃ (B : Bits) (outs : List Msg),
      encodeAll [⟨1, FieldType.fDouble⟩, ⟨2, FieldType.fGeneric⟩]
          [⟨[(1, Value.vFloat64 5), (2, Value.vGeneric 7)], false⟩,
           ⟨[(2, Value.vGeneric 9)], false⟩] = Except.ok B ∧
      iterAll (B.length + 1)
          (newIterator [⟨1, FieldType.fDouble⟩, ⟨2, FieldType.fGeneric⟩] B) =
        outs.map some ∧
      List.Forall₂ (fun d m0 =>
        ∀ f ∈ [(⟨1, FieldType.fDouble⟩ : FieldDef), ⟨2, FieldType.fGeneric⟩],
          getField [⟨1, FieldType.fDouble⟩, ⟨2, FieldType.fGeneric⟩] d f.tag =
            getField [⟨1, FieldType.fDouble⟩, ⟨2, FieldType.fGeneric⟩] m0 f.tag) outs
        [⟨[(1, Value.vFloat64 5), (2, Value.vGeneric 7)], false⟩,
         ⟨[(2, Value.vGeneric 9)], false⟩] :=
  c1_round_trip [⟨1, FieldType.fDouble⟩, ⟨2, FieldType.fGeneric⟩]
    [⟨[(1, Value.vFloat64 5), (2, Value.vGeneric 7)], false⟩,
     ⟨[(2, Value.vGeneric 9)], false⟩]
    (by decide) (by decide) (by decide)

end M3Proto
